import Mathlib

/-!
# AutoCompleteCPP: prefix search over a trie with a bounded worker pool

Shallow embedding of `TrieNode.hpp` and `Trie.cpp`.

* A `std::string` is the list of its `char`s.
* `std::unordered_map<char, TrieNode_t*>` is the list of its bindings in iteration
  order.  The standard leaves that order unspecified; a fresh binding is put at the
  front here, and every statement about a search is proved from lemmas that hold
  for an arbitrary order of the children.
* The threads are an explicit transition system.  A state holds the members of
  `Trie_c` that the threads share, the detached `startThread` tasks that have not
  returned yet (each with its worker id and its stack of `traverse` frames), the
  position of the driving thread inside `findPrefixMatches`, and the log of the
  arguments `onFinnishedSearch` was called with.  One transition is one access to
  shared data (an append to `_results`, a read of `_stopAllWorkers`, a locked
  operation on `_idleWorkers`), together with the thread-local code around it.
  A schedule is a list of numbers; each number picks which enabled thread moves.
* `_workers` and `_dump` only store thread handles: every thread is detached right
  after it is created, so `joinable()` is false and nothing is ever moved to
  `_dump`.  They carry no behaviour and are left out, as is `_input`.
* The public interface is a list of events applied to the constructed object
  (`insertWord`, `findPrefixMatches`, `requestResult`, a transition of some thread).
* Of `timer.hpp` the integer members of `PreciseTime` and the functions `get`,
  `getSeperatedTimeComponents` and `convert<std::chrono::minutes>` are embedded;
  `int64_t` division is the truncating division of `Int`.
-/

namespace AutoComplete

/-- A `std::string`, as the sequence of its characters. -/
abbrev Word := List Char

/-- Node of the prefix tree (`struct TrieNode_t`): the leaf flag and the children map,
the latter as its bindings in iteration order. -/
inductive TrieNode_t where
  | mk (_isLeaf : Bool) (_children : List (Char × TrieNode_t)) : TrieNode_t

namespace TrieNode_t

/-- Member `_isLeaf`. -/
def _isLeaf : TrieNode_t → Bool
  | mk l _ => l

/-- Member `_children`. -/
def _children : TrieNode_t → List (Char × TrieNode_t)
  | mk _ cs => cs

/-- What `TrieNode_t()` constructs: no children, `_isLeaf( false )`. -/
def fresh : TrieNode_t := mk false []

end TrieNode_t

open TrieNode_t

/-- Lookup in a children map: `_children.count( letter )` is nonzero exactly when this is
`some`, and then `_children.at( letter )` (or `_children[ letter ]`) is its value. -/
def findChild (letter : Char) : List (Char × TrieNode_t) → Option TrieNode_t
  | [] => none
  | (c, n) :: rest => if c = letter then some n else findChild letter rest

/-- The children map after the node bound to `letter` has been mutated into `node`
(the binding keeps its place). -/
def setChild (letter : Char) (node : TrieNode_t) :
    List (Char × TrieNode_t) → List (Char × TrieNode_t)
  | [] => []
  | (c, n) :: rest =>
    if c = letter then (c, node) :: rest else (c, n) :: setChild letter node rest

/-- The loop of `Trie_c::insertWord`, started at the node `nodePtr` points to, as a function
of that node: for each letter the child is created if absent and entered; the last
node entered gets `_isLeaf = true`.  A new binding is put at the front of the list; where
`std::unordered_map` puts it in its iteration order is not specified, so what is stated
about the order of results is stated for every trie value, not for the order chosen
here. -/
def insertFrom : TrieNode_t → Word → TrieNode_t
  | mk _ cs, [] => mk true cs
  | mk l cs, letter :: word =>
    match findChild letter cs with
    | none => mk l ((letter, insertFrom fresh word) :: cs)
    | some child => mk l (setChild letter (insertFrom child word) cs)

/-- The descent of `Trie_c::findPrefixMatches` (the loop over the letters of the prefix):
`none` when some letter is absent among the children, else the node reached. -/
def descend : TrieNode_t → Word → Option TrieNode_t
  | node, [] => some node
  | node, letter :: rest =>
    match findChild letter node._children with
    | none => none
    | some child => descend child rest

/-- A frame of `Trie_c::traverse` on the call stack of a worker thread. -/
inductive Frame where
  /-- `traverse( rootSubT, word, id )` has just been entered. -/
  | visit (rootSubT : TrieNode_t) (word : Word) : Frame
  /-- At the head of the `for` loop over the children of a branch point;
  `rest` are the children not yet taken. -/
  | loop (rest : List (Char × TrieNode_t)) (word : Word) : Frame
  /-- In the loop body for the child `(letter, tnPtr)`, after `_stopAllWorkers` was read as
  false and before `reserveFreeWorker` is called. -/
  | reserve (letter : Char) (tnPtr : TrieNode_t) (rest : List (Char × TrieNode_t))
      (word : Word) : Frame

/-- A detached thread running `Trie_c::startThread( .., .., workerId )`: its frames of
`traverse`, innermost first.  With no frame left it stands before the locked release. -/
structure Worker where
  workerId : Nat
  stack : List Frame

/-- Where the driving thread stands. -/
inductive Driver where
  /-- Outside `findPrefixMatches`. -/
  | ready : Driver
  /-- In the `while` loop of `stopAllWorkers`, `_stopAllWorkers` set. -/
  | spin (pfx : Word) : Driver
  /-- Past the loop of `stopAllWorkers`, before `_stopAllWorkers = false`. -/
  | unflag (pfx : Word) : Driver
  /-- Before `clearResults()`. -/
  | clear (pfx : Word) : Driver
  /-- Before the descent along the prefix and what follows it. -/
  | descend (pfx : Word) : Driver

/-- State of a `Trie_c` object together with the threads working on it. -/
structure Trie_c where
  _root : TrieNode_t
  _numWorkers : Nat
  _idleWorkers : List Nat
  _results : List Word
  _stopAllWorkers : Bool
  /-- The `startThread` tasks that have been created and have not returned. -/
  running : List Worker
  driver : Driver
  /-- The arguments of the calls of `onFinnishedSearch` so far, oldest first. -/
  delivered : List (List Word)

namespace Trie_c

/-- The constructor `Trie_c::Trie_c( num )`. -/
def new (num : Nat) : Trie_c :=
  let n := if num = 0 then 1 else num
  { _root := fresh
    _numWorkers := n
    _idleWorkers := List.range n
    _results := []
    _stopAllWorkers := false
    running := []
    driver := Driver.ready
    delivered := [] }

/-- `Trie_c::insertWord( word )`. -/
def insertWord (t : Trie_c) (word : Word) : Trie_c :=
  { t with _root := insertFrom t._root word }

/-- The dictionary build: a fresh trie with `num` requested workers into which the words of
`D` are inserted in order. -/
def build (num : Nat) (D : List Word) : Trie_c :=
  D.foldl insertWord (new num)

/-- `Trie_c::reserveFreeWorker`: the id popped from the front of the idle list and the
rest, or `none` when the list is empty. -/
def reserveFreeWorker (idle : List Nat) : Option (Nat × List Nat) :=
  match idle with
  | [] => none
  | index :: rest => some (index, rest)

/-- The driving thread enters `findPrefixMatches( pfx )` and performs the first statement of
`stopAllWorkers`.  A call can only be issued by a driver that is outside the function. -/
def findPrefixMatches (pfx : Word) (t : Trie_c) : Trie_c :=
  match t.driver with
  | Driver.ready => { t with _stopAllWorkers := true, driver := Driver.spin pfx }
  | _ => t

/-- Whether the driving thread can make progress: it is inside `findPrefixMatches` and not
held in the loop of `stopAllWorkers`.  The loop is taken as it is written, with the idle
list read anew at every turn; `leaveLoop` is the transition of a loop that is not. -/
def driverEnabled (t : Trie_c) : Bool :=
  match t.driver with
  | Driver.ready => false
  | Driver.spin _ => decide (t._numWorkers ≤ t._idleWorkers.length)
  | _ => true

/-- One transition of the driving thread inside `findPrefixMatches`, the loop of
`stopAllWorkers` taken as it is written (see `leaveLoop` for the loop that does not hold
the thread).  After a successful reserve the thread is created and detached in the same
transition. -/
def driverStep (t : Trie_c) : Trie_c :=
  match t.driver with
  | Driver.ready => t
  | Driver.spin pfx =>
    if t._idleWorkers.length < t._numWorkers then t else { t with driver := Driver.unflag pfx }
  | Driver.unflag pfx => { t with _stopAllWorkers := false, driver := Driver.clear pfx }
  | Driver.clear pfx => { t with _results := [], driver := Driver.descend pfx }
  | Driver.descend pfx =>
    match descend t._root pfx with
    | none => { t with delivered := t.delivered ++ [t._results], driver := Driver.ready }
    | some reached =>
      match reserveFreeWorker t._idleWorkers with
      | none => { t with driver := Driver.ready }
      | some (index, rest) =>
        { t with _idleWorkers := rest
                 running := t.running ++ [⟨index, [Frame.visit reached pfx]⟩]
                 driver := Driver.ready }

/-- One transition of the worker `w`, the `i`-th of the running ones.  The statements on
`_workers` and `_dump` that follow a successful reserve are not part of it: the new
task simply runs; `Handles.workerAct` takes them into account. -/
def workerAct (t : Trie_c) (i : Nat) (w : Worker) : Trie_c :=
  match w.stack with
  | [] =>
    -- `traverse` has returned to `startThread`: locked release, maybe the callback
    let idle := t._idleWorkers ++ [w.workerId]
    { t with _idleWorkers := idle
             running := t.running.eraseIdx i
             delivered :=
               if idle.length = t._numWorkers then t.delivered ++ [t._results]
               else t.delivered }
  | Frame.visit node word :: below =>
    let results := if node._isLeaf then t._results ++ [word] else t._results
    let stack :=
      match node._children with
      | [] => below
      | [(letter, child)] => Frame.visit child (word ++ [letter]) :: below
      | cs => Frame.loop cs word :: below
    { t with _results := results, running := t.running.set i ⟨w.workerId, stack⟩ }
  | Frame.loop [] _ :: below =>
    { t with running := t.running.set i ⟨w.workerId, below⟩ }
  | Frame.loop ((letter, tnPtr) :: rest) word :: below =>
    if t._stopAllWorkers then
      { t with running := t.running.set i ⟨w.workerId, below⟩ }
    else
      { t with running :=
          t.running.set i ⟨w.workerId, Frame.reserve letter tnPtr rest word :: below⟩ }
  | Frame.reserve letter tnPtr rest word :: below =>
    match reserveFreeWorker t._idleWorkers with
    | some (newCandidateWorkerId, idle) =>
      { t with _idleWorkers := idle
               running :=
                 t.running.set i ⟨w.workerId, Frame.loop rest word :: below⟩ ++
                   [⟨newCandidateWorkerId, [Frame.visit tnPtr (word ++ [letter])]⟩] }
    | none =>
      { t with running :=
          t.running.set i (Worker.mk w.workerId
            (Frame.visit tnPtr (word ++ [letter]) :: Frame.loop rest word :: below)) }

/-- One transition of the `i`-th running worker (nothing when there is none). -/
def workerStep (t : Trie_c) (i : Nat) : Trie_c :=
  match t.running.get? i with
  | none => t
  | some w => workerAct t i w

/-- One transition of the system: `k` picks among the threads that can move, the driving
thread first when it is enabled, then the running workers. -/
def step (t : Trie_c) (k : Nat) : Trie_c :=
  let m := if driverEnabled t then 1 else 0
  let total := m + t.running.length
  if total = 0 then t
  else if k % total < m then driverStep t
  else workerStep t (k % total - m)

/-- The state after the transitions picked by a schedule. -/
def run (sched : List Nat) (t : Trie_c) : Trie_c :=
  sched.foldl step t

end Trie_c

/-! ## Specification-side notions on tries -/

/-- The string `w` is stored: the path it spells from `t` exists and ends at a node with
`_isLeaf = true`. -/
def contains (t : TrieNode_t) (w : Word) : Bool :=
  match descend t w with
  | some node => node._isLeaf
  | none => false

mutual
/-- Depth-first pre-order listing of the words below a node, each prepended by `word`: the
word of the node itself first, then the listings of the children in iteration order. -/
def preorder : TrieNode_t → Word → List Word
  | mk l cs, word => (if l then [word] else []) ++ preorderC cs word
/-- The listings of the children in a children map, in iteration order. -/
def preorderC : List (Char × TrieNode_t) → Word → List Word
  | [], _ => []
  | (c, n) :: rest, word => preorder n (word ++ [c]) ++ preorderC rest word
end

mutual
/-- No node below (or at) this one has two children under the same letter, which is what
a map guarantees. -/
def WellFormed : TrieNode_t → Prop
  | mk _ cs => WellFormedC cs
/-- The same for the bindings of a children map. -/
def WellFormedC : List (Char × TrieNode_t) → Prop
  | [] => True
  | (c, n) :: rest => findChild c rest = none ∧ WellFormed n ∧ WellFormedC rest
end

mutual
/-- Upper bound on the number of transitions a worker needs for `traverse` on a node. -/
def cost : TrieNode_t → Nat
  | mk _ cs => 2 + costC cs
/-- Upper bound on the transitions for the rest of a loop over children, a release of a
handed-off task included. -/
def costC : List (Char × TrieNode_t) → Nat
  | [] => 1
  | (_, n) :: rest => 3 + cost n + costC rest
end

/-- What a search for `pfx` has to deliver: nothing when the descent fails, else the
listing below the node reached. -/
def target (root : TrieNode_t) (pfx : Word) : List Word :=
  match descend root pfx with
  | none => []
  | some node => preorder node pfx

/-! ## Specification-side notions on states -/

/-- The words a frame will still append, in the order a lone worker appends them. -/
def Frame.pending : Frame → List Word
  | Frame.visit node word => preorder node word
  | Frame.loop rest word => preorderC rest word
  | Frame.reserve letter tnPtr rest word =>
    preorder tnPtr (word ++ [letter]) ++ preorderC rest word

/-- Upper bound on the transitions a frame still needs. -/
def Frame.cost : Frame → Nat
  | Frame.visit node _ => AutoComplete.cost node
  | Frame.loop rest _ => costC rest
  | Frame.reserve _ tnPtr rest _ => 2 + AutoComplete.cost tnPtr + costC rest

/-- The words the frames of a stack will still append. -/
def pendingStack : List Frame → List Word
  | [] => []
  | f :: below => f.pending ++ pendingStack below

/-- The words the running workers will still append (handed-off children not counted
twice: a child sits in exactly one frame). -/
def pendingAll : List Worker → List Word
  | [] => []
  | w :: ws => pendingStack w.stack ++ pendingAll ws

/-- Upper bound on the transitions of a stack of frames. -/
def costStack : List Frame → Nat
  | [] => 0
  | f :: below => f.cost + costStack below

/-- Upper bound on the transitions of the running workers, the release of each included. -/
def costAll : List Worker → Nat
  | [] => 0
  | w :: ws => 1 + costStack w.stack + costAll ws

/-- Upper bound on the transitions the driving thread still makes, the work of the session
it may start included. -/
def Driver.cost (root : TrieNode_t) : Driver → Nat
  | Driver.ready => 0
  | Driver.spin _ => 5 + AutoComplete.cost root
  | Driver.unflag _ => 4 + AutoComplete.cost root
  | Driver.clear _ => 3 + AutoComplete.cost root
  | Driver.descend _ => 2 + AutoComplete.cost root

namespace Trie_c

/-- Upper bound on the number of transitions left. -/
def fuel (t : Trie_c) : Nat :=
  t.driver.cost t._root + costAll t.running

/-- Nothing is in flight: the driving thread is outside `findPrefixMatches` and no worker
runs. -/
def Quiet (t : Trie_c) : Prop :=
  t.driver = Driver.ready ∧ t.running = []

/-- The pool invariant: every worker slot is either in the idle list or held by a running
task, and there is at least one slot. -/
def Pool (t : Trie_c) : Prop :=
  0 < t._numWorkers ∧ t._idleWorkers.length + t.running.length = t._numWorkers

/-- Invariant of a search for `p` that was called with nothing in flight and the callback
log `d0`: while the driving thread is inside `findPrefixMatches` no worker runs and
nothing was delivered; afterwards the results together with the words still pending
are a rearrangement of the target, and the callback has been called exactly when the
last worker has left, with the results. -/
def Session (d0 : List (List Word)) (p : Word) (t : Trie_c) : Prop :=
  match t.driver with
  | Driver.spin q => q = p ∧ t.running = [] ∧ t.delivered = d0
  | Driver.unflag q => q = p ∧ t.running = [] ∧ t.delivered = d0
  | Driver.clear q => q = p ∧ t.running = [] ∧ t.delivered = d0 ∧ t._stopAllWorkers = false
  | Driver.descend q =>
    q = p ∧ t.running = [] ∧ t.delivered = d0 ∧ t._stopAllWorkers = false ∧ t._results = []
  | Driver.ready =>
    t._stopAllWorkers = false ∧
    (t._results ++ pendingAll t.running).Perm (target t._root p) ∧
    ((t.running ≠ [] ∧ t.delivered = d0) ∨
      (t.running = [] ∧ t.delivered = d0 ++ [t._results]))

/-- The dictionary of the scenario: cat, car, cart, dog. -/
def exampleDict : List Word :=
  [['c', 'a', 't'], ['c', 'a', 'r'], ['c', 'a', 'r', 't'], ['d', 'o', 'g']]

/-- The node the prefix "ca" leads to in the trie of `exampleDict`. -/
def exampleNode : TrieNode_t :=
  TrieNode_t.mk false
    [('r', TrieNode_t.mk true [('t', TrieNode_t.mk true [])]), ('t', TrieNode_t.mk true [])]

/-- Invariant of a search for `p` on a pool with a single worker: once the driving thread has
left `findPrefixMatches`, the results followed by the words still pending are the
target, in this order. -/
def Solo (p : Word) (t : Trie_c) : Prop :=
  t._numWorkers = 1 ∧
    (t.driver = Driver.ready → t._results ++ pendingAll t.running = target t._root p)

/-- The state of a search for a prefix whose descent fails, `n` transitions after the call
(made with the callback log `d0` and the idle list `idle0`): no worker runs, the idle
list is untouched, and the driving thread has reached the `n`-th of its statements. -/
def Absent (d0 : List (List Word)) (idle0 : List Nat) (p : Word) (n : Nat) (t : Trie_c) :
    Prop :=
  t.running = [] ∧ t._idleWorkers = idle0 ∧ t._numWorkers ≤ idle0.length ∧
  descend t._root p = none ∧
  match n with
  | 0 => t.driver = Driver.spin p ∧ t.delivered = d0
  | 1 => t.driver = Driver.unflag p ∧ t.delivered = d0
  | 2 => t.driver = Driver.clear p ∧ t.delivered = d0
  | 3 => t.driver = Driver.descend p ∧ t.delivered = d0 ∧ t._results = []
  | _ => t.driver = Driver.ready ∧ t.delivered = d0 ++ [[]]

/-- Invariant of a search for `p` that may have been called while an older session was still
running: the driving thread waits in `stopAllWorkers`, or the state is one of a
search called with nothing in flight. -/
def Draining (p : Word) (t : Trie_c) : Prop :=
  t.driver = Driver.spin p ∨ ∃ d0, Session d0 p t

/-- What one transition of a worker `w` does to a state `t`, giving `t'`: `w` is replaced
by `repl` (itself with a new stack, or nothing after its release), the tasks `spawned`
are started, the words `added` are appended to the results. -/
structure WorkerEffect (t : Trie_c) (w : Worker) (t' : Trie_c)
    (pre post repl spawned : List Worker) (added : List Word) : Prop where
  running_eq : t.running = pre ++ w :: post
  running_new : t'.running = pre ++ repl ++ post ++ spawned
  root_new : t'._root = t._root
  numWorkers_new : t'._numWorkers = t._numWorkers
  flag_new : t'._stopAllWorkers = t._stopAllWorkers
  driver_new : t'.driver = t.driver
  results_new : t'._results = t._results ++ added
  delivered_new : t'.delivered =
    if w.stack.isEmpty ∧ t._idleWorkers.length + 1 = t._numWorkers
    then t.delivered ++ [t._results] else t.delivered
  release : w.stack = [] →
    repl = [] ∧ spawned = [] ∧ added = [] ∧ t'._idleWorkers = t._idleWorkers ++ [w.workerId]
  carry_on : w.stack ≠ [] →
    repl.length = 1 ∧ t'._idleWorkers.length + spawned.length = t._idleWorkers.length
  cost_lt : costAll repl + costAll spawned < costAll [w]
  exact : t._stopAllWorkers = false →
    added ++ pendingAll spawned ++ pendingAll repl = pendingAll [w]
  sound : (added ++ pendingAll spawned ++ pendingAll repl).Sublist (pendingAll [w])

end Trie_c

/-! ## The public interface as events -/

namespace Trie_c

/-- `Trie_c::requestResult`: the copy of `_results` it returns, paired with the state it
leaves behind. -/
def requestResult (t : Trie_c) : List Word × Trie_c :=
  (t._results, t)

/-- What can happen to a `Trie_c` object with a single driving thread: the driving thread
calls `insertWord`, `findPrefixMatches` or `requestResult`, or some thread makes a
transition. -/
inductive Event where
  | insert (word : Word) : Event
  | search (pfx : Word) : Event
  | request : Event
  | tick (k : Nat) : Event

/-- The state after an event.  The driving thread can only call `insertWord` while it is
outside `findPrefixMatches`. -/
def apply (t : Trie_c) : Event → Trie_c
  | Event.insert word =>
    match t.driver with
    | Driver.ready => insertWord t word
    | _ => t
  | Event.search pfx => findPrefixMatches pfx t
  | Event.request => (requestResult t).2
  | Event.tick k => step t k

/-- The state reached from the constructor by a sequence of events. -/
def exec (num : Nat) (events : List Event) : Trie_c :=
  events.foldl apply (new num)

/-- Whether an event is a call of `findPrefixMatches`. -/
def Event.isSearch : Event → Bool
  | Event.search _ => true
  | _ => false

/-- Whether an event is a call of `insertWord`. -/
def Event.isInsert : Event → Bool
  | Event.insert _ => true
  | _ => false

/-- Past the loop of `stopAllWorkers` and still inside `findPrefixMatches`, no worker runs. -/
def Gate (t : Trie_c) : Prop :=
  match t.driver with
  | Driver.unflag _ => t.running = []
  | Driver.clear _ => t.running = []
  | Driver.descend _ => t.running = []
  | _ => True

/-- Invariant of a search for `p` called when the callback log was `d`: the driving thread
waits in `stopAllWorkers` and the log has only grown, or the state is one of a search
called with nothing in flight and a log that extends `d`. -/
def Called (d : List (List Word)) (p : Word) (t : Trie_c) : Prop :=
  (t.driver = Driver.spin p ∧ d <+: t.delivered) ∨ ∃ d0, d <+: d0 ∧ Session d0 p t

end Trie_c

/-! ## `timer.hpp`: the class `PreciseTime` -/

namespace tool_n

/-- `h2m`: `static_cast<t>(h * 60.)` at an integer type `t`.  The product is formed in
`double` and cast back; it is exact while it stays below `2 ^ 53` in size. -/
def h2m (h : Int) : Int := h * 60

/-- `s2m`: `static_cast<t>(s / 60.)` at an integer type `t`.  The quotient is formed in
`double` and the cast rounds toward zero, which for `s` below `2 ^ 53` in size is the
truncating integer division. -/
def s2m (s : Int) : Int := Int.tdiv s 60

/-- The integer members of `class PreciseTime`: the counts of `nano_seconds`, `seconds` and
`hours` (each an `int64_t`) and `exponent`.  The members `sub_nano_seconds` (a `double`)
and `has_rolled_over` play no part in the functions below. -/
structure PreciseTime where
  nano_seconds : Int
  seconds : Int
  hours : Int
  exponent : Int

namespace PreciseTime

/-- The time 2h 3m 44s 40ms 66us 12ns of the comments in `timer.hpp`, as it is stored. -/
def sample : PreciseTime :=
  { nano_seconds := 40066012, seconds := 224, hours := 2, exponent := 1 }

/-- A time with negative members: -1s -500ms -1us -500ns, as it is stored. -/
def sampleNegative : PreciseTime :=
  { nano_seconds := -500001500, seconds := -1, hours := 0, exponent := 1 }

/-- `get<std::chrono::nanoseconds>()`.  The division of `int64_t` truncates; no intermediate
value of the `get` functions is larger in size than the member it is taken from, so
nothing wraps. -/
def get_nanoseconds (pt : PreciseTime) : Int :=
  let ns := pt.nano_seconds
  ns - (Int.tdiv ns 1000) * 1000

/-- `get<std::chrono::microseconds>()`. -/
def get_microseconds (pt : PreciseTime) : Int :=
  let us := Int.tdiv pt.nano_seconds 1000
  us - (Int.tdiv us 1000) * 1000

/-- `get<std::chrono::milliseconds>()`. -/
def get_milliseconds (pt : PreciseTime) : Int :=
  let ms := Int.tdiv pt.nano_seconds 1000000
  ms - (Int.tdiv ms 1000) * 1000

/-- `get<std::chrono::seconds>()`. -/
def get_seconds (pt : PreciseTime) : Int :=
  let s := pt.seconds
  s - (Int.tdiv s 60) * 60

/-- `get<std::chrono::minutes>()`. -/
def get_minutes (pt : PreciseTime) : Int :=
  let m := Int.tdiv pt.seconds 60
  m - (Int.tdiv m 60) * 60

/-- `get<std::chrono::hours>()`. -/
def get_hours (pt : PreciseTime) : Int :=
  pt.hours

/-- `getSeperatedTimeComponents()`: the six components, nanoseconds first. -/
def getSeperatedTimeComponents (pt : PreciseTime) : List Int :=
  [pt.get_nanoseconds, pt.get_microseconds, pt.get_milliseconds, pt.get_seconds,
    pt.get_minutes, pt.get_hours]

/-- `convert<std::chrono::minutes>()`: `s2m(seconds.count() + h2m(hours.count()))`. -/
def convert_minutes (pt : PreciseTime) : Int :=
  s2m (pt.seconds + h2m pt.hours)

/-- What the comment above `convert<std::chrono::minutes>()` promises: the hours in
minutes plus the whole minutes of the seconds. -/
def documented_minutes (pt : PreciseTime) : Int :=
  h2m pt.hours + s2m pt.seconds

end PreciseTime

end tool_n

/-! ## Notions for cancellation and for unbranching subtrees -/

mutual
/-- The words `traverse` appends on a node when every read of `_stopAllWorkers` gives true:
the word of the node, then the same along a single child, down to and including the
first node that has no child or more than one. -/
def cancelledWords : TrieNode_t → Word → List Word
  | mk l cs, word => (if l then [word] else []) ++ cancelledWordsC cs word
/-- The words appended below the children of a node under cancellation: those of a single
child, none for a branch point. -/
def cancelledWordsC : List (Char × TrieNode_t) → Word → List Word
  | [], _ => []
  | [(c, n)], word => cancelledWords n (word ++ [c])
  | _ :: _ :: _, _ => []
end

mutual
/-- Every node at or below this one has at most one child. -/
def Chain : TrieNode_t → Prop
  | mk _ cs => cs.length ≤ 1 ∧ ChainC cs
/-- The same for the nodes in a children map. -/
def ChainC : List (Char × TrieNode_t) → Prop
  | [] => True
  | (_, n) :: rest => Chain n ∧ ChainC rest
end

/-- Whether a frame stands between the read of `_stopAllWorkers` and `reserveFreeWorker`. -/
def Frame.isReserve : Frame → Bool
  | Frame.reserve _ _ _ _ => true
  | _ => false

/-- No frame of the stack stands before a call of `reserveFreeWorker`. -/
def NoReserve (stack : List Frame) : Prop :=
  ∀ f ∈ stack, f.isReserve = false

/-- The words the frames of a stack append when every read of `_stopAllWorkers` gives true
(for stacks without a frame before `reserveFreeWorker`). -/
def cancelledStack : List Frame → List Word
  | [] => []
  | Frame.visit node word :: below => cancelledWords node word ++ cancelledStack below
  | _ :: below => cancelledStack below

/-- The stack of a worker in a subtree without branch points: `traverse` has returned, or it
has just been entered on a node of such a subtree from `startThread`. -/
def ChainStack (stack : List Frame) : Prop :=
  stack = [] ∨ ∃ node word, stack = [Frame.visit node word] ∧ Chain node

namespace Trie_c

/-- The next `n` transitions of the `i`-th running worker inside `traverse`, with no other
thread moving in between; none once `traverse` has returned to `startThread`. -/
def traverseSteps (i : Nat) : Nat → Trie_c → Trie_c
  | 0, t => t
  | n + 1, t =>
    match t.running.get? i with
    | none => t
    | some w => if w.stack.isEmpty then t else traverseSteps i n (workerAct t i w)

/-- Invariant of a search for `p`, called with the idle list `idle0` and nothing in flight,
whose prefix node has no branch point below: inside `findPrefixMatches` the idle list
is untouched; afterwards no task runs, or exactly one, which holds the id taken from
the front of `idle0` while the idle list is the rest of `idle0`. -/
def ChainSession (idle0 : List Nat) (p : Word) (t : Trie_c) : Prop :=
  match t.driver with
  | Driver.ready =>
    t.running = [] ∨
      ∃ w, t.running = [w] ∧ idle0 = w.workerId :: t._idleWorkers ∧ ChainStack w.stack
  | Driver.spin q => q = p ∧ t.running = [] ∧ t._idleWorkers = idle0
  | Driver.unflag q => q = p ∧ t.running = [] ∧ t._idleWorkers = idle0
  | Driver.clear q => q = p ∧ t.running = [] ∧ t._idleWorkers = idle0
  | Driver.descend q => q = p ∧ t.running = [] ∧ t._idleWorkers = idle0

end Trie_c

namespace Trie_c

/-- The scenario dictionary on one worker, a search for the empty prefix under way: the worker
has entered the root and stands at the head of the loop over its two children. -/
def exampleRunning : Trie_c :=
  run [0, 0, 0, 0, 0] (findPrefixMatches [] (build 1 exampleDict))

/-- The state `exampleRunning` after a new search, for "ca", has been issued: the flag is
set and the driving thread waits in `stopAllWorkers`. -/
def exampleCancelled : Trie_c :=
  findPrefixMatches ['c', 'a'] exampleRunning

/-- The worker of `exampleRunning` and `exampleCancelled`. -/
def exampleWorker : Worker :=
  ⟨0, [Frame.loop (build 1 exampleDict)._root._children []]⟩

/-- The events of the scenario up to the descent of a search for "ca": the four insertions,
the call, and three transitions of the driving thread. -/
def exampleEvents : List Event :=
  exampleDict.map Event.insert ++
    [Event.search ['c', 'a'], Event.tick 0, Event.tick 0, Event.tick 0]

/-- The node the prefix "d" leads to in the trie of `exampleDict`: the chain o, g. -/
def exampleChain : TrieNode_t :=
  TrieNode_t.mk false [('o', TrieNode_t.mk false [('g', TrieNode_t.mk true [])])]

end Trie_c

/-! ## Notions for the pool and for `stopAllWorkers` -/

namespace Trie_c

/-- `Trie_c::reserveFreeWorker( index )` with its out-parameter spelled out: the value
returned, the out-parameter after the call and the idle list after the call. -/
def reserveFreeWorkerOut (idle : List Nat) (index : Nat) : Bool × Nat × List Nat :=
  match idle with
  | [] => (false, index, [])
  | front :: rest => (true, front, rest)

/-- The cancel flag is set exactly while the driving thread is inside `stopAllWorkers`. -/
def Flagged (t : Trie_c) : Prop :=
  match t.driver with
  | Driver.spin _ => t._stopAllWorkers = true
  | Driver.unflag _ => t._stopAllWorkers = true
  | _ => t._stopAllWorkers = false

/-- The ids in the idle list together with the ids held by the running tasks are the ids
`0, ..., _numWorkers - 1`, each once. -/
def Ids (t : Trie_c) : Prop :=
  (t._idleWorkers ++ t.running.map Worker.workerId).Perm (List.range t._numWorkers)

end Trie_c

namespace Trie_c

/-- A fully idle pool of three workers holding the scenario dictionary. -/
def exampleIdle : Trie_c :=
  build 3 exampleDict

/-- Events that leave a pool of two workers with a running session on the scenario dictionary. -/
def exampleBusy : List Event :=
  [Event.insert ['c', 'a', 't'], Event.insert ['c', 'a', 'r'], Event.insert ['d', 'o', 'g'],
   Event.search [], Event.tick 0, Event.tick 0, Event.tick 0, Event.tick 0, Event.tick 0,
   Event.tick 0, Event.tick 0]

end Trie_c

namespace Trie_c

/-- The first task of `exampleBusy`: it stands in the loop over the children of the root. -/
def exampleLooping : Worker :=
  ⟨0, [Frame.loop [('c', TrieNode_t.mk false [('a', TrieNode_t.mk false
    [('r', TrieNode_t.mk true []), ('t', TrieNode_t.mk true [])])])] []]⟩

end Trie_c

/-! ## Notions for the shape of a trie -/

mutual
/-- The number of nodes at and below a node. -/
def size : TrieNode_t → Nat
  | mk _ cs => 1 + sizeC cs
/-- The number of nodes at and below the children in a children map. -/
def sizeC : List (Char × TrieNode_t) → Nat
  | [] => 0
  | (_, n) :: rest => size n + sizeC rest
end

/-- The number of leading letters of `w` that the loop of `insertWord` finds present: the
length of the longest beginning of `w` that is a path from the node. -/
def matchLen : TrieNode_t → Word → Nat
  | _, [] => 0
  | mk _ cs, letter :: word =>
    match findChild letter cs with
    | none => 0
    | some child => 1 + matchLen child word

/-- The string `v` is a path from the node: the descent along it reaches a node. -/
def hasPath (t : TrieNode_t) (v : Word) : Bool :=
  (descend t v).isSome

/-- Two nodes are equal as trees of character-keyed children maps with leaf flags: the same
strings are paths, and the nodes they reach carry the same leaf flag. -/
def SameTrie (s t : TrieNode_t) : Prop :=
  ∀ v, hasPath s v = hasPath t v ∧ contains s v = contains t v

mutual
/-- At and below the node, every node without children is a leaf. -/
def Live : TrieNode_t → Prop
  | mk l cs => (cs = [] → l = true) ∧ LiveC cs
/-- The same for the nodes in a children map. -/
def LiveC : List (Char × TrieNode_t) → Prop
  | [] => True
  | (_, n) :: rest => Live n ∧ LiveC rest
end

/-! ## `timer.hpp`: the comparison operators of `PreciseTime` -/

namespace tool_n

namespace PreciseTime

/-- The member `operator==`, with `a` for `*this`. -/
def operator_eq (a pt : PreciseTime) : Bool :=
  decide (pt.exponent = a.exponent) && decide (pt.nano_seconds = a.nano_seconds) &&
    decide (pt.seconds = a.seconds) && decide (pt.hours = a.hours)

/-- The member `operator!=`. -/
def operator_ne (a pt : PreciseTime) : Bool :=
  !(operator_eq a pt)

/-- The member `operator<`: hours first, then seconds, then nanoseconds; every path that is
not a `return true` falls through to the final `return false`. -/
def operator_lt (a pt : PreciseTime) : Bool :=
  if a.hours = pt.hours then
    if a.seconds = pt.seconds then
      if a.nano_seconds = pt.nano_seconds then false
      else if a.nano_seconds < pt.nano_seconds then true
      else false
    else if a.seconds < pt.seconds then true
    else false
  else if a.hours < pt.hours then true
  else false

/-- The member `operator>`. -/
def operator_gt (a pt : PreciseTime) : Bool :=
  if operator_lt a pt then false
  else if operator_eq a pt then false
  else true

/-- The member `operator<=`. -/
def operator_le (a pt : PreciseTime) : Bool :=
  if operator_gt a pt then false else true

/-- The member `operator>=`. -/
def operator_ge (a pt : PreciseTime) : Bool :=
  if operator_lt a pt then false else true

/-- The time zero in seconds (the exponent a `PreciseTime` is constructed with). -/
def zeroSeconds : PreciseTime :=
  { nano_seconds := 0, seconds := 0, hours := 0, exponent := 1 }

/-- The time zero in square seconds, as after `setExponent(2)`. -/
def zeroSquareSeconds : PreciseTime :=
  { nano_seconds := 0, seconds := 0, hours := 0, exponent := 2 }

end PreciseTime

end tool_n

/-! ## Bookkeeping of sessions -/

namespace Trie_c

/-- A state together with the bookkeeping of its sessions: the prefix of the session that was
started last, and for every call of the callback so far the prefix of the session that
made it, next to the sequence it passed. -/
structure Tracked where
  state : Trie_c
  session : Option Word
  log : List (Option Word × List Word)

/-- The bookkeeping after a transition to the state `t`: a session starts when the driving
thread leaves the descent, and whatever the transition has passed to the callback is
logged under the session of that moment. -/
def Tracked.next (s : Tracked) (t : Trie_c) : Tracked :=
  let cur :=
    match s.state.driver, t.driver with
    | Driver.descend q, Driver.ready => some q
    | _, _ => s.session
  { state := t
    session := cur
    log := s.log ++ (t.delivered.drop s.state.delivered.length).map (fun r => (cur, r)) }

/-- The bookkeeping after an event. -/
def Tracked.after (s : Tracked) (e : Event) : Tracked :=
  s.next (Trie_c.apply s.state e)

/-- The bookkeeping of the events that follow the build of a dictionary. -/
def track (num : Nat) (D : List Word) (events : List Event) : Tracked :=
  events.foldl Tracked.after ⟨build num D, none, []⟩

/-- Invariant of the bookkeeping on a trie with root `R`: the log lists the sequences passed to
the callback, each a part of the target of its session (up to order, no word more often
than there); the results are empty when the driving thread starts the descent; and
the results together with the words still pending are a part of the target of the
session started last. -/
def Sound (R : TrieNode_t) (s : Tracked) : Prop :=
  s.state._root = R ∧
  s.log.map Prod.snd = s.state.delivered ∧
  (∀ x ∈ s.log, ∃ p, x.1 = some p ∧ x.2.Subperm (target R p)) ∧
  (∀ q, s.state.driver = Driver.descend q → s.state._results = []) ∧
  ((s.state._results = [] ∧ s.state.running = []) ∨
    ∃ p, s.session = some p ∧
      (s.state._results ++ pendingAll s.state.running).Subperm (target R p))

end Trie_c

/-- The prefix of the call of `findPrefixMatches` the driving thread is in, if any. -/
def Driver.called : Driver → Option Word
  | Driver.ready => none
  | Driver.spin q => some q
  | Driver.unflag q => some q
  | Driver.clear q => some q
  | Driver.descend q => some q

namespace Trie_c

/-- Every prefix in the bookkeeping satisfies `P`: the one of the call the driving thread
is in (if any), the one of the session started last, and those in the log. -/
def Tagged (P : Word → Prop) (s : Tracked) : Prop :=
  (∀ q, s.state.driver.called = some q → P q) ∧
  (∀ q, s.session = some q → P q) ∧
  (∀ x ∈ s.log, ∀ q, x.1 = some q → P q)

/-- Events of the scenario on two workers: a search for the empty prefix is cancelled by a
search for "ca" after "dog" has been appended, and the search for "ca" runs to its
end. -/
def exampleCancel : List Event :=
  [Event.search [], Event.tick 0, Event.tick 0, Event.tick 0, Event.tick 0, Event.tick 0,
   Event.tick 0, Event.tick 0, Event.tick 1, Event.tick 1, Event.tick 1, Event.tick 1,
   Event.search ['c', 'a'], Event.tick 0, Event.tick 0, Event.tick 0, Event.tick 0,
   Event.tick 0, Event.tick 0, Event.tick 0, Event.tick 0, Event.tick 0, Event.tick 0,
   Event.tick 0, Event.tick 0, Event.tick 0, Event.tick 0, Event.tick 0, Event.tick 0,
   Event.tick 0]

end Trie_c

/-! ## Notions for the order of the results -/

namespace Trie_c

end Trie_c

namespace Trie_c

end Trie_c

namespace Trie_c

/-- A trie on one worker that holds the words a, b and n, with the children of the root in
the iteration order b, n, a. -/
def exampleUnordered : Trie_c :=
  { new 1 with
    _root := TrieNode_t.mk false
      [('b', TrieNode_t.mk true []), ('n', TrieNode_t.mk true []), ('a', TrieNode_t.mk true [])] }

end Trie_c

/-! ## The rest of `traverse` under cancellation, from any stack -/

/-- What the rest of `traverse` does from a stack when every read of `_stopAllWorkers` gives
true and no other thread touches the idle list `idle`: the words it appends, the tasks
it starts, and the idle list it leaves.  A frame before `reserveFreeWorker` has passed
the read of the flag: its child is handed off when an id is idle and entered by the
worker itself when none is; a loop is left at its head; a node that was entered is
followed along single children. -/
def cancelledRun : List Nat → List Frame → List Word × List Worker × List Nat
  | idle, [] => ([], [], idle)
  | idle, Frame.visit node word :: below =>
    (cancelledWords node word ++ (cancelledRun idle below).1,
      (cancelledRun idle below).2.1, (cancelledRun idle below).2.2)
  | idle, Frame.loop _ _ :: below => cancelledRun idle below
  | [], Frame.reserve letter tnPtr _ word :: below =>
    (cancelledWords tnPtr (word ++ [letter]) ++ (cancelledRun [] below).1,
      (cancelledRun [] below).2.1, (cancelledRun [] below).2.2)
  | newCandidateWorkerId :: idle, Frame.reserve letter tnPtr _ word :: below =>
    ((cancelledRun idle below).1,
      ⟨newCandidateWorkerId, [Frame.visit tnPtr (word ++ [letter])]⟩ ::
        (cancelledRun idle below).2.1,
      (cancelledRun idle below).2.2)

namespace Trie_c

/-- The scenario dictionary on one worker: the worker has passed the read of the flag for the
first child of the root, "d", and stands before `reserveFreeWorker` when a new search,
for "ca", sets the flag. -/
def exampleReserving : Trie_c :=
  findPrefixMatches ['c', 'a']
    (run [0, 0, 0, 0, 0, 0] (findPrefixMatches [] (build 1 exampleDict)))

/-- The same on two workers: an id is idle when the flag is set. -/
def exampleHandoff : Trie_c :=
  findPrefixMatches ['c', 'a']
    (run [0, 0, 0, 0, 0, 0] (findPrefixMatches [] (build 2 exampleDict)))

end Trie_c

namespace Trie_c

/-- The worker of `exampleReserving` and `exampleHandoff`: before `reserveFreeWorker` for
the child "d" of the root, the child "c" still to come. -/
def exampleReserved : Worker :=
  ⟨0, [Frame.reserve 'd' exampleChain [('c', TrieNode_t.mk false [('a', exampleNode)])] []]⟩

end Trie_c

/-! ## The loop of `stopAllWorkers` without a wait -/

namespace Trie_c

/-- The driving thread leaves the loop of `stopAllWorkers` although fewer than `_numWorkers`
ids are idle.  The loop reads `_idleWorkers.size()` without holding `_accessWorkers`,
which every writer of `_idleWorkers` holds; its body has no effect and the members are
plain objects.  Nothing orders these reads with the pushes of the workers, so the
condition need not be read again at every turn and the loop may be dropped altogether;
`driverStep` is the loop that reads the list anew at every turn. -/
def leaveLoop (t : Trie_c) : Trie_c :=
  match t.driver with
  | Driver.spin pfx => { t with driver := Driver.unflag pfx }
  | _ => t

end Trie_c

/-! ## The thread objects `_workers` and `_dump` -/

/-- A `Trie_c` together with what the transitions above leave out of account: for every id
whether the thread object `_workers[ id ]` is joinable, the number of thread objects moved
to `_dump`, the workers that have assigned a new thread to `_workers[ id ]` and stand
before `_workers[ id ].detach()` (the id of the worker, then `id`), and whether an
exception has left a thread function, which ends the process by `std::terminate`. -/
structure Handles where
  trie : Trie_c
  _workers : List Bool
  _dump : Nat
  detaching : List (Nat × Nat)
  terminated : Bool

namespace Handles

/-- The thread objects after the constructor (`_workers[ i ] = std::thread()`, not joinable)
next to a trie on which no task runs. -/
def new (t : Trie_c) : Handles :=
  { trie := t
    _workers := List.replicate t._numWorkers false
    _dump := 0
    detaching := []
    terminated := false }

/-- One transition of the worker `w`, the `i`-th of the running ones, with the statements on
`_workers` and `_dump` in `Trie_c::traverse` taken into account.  After a successful
`reserveFreeWorker` the worker moves a joinable `_workers[ id ]` to `_dump` and assigns
the new thread, in one transition with the reserve; `_workers[ id ].detach()` is its
next transition, and `detach` on a thread object that is not joinable throws
`std::system_error`, which nothing in `traverse` or `startThread` catches. -/
def workerAct (s : Handles) (i : Nat) (w : Worker) : Handles :=
  match s.detaching.lookup w.workerId with
  | some newCandidateWorkerId =>
    if s._workers.getD newCandidateWorkerId false then
      { s with _workers := s._workers.set newCandidateWorkerId false
               detaching := s.detaching.filter (fun x => x.1 != w.workerId) }
    else { s with terminated := true }
  | none =>
    match w.stack, Trie_c.reserveFreeWorker s.trie._idleWorkers with
    | Frame.reserve _ _ _ _ :: _, some (newCandidateWorkerId, _) =>
      { s with trie := Trie_c.workerAct s.trie i w
               _dump := if s._workers.getD newCandidateWorkerId false then s._dump + 1
                        else s._dump
               _workers := s._workers.set newCandidateWorkerId true
               detaching := (w.workerId, newCandidateWorkerId) :: s.detaching }
    | _, _ => { s with trie := Trie_c.workerAct s.trie i w }

/-- One transition of the system with the thread objects: none after `std::terminate`; the
driving thread (which here creates and detaches its thread in one transition) or the
worker picked by `k`, as in `Trie_c.step`. -/
def step (s : Handles) (k : Nat) : Handles :=
  if s.terminated then s
  else
    let m := if Trie_c.driverEnabled s.trie then 1 else 0
    let total := m + s.trie.running.length
    if total = 0 then s
    else if k % total < m then { s with trie := Trie_c.driverStep s.trie }
    else
      match s.trie.running.get? (k % total - m) with
      | none => s
      | some w => s.workerAct (k % total - m) w

/-- The state after the transitions picked by a schedule. -/
def run (sched : List Nat) (s : Handles) : Handles :=
  sched.foldl step s

/-- The dictionary aa, ab, ba, bb: two branch points below the branch point of the root. -/
def exampleSquare : List Word :=
  [['a', 'a'], ['a', 'b'], ['b', 'a'], ['b', 'b']]

end Handles

namespace Trie_c

/-- The scenario dictionary on `num` workers: the session of a search for `p1` has just been
started (its worker has not moved yet) when a search for `p2` is called, and the driving
thread leaves the loop of `stopAllWorkers` at once. -/
def exampleOverlap (num : Nat) (p1 p2 : Word) : Trie_c :=
  leaveLoop (findPrefixMatches p2 (run [0, 0, 0, 0] (findPrefixMatches p1 (build num exampleDict))))

end Trie_c

namespace Handles

/-- The schedule of the search for the empty prefix on `exampleSquare` with three workers in
which the worker with id 1 is not scheduled between starting the task on id 0 and its
`detach`, while that task ends and the worker with id 2 reserves id 0 again. -/
def exampleSchedule : List Nat :=
  [0, 0, 0, 0, 0, 0, 0, 0, 0, 0, 0, 0, 0, 0, 0, 0, 2, 2, 1, 1, 1, 1, 0]

/-- The state of the search for the empty prefix on `exampleSquare` with three workers after
the first `n` transitions of `exampleSchedule`. -/
def exampleRace (n : Nat) : Handles :=
  run (exampleSchedule.take n)
    (new (Trie_c.findPrefixMatches [] (Trie_c.build 3 exampleSquare)))

end Handles

/-! ## Lemmas on tries -/

theorem findChild_setChild_same (c : Char) (n : TrieNode_t) (cs : List (Char × TrieNode_t))
    (m : TrieNode_t) (h : findChild c cs = some m) : findChild c (setChild c n cs) = some n := by
  induction cs with
  | nil => simp [findChild] at h
  | cons x rest ih =>
    obtain ⟨d, k⟩ := x
    by_cases hd : d = c
    · simp [setChild, findChild, hd]
    · simp [setChild, findChild, hd] at h ⊢
      exact ih h

theorem findChild_setChild_other (c d : Char) (n : TrieNode_t) (cs : List (Char × TrieNode_t))
    (h : d ≠ c) : findChild d (setChild c n cs) = findChild d cs := by
  induction cs with
  | nil => simp [setChild]
  | cons x rest ih =>
    obtain ⟨e, k⟩ := x
    by_cases he : e = c
    · subst he
      have : ¬ e = d := fun h' => h h'.symm
      simp [setChild, findChild, this]
    · by_cases hed : e = d
      · subst hed
        simp [setChild, findChild, he]
      · simp [setChild, findChild, he, hed, ih]

theorem contains_nil (t : TrieNode_t) : contains t [] = t._isLeaf := by
  simp [contains, descend]

theorem contains_cons (l : Bool) (cs : List (Char × TrieNode_t)) (c : Char) (w : Word) :
    contains (mk l cs) (c :: w) =
      match findChild c cs with
      | none => false
      | some child => contains child w := by
  simp only [contains, descend, _children]
  cases findChild c cs <;> rfl

theorem contains_fresh (w : Word) : contains fresh w = false := by
  cases w with
  | nil => rfl
  | cons c w => simp [fresh, contains_cons, findChild]

/-- Membership after an insertion: the inserted word, and whatever was stored before. -/
theorem contains_insertFrom (w : Word) : ∀ (t : TrieNode_t) (v : Word),
    contains (insertFrom t w) v = (decide (v = w) || contains t v) := by
  induction w with
  | nil =>
    intro t v
    obtain ⟨l, cs⟩ := t
    cases v with
    | nil => simp [insertFrom, contains_nil, _isLeaf]
    | cons c v => simp [insertFrom, contains_cons]
  | cons a w ih =>
    intro t v
    obtain ⟨l, cs⟩ := t
    cases v with
    | nil =>
      simp only [insertFrom]
      cases findChild a cs <;> simp [contains_nil, _isLeaf]
    | cons c v =>
      simp only [insertFrom]
      cases hf : findChild a cs with
      | none =>
        by_cases hc : a = c
        · subst hc
          simp [contains_cons, findChild, hf, ih, contains_fresh]
        · have hc2 : ¬ c = a := fun h => hc h.symm
          simp [contains_cons, findChild, hc, hc2]
      | some child =>
        by_cases hc : a = c
        · subst hc
          simp [contains_cons, findChild_setChild_same a _ cs child hf, hf, ih]
        · have hc2 : ¬ c = a := fun h => hc h.symm
          simp [contains_cons, findChild_setChild_other a c _ cs hc2, hc2]

theorem wellFormedC_setChild (a : Char) (n : TrieNode_t) (hn : WellFormed n) :
    ∀ cs : List (Char × TrieNode_t), WellFormedC cs → WellFormedC (setChild a n cs) := by
  intro cs
  induction cs with
  | nil => intro h; simpa [setChild] using h
  | cons x rest ih =>
    obtain ⟨d, k⟩ := x
    intro h
    simp only [WellFormedC] at h
    by_cases hd : d = a
    · simp only [setChild, hd, if_true, WellFormedC]
      exact ⟨hd ▸ h.1, hn, h.2.2⟩
    · simp only [setChild, hd, if_false, WellFormedC]
      exact ⟨by rw [findChild_setChild_other a d n rest hd]; exact h.1, h.2.1, ih h.2.2⟩

theorem wellFormed_fresh : WellFormed fresh := by
  simp [fresh, WellFormed, WellFormedC]

theorem wellFormed_of_findChild (c : Char) (child : TrieNode_t) :
    ∀ cs : List (Char × TrieNode_t), WellFormedC cs → findChild c cs = some child →
      WellFormed child := by
  intro cs
  induction cs with
  | nil => intro _ h; simp [findChild] at h
  | cons x rest ih =>
    obtain ⟨d, k⟩ := x
    intro hw h
    simp only [WellFormedC] at hw
    by_cases hd : d = c
    · simp [findChild, hd] at h
      exact h ▸ hw.2.1
    · simp [findChild, hd] at h
      exact ih hw.2.2 h

theorem wellFormed_insertFrom (w : Word) : ∀ t : TrieNode_t, WellFormed t →
    WellFormed (insertFrom t w) := by
  induction w with
  | nil =>
    intro t h
    obtain ⟨l, cs⟩ := t
    simpa [insertFrom, WellFormed] using h
  | cons a w ih =>
    intro t h
    obtain ⟨l, cs⟩ := t
    simp only [WellFormed] at h
    simp only [insertFrom]
    cases hf : findChild a cs with
    | none =>
      simp only [WellFormed, WellFormedC]
      exact ⟨hf, ih fresh wellFormed_fresh, h⟩
    | some child =>
      simp only [WellFormed]
      exact wellFormedC_setChild a _ (ih child (wellFormed_of_findChild a child cs h hf)) cs h

theorem wellFormed_descend (w : Word) : ∀ (t node : TrieNode_t), WellFormed t →
    descend t w = some node → WellFormed node := by
  induction w with
  | nil =>
    intro t node h hd
    simp [descend] at hd
    exact hd ▸ h
  | cons a w ih =>
    intro t node h hd
    obtain ⟨l, cs⟩ := t
    simp only [descend, _children] at hd
    cases hf : findChild a cs with
    | none => simp [hf] at hd
    | some child =>
      simp only [hf] at hd
      exact ih child node (wellFormed_of_findChild a child cs h hf) hd

mutual
/-- Every listed word extends the path it was listed under by a stored suffix. -/
theorem mem_preorder (t : TrieNode_t) (word v : Word) (h : WellFormed t) :
    v ∈ preorder t word ↔ ∃ u, v = word ++ u ∧ contains t u = true := by
  match t with
  | mk l cs =>
    simp only [preorder, List.mem_append, mem_preorderC cs word v h]
    constructor
    · rintro (hv | ⟨c, n, u, hf, hv, hc⟩)
      · cases l with
        | false => simp at hv
        | true =>
          simp at hv
          exact ⟨[], by simp [hv], by simp [contains_nil, _isLeaf]⟩
      · exact ⟨c :: u, hv, by simp [contains_cons, hf, hc]⟩
    · rintro ⟨u, hv, hc⟩
      cases u with
      | nil =>
        left
        simp [contains_nil, _isLeaf] at hc
        simp [hc, hv]
      | cons c u =>
        right
        rw [contains_cons] at hc
        cases hf : findChild c cs with
        | none => simp [hf] at hc
        | some n =>
          simp only [hf] at hc
          exact ⟨c, n, u, hf, hv, hc⟩
theorem mem_preorderC (cs : List (Char × TrieNode_t)) (word v : Word) (h : WellFormedC cs) :
    v ∈ preorderC cs word ↔
      ∃ c n u, findChild c cs = some n ∧ v = word ++ c :: u ∧ contains n u = true := by
  match cs with
  | [] => simp [preorderC, findChild]
  | (d, k) :: rest =>
    simp only [WellFormedC] at h
    simp only [preorderC, List.mem_append, mem_preorder k (word ++ [d]) v h.2.1,
      mem_preorderC rest word v h.2.2]
    constructor
    · rintro (⟨u, hv, hc⟩ | ⟨c, n, u, hf, hv, hc⟩)
      · exact ⟨d, k, u, by simp [findChild], by simp [hv], hc⟩
      · refine ⟨c, n, u, ?_, hv, hc⟩
        have : ¬ d = c := by
          intro hdc
          rw [hdc] at h
          rw [h.1] at hf
          cases hf
        simp [findChild, this, hf]
    · rintro ⟨c, n, u, hf, hv, hc⟩
      by_cases hdc : d = c
      · left
        simp [findChild, hdc] at hf
        exact ⟨u, by simp [hv, hdc], hf ▸ hc⟩
      · right
        simp [findChild, hdc] at hf
        exact ⟨c, n, u, hf, hv, hc⟩
end

mutual
/-- With distinct letters at every node no word is listed twice. -/
theorem nodup_preorder (t : TrieNode_t) (word : Word) (h : WellFormed t) :
    (preorder t word).Nodup := by
  match t with
  | mk l cs =>
    simp only [preorder]
    refine List.nodup_append.2 ⟨?_, nodup_preorderC cs word h, ?_⟩
    · cases l <;> simp
    · intro v hv hv2
      have hvw : v = word := by
        cases l with
        | false => simp at hv
        | true => simpa using hv
      obtain ⟨c, n, u, -, hu, -⟩ := (mem_preorderC cs word v h).1 hv2
      have hlen := congrArg List.length hu
      rw [hvw] at hlen
      simp at hlen
theorem nodup_preorderC (cs : List (Char × TrieNode_t)) (word : Word) (h : WellFormedC cs) :
    (preorderC cs word).Nodup := by
  match cs with
  | [] => simp [preorderC]
  | (d, k) :: rest =>
    simp only [WellFormedC] at h
    simp only [preorderC]
    refine List.nodup_append.2
      ⟨nodup_preorder k (word ++ [d]) h.2.1, nodup_preorderC rest word h.2.2, ?_⟩
    intro v hv hv2
    obtain ⟨u, hu, -⟩ := (mem_preorder k (word ++ [d]) v h.2.1).1 hv
    obtain ⟨c, n, u2, hf, hu2, -⟩ := (mem_preorderC rest word v h.2.2).1 hv2
    rw [hu, List.append_assoc, List.append_cancel_left_eq] at hu2
    simp only [List.singleton_append, List.cons.injEq] at hu2
    rw [← hu2.1, h.1] at hf
    cases hf
end

theorem descend_append (p : Word) : ∀ (t : TrieNode_t) (u : Word),
    descend t (p ++ u) = (descend t p).bind (fun node => descend node u) := by
  induction p with
  | nil => intro t u; simp [descend]
  | cons a p ih =>
    intro t u
    simp only [List.cons_append, descend]
    cases findChild a t._children with
    | none => simp
    | some child => simpa using ih child u

theorem contains_append (t : TrieNode_t) (p u : Word) :
    contains t (p ++ u) =
      match descend t p with
      | none => false
      | some node => contains node u := by
  simp only [contains, descend_append]
  cases descend t p <;> simp

/-- The target of a search is exactly the stored words that start with the prefix. -/
theorem mem_target (root : TrieNode_t) (h : WellFormed root) (p v : Word) :
    v ∈ target root p ↔ p <+: v ∧ contains root v = true := by
  simp only [target]
  cases hd : descend root p with
  | none =>
    simp only [List.not_mem_nil, false_iff, not_and]
    rintro ⟨u, rfl⟩
    simp [contains_append, hd]
  | some node =>
    simp only [mem_preorder node p v (wellFormed_descend p root node h hd)]
    constructor
    · rintro ⟨u, rfl, hc⟩
      exact ⟨⟨u, rfl⟩, by simp [contains_append, hd, hc]⟩
    · rintro ⟨⟨u, rfl⟩, hc⟩
      refine ⟨u, rfl, ?_⟩
      simpa [contains_append, hd] using hc

theorem nodup_target (root : TrieNode_t) (h : WellFormed root) (p : Word) :
    (target root p).Nodup := by
  simp only [target]
  cases hd : descend root p with
  | none => simp
  | some node => exact nodup_preorder node p (wellFormed_descend p root node h hd)

namespace Trie_c

theorem foldl_insertWord_root (D : List Word) : ∀ t : Trie_c,
    (D.foldl insertWord t)._root = D.foldl insertFrom t._root := by
  induction D with
  | nil => intro t; rfl
  | cons w D ih => intro t; simp [List.foldl, ih, insertWord]

theorem foldl_insertWord_frame (D : List Word) : ∀ t : Trie_c,
    (D.foldl insertWord t)._numWorkers = t._numWorkers ∧
    (D.foldl insertWord t)._idleWorkers = t._idleWorkers ∧
    (D.foldl insertWord t)._results = t._results ∧
    (D.foldl insertWord t)._stopAllWorkers = t._stopAllWorkers ∧
    (D.foldl insertWord t).running = t.running ∧
    (D.foldl insertWord t).driver = t.driver ∧
    (D.foldl insertWord t).delivered = t.delivered := by
  induction D with
  | nil => intro t; simp
  | cons w D ih => intro t; simpa [List.foldl, insertWord] using ih (insertWord t w)

theorem contains_foldl_insertFrom (D : List Word) : ∀ (r : TrieNode_t) (w : Word),
    contains (D.foldl insertFrom r) w = (decide (w ∈ D) || contains r w) := by
  induction D with
  | nil => intro r w; simp
  | cons v D ih =>
    intro r w
    simp only [List.foldl, ih, contains_insertFrom, List.mem_cons]
    by_cases h1 : w = v <;> by_cases h2 : w ∈ D <;> simp [h1, h2]

theorem wellFormed_foldl_insertFrom (D : List Word) : ∀ r : TrieNode_t, WellFormed r →
    WellFormed (D.foldl insertFrom r) := by
  induction D with
  | nil => intro r h; exact h
  | cons v D ih => intro r h; exact ih _ (wellFormed_insertFrom v r h)

theorem build_root (num : Nat) (D : List Word) :
    (build num D)._root = D.foldl insertFrom fresh := by
  simp [build, foldl_insertWord_root, new]

theorem contains_build (num : Nat) (D : List Word) (w : Word) :
    contains (build num D)._root w = true ↔ w ∈ D := by
  simp [build_root, contains_foldl_insertFrom, contains_fresh]

theorem wellFormed_build (num : Nat) (D : List Word) : WellFormed (build num D)._root := by
  rw [build_root]
  exact wellFormed_foldl_insertFrom D fresh wellFormed_fresh

end Trie_c

/-! ## Lemmas on the transition system -/

theorem pendingAll_append (a b : List Worker) :
    pendingAll (a ++ b) = pendingAll a ++ pendingAll b := by
  induction a with
  | nil => rfl
  | cons w a ih => simp [pendingAll, ih]

theorem costAll_append (a b : List Worker) : costAll (a ++ b) = costAll a + costAll b := by
  induction a with
  | nil => simp [costAll]
  | cons w a ih => simp [costAll, ih]; omega

theorem running_split (ws : List Worker) : ∀ (i : Nat) (w : Worker), ws.get? i = some w →
    ∃ pre post, ws = pre ++ w :: post ∧ (∀ x, ws.set i x = pre ++ x :: post) ∧
      ws.eraseIdx i = pre ++ post := by
  induction ws with
  | nil => intro i w h; simp at h
  | cons a ws ih =>
    intro i w h
    cases i with
    | zero =>
      simp only [List.get?, Option.some.injEq] at h
      exact ⟨[], ws, by simp [h], by simp, by simp⟩
    | succ i =>
      simp only [List.get?] at h
      obtain ⟨pre, post, h1, h2, h3⟩ := ih i w h
      refine ⟨a :: pre, post, by simp [h1], ?_, ?_⟩
      · intro x; simp [h2]
      · simp [h3]

namespace Trie_c

theorem workerAct_effect (t : Trie_c) (i : Nat) (w : Worker) (h : t.running.get? i = some w) :
    ∃ pre post repl spawned added,
      WorkerEffect t w (workerAct t i w) pre post repl spawned added := by
  obtain ⟨pre, post, h1, h2, h3⟩ := running_split t.running i w h
  rw [h1] at h2 h3
  obtain ⟨id, stack⟩ := w
  cases stack with
  | nil =>
    refine ⟨pre, post, [], [], [], ?_⟩
    constructor <;> simp [workerAct, h1, h2, h3, costAll, pendingAll, pendingStack]
  | cons f below =>
    cases f with
    | visit node word =>
      obtain ⟨l, cs⟩ := node
      have hadd : (if l = true then t._results ++ [word] else t._results) =
          t._results ++ (if l = true then [word] else []) := by cases l <;> simp
      match cs with
      | [] =>
        refine ⟨pre, post, [⟨id, below⟩], [], if l then [word] else [], ?_⟩
        constructor <;>
          simp [workerAct, h1, h2, h3, costAll, pendingAll, pendingStack, costStack,
            Frame.cost, Frame.pending, preorder, preorderC, cost, costC, _isLeaf,
            _children, hadd]
      | [(c, child)] =>
        refine ⟨pre, post, [⟨id, Frame.visit child (word ++ [c]) :: below⟩], [],
          if l then [word] else [], ?_⟩
        constructor <;>
          simp [workerAct, h1, h2, h3, costAll, pendingAll, pendingStack, costStack,
            Frame.cost, Frame.pending, preorder, preorderC, cost, costC, _isLeaf,
            _children, hadd]
        omega
      | x :: y :: rest =>
        refine ⟨pre, post, [⟨id, Frame.loop (x :: y :: rest) word :: below⟩], [],
          if l then [word] else [], ?_⟩
        constructor <;>
          simp [workerAct, h1, h2, h3, costAll, pendingAll, pendingStack, costStack,
            Frame.cost, Frame.pending, preorder, preorderC, cost, costC, _isLeaf,
            _children, hadd]
    | loop rest word =>
      match rest with
      | [] =>
        refine ⟨pre, post, [⟨id, below⟩], [], [], ?_⟩
        constructor <;>
          simp [workerAct, h1, h2, h3, costAll, pendingAll, pendingStack, costStack,
            Frame.cost, Frame.pending, preorder, preorderC, cost, costC]
      | (c, child) :: rest =>
        cases hflag : t._stopAllWorkers with
        | true =>
          refine ⟨pre, post, [⟨id, below⟩], [], [], ?_⟩
          constructor <;>
            simp [workerAct, h1, h2, h3, costAll, pendingAll, pendingStack, costStack,
              Frame.cost, Frame.pending, preorder, preorderC, cost, costC, hflag]
        | false =>
          refine ⟨pre, post, [⟨id, Frame.reserve c child rest word :: below⟩], [], [], ?_⟩
          constructor <;>
            simp [workerAct, h1, h2, h3, costAll, pendingAll, pendingStack, costStack,
              Frame.cost, Frame.pending, preorder, preorderC, cost, costC, hflag]
    | reserve c child rest word =>
      cases hidle : t._idleWorkers with
      | nil =>
        refine ⟨pre, post,
          [⟨id, Frame.visit child (word ++ [c]) :: Frame.loop rest word :: below⟩], [], [], ?_⟩
        constructor <;>
          simp [workerAct, h1, h2, h3, costAll, pendingAll, pendingStack, costStack,
            Frame.cost, Frame.pending, preorder, preorderC, cost, costC, hidle,
            reserveFreeWorker]
        all_goals omega
      | cons j idle =>
        refine ⟨pre, post, [⟨id, Frame.loop rest word :: below⟩],
          [⟨j, [Frame.visit child (word ++ [c])]⟩], [], ?_⟩
        constructor <;>
          simp [workerAct, h1, h2, h3, costAll, pendingAll, pendingStack, costStack,
            Frame.cost, Frame.pending, preorder, preorderC, cost, costC, hidle,
            reserveFreeWorker]
        all_goals omega

end Trie_c

theorem findChild_cost (c : Char) (child : TrieNode_t) :
    ∀ cs : List (Char × TrieNode_t), findChild c cs = some child → cost child < costC cs := by
  intro cs
  induction cs with
  | nil => intro h; simp [findChild] at h
  | cons x rest ih =>
    obtain ⟨d, k⟩ := x
    intro h
    by_cases hd : d = c
    · simp [findChild, hd] at h
      simp only [costC, h]
      omega
    · simp [findChild, hd] at h
      have := ih h
      simp only [costC]
      omega

theorem descend_cost (p : Word) : ∀ t node : TrieNode_t, descend t p = some node →
    cost node ≤ cost t := by
  induction p with
  | nil => intro t node h; simp [descend] at h; simp [h]
  | cons a p ih =>
    intro t node h
    obtain ⟨l, cs⟩ := t
    simp only [descend, _children] at h
    cases hf : findChild a cs with
    | none => simp [hf] at h
    | some child =>
      simp only [hf] at h
      have h1 := ih child node h
      have h2 := findChild_cost a child cs hf
      simp only [cost]
      omega

namespace Trie_c

theorem step_cases (t : Trie_c) (k : Nat) :
    (t.running = [] ∧ driverEnabled t = false ∧ step t k = t) ∨
    (driverEnabled t = true ∧ step t k = driverStep t) ∨
    (∃ i w, t.running.get? i = some w ∧ step t k = workerAct t i w) := by
  have hidx : ∀ i, i < t.running.length →
      ∃ w, t.running.get? i = some w ∧ workerStep t i = workerAct t i w := by
    intro i hi
    refine ⟨t.running.get ⟨i, hi⟩, List.get?_eq_get hi, ?_⟩
    unfold workerStep
    rw [List.get?_eq_get hi]
  cases he : driverEnabled t with
  | false =>
    by_cases hr : t.running = []
    · left; simp [step, he, hr]
    · right; right
      have hpos : 0 < t.running.length := List.length_pos.2 hr
      obtain ⟨w, hw, hw2⟩ := hidx (k % t.running.length) (Nat.mod_lt _ hpos)
      refine ⟨_, w, hw, ?_⟩
      have hne : t.running.length ≠ 0 := by omega
      simp [step, he, hne, hw2]
  | true =>
    by_cases hk : k % (1 + t.running.length) < 1
    · right; left
      simp [step, he, hk]
    · right; right
      have hlt : k % (1 + t.running.length) < 1 + t.running.length :=
        Nat.mod_lt _ (by omega)
      obtain ⟨w, hw, hw2⟩ := hidx (k % (1 + t.running.length) - 1) (by omega)
      refine ⟨_, w, hw, ?_⟩
      simp [step, he, hk, hw2]

/-- The scheduler leaves no interleaving out: an enabled driving thread can be picked. -/
theorem step_picks_driver (t : Trie_c) (h : driverEnabled t = true) :
    step t 0 = driverStep t := by
  simp [step, h]

/-- The scheduler leaves no interleaving out: every running worker can be picked. -/
theorem step_picks_worker (t : Trie_c) (i : Nat) (hi : i < t.running.length) :
    ∃ k, step t k = workerStep t i := by
  cases he : driverEnabled t with
  | false =>
    refine ⟨i, ?_⟩
    have hne : t.running.length ≠ 0 := by omega
    simp [step, he, hne, Nat.mod_eq_of_lt hi]
  | true =>
    refine ⟨1 + i, ?_⟩
    have hlt : 1 + i < 1 + t.running.length := by omega
    simp [step, he, Nat.mod_eq_of_lt hlt]

theorem run_nil (t : Trie_c) : run [] t = t := rfl

theorem run_cons (k : Nat) (sched : List Nat) (t : Trie_c) :
    run (k :: sched) t = run sched (step t k) := rfl

theorem run_append (a b : List Nat) (t : Trie_c) : run (a ++ b) t = run b (run a t) := by
  simp [run, List.foldl_append]

/-- An invariant of every transition holds after every schedule. -/
theorem run_induction (P : Trie_c → Prop) (hstep : ∀ t k, P t → P (step t k)) :
    ∀ (sched : List Nat) (t : Trie_c), P t → P (run sched t) := by
  intro sched
  induction sched with
  | nil => intro t h; exact h
  | cons k sched ih => intro t h; exact ih _ (hstep t k h)

theorem driverStep_frame (t : Trie_c) :
    (driverStep t)._root = t._root ∧ (driverStep t)._numWorkers = t._numWorkers := by
  cases hdr : t.driver with
  | ready => simp [driverStep, hdr]
  | spin p =>
    by_cases h : t._idleWorkers.length < t._numWorkers <;> simp [driverStep, hdr, h]
  | unflag p => simp [driverStep, hdr]
  | clear p => simp [driverStep, hdr]
  | descend p =>
    cases hd : descend t._root p with
    | none => simp [driverStep, hdr, hd]
    | some reached =>
      cases h : t._idleWorkers <;> simp [driverStep, hdr, hd, reserveFreeWorker, h]

theorem step_frame (t : Trie_c) (k : Nat) :
    (step t k)._root = t._root ∧ (step t k)._numWorkers = t._numWorkers := by
  rcases step_cases t k with ⟨-, -, h⟩ | ⟨-, h⟩ | ⟨i, w, hw, h⟩
  · simp [h]
  · rw [h]; exact driverStep_frame t
  · obtain ⟨pre, post, repl, spawned, added, e⟩ := workerAct_effect t i w hw
    rw [h]; exact ⟨e.root_new, e.numWorkers_new⟩

theorem run_frame (sched : List Nat) (t : Trie_c) :
    (run sched t)._root = t._root ∧ (run sched t)._numWorkers = t._numWorkers :=
  run_induction (fun s => s._root = t._root ∧ s._numWorkers = t._numWorkers)
    (fun s k h => by
      obtain ⟨h1, h2⟩ := step_frame s k
      exact ⟨h1.trans h.1, h2.trans h.2⟩) sched t ⟨rfl, rfl⟩

theorem pool_driverStep (t : Trie_c) (h : Pool t) : Pool (driverStep t) := by
  obtain ⟨h0, h1⟩ := h
  cases hdr : t.driver with
  | ready => simpa [driverStep, hdr, Pool] using ⟨h0, h1⟩
  | spin p =>
    by_cases h : t._idleWorkers.length < t._numWorkers <;>
      simp [driverStep, hdr, h, Pool, h0, h1]
  | unflag p => simpa [driverStep, hdr, Pool] using ⟨h0, h1⟩
  | clear p => simpa [driverStep, hdr, Pool] using ⟨h0, h1⟩
  | descend p =>
    cases hd : descend t._root p with
    | none => simpa [driverStep, hdr, hd, Pool] using ⟨h0, h1⟩
    | some reached =>
      cases hi : t._idleWorkers with
      | nil =>
        simp only [driverStep, hdr, hd, reserveFreeWorker, hi, Pool]
        exact ⟨h0, by simpa [hi] using h1⟩
      | cons j rest =>
        simp only [driverStep, hdr, hd, reserveFreeWorker, hi, Pool, List.length_append,
          List.length_singleton]
        simp only [hi, List.length_cons] at h1
        exact ⟨h0, by omega⟩

theorem pool_workerAct (t : Trie_c) (i : Nat) (w : Worker) (hw : t.running.get? i = some w)
    (h : Pool t) : Pool (workerAct t i w) := by
  obtain ⟨pre, post, repl, spawned, added, e⟩ := workerAct_effect t i w hw
  obtain ⟨h0, h1⟩ := h
  refine ⟨by rw [e.numWorkers_new]; exact h0, ?_⟩
  rw [e.numWorkers_new, e.running_new, ← h1, e.running_eq]
  by_cases hs : w.stack = []
  · obtain ⟨r1, r2, -, r4⟩ := e.release hs
    simp [r1, r2, r4]
    omega
  · obtain ⟨r1, r2⟩ := e.carry_on hs
    simp only [List.length_append, List.length_cons]
    omega

theorem pool_step (t : Trie_c) (k : Nat) (h : Pool t) : Pool (step t k) := by
  rcases step_cases t k with ⟨-, -, hs⟩ | ⟨-, hs⟩ | ⟨i, w, hw, hs⟩
  · rw [hs]; exact h
  · rw [hs]; exact pool_driverStep t h
  · rw [hs]; exact pool_workerAct t i w hw h

theorem pool_run (sched : List Nat) (t : Trie_c) (h : Pool t) : Pool (run sched t) :=
  run_induction Pool pool_step sched t h

theorem pool_new (num : Nat) : Pool (new num) := by
  by_cases h : num = 0
  · simp [Pool, new, h]
  · simp [Pool, new, h]; omega

theorem pool_build (num : Nat) (D : List Word) : Pool (build num D) := by
  obtain ⟨h1, h2, -, -, h5, -, -⟩ := foldl_insertWord_frame D (new num)
  have := pool_new num
  simp only [Pool, build, h1, h2, h5] at this ⊢
  exact this

theorem pool_findPrefixMatches (p : Word) (t : Trie_c) (h : Pool t) :
    Pool (findPrefixMatches p t) := by
  unfold findPrefixMatches
  cases t.driver <;> exact h

end Trie_c

namespace Trie_c

theorem quiet_step (t : Trie_c) (k : Nat) (h : Quiet t) : step t k = t := by
  simp [step, driverEnabled, h.1, h.2]

theorem quiet_run (sched : List Nat) (t : Trie_c) (h : Quiet t) : run sched t = t := by
  induction sched with
  | nil => rfl
  | cons k sched ih => rw [run_cons, quiet_step t k h, ih]

theorem fuel_driverStep (t : Trie_c) (h : driverEnabled t = true) :
    fuel (driverStep t) < fuel t := by
  cases hdr : t.driver with
  | ready => simp [driverEnabled, hdr] at h
  | spin p =>
    have h2 : ¬ t._idleWorkers.length < t._numWorkers := by
      simp [driverEnabled, hdr] at h
      omega
    simp [driverStep, hdr, h2, fuel, Driver.cost]
  | unflag p => simp [driverStep, hdr, fuel, Driver.cost]
  | clear p => simp [driverStep, hdr, fuel, Driver.cost]
  | descend p =>
    cases hd : descend t._root p with
    | none => simp [driverStep, hdr, hd, fuel, Driver.cost]
    | some reached =>
      have hc := descend_cost p t._root reached hd
      cases hi : t._idleWorkers with
      | nil => simp [driverStep, hdr, hd, reserveFreeWorker, hi, fuel, Driver.cost]
      | cons j rest =>
        simp only [driverStep, hdr, hd, reserveFreeWorker, hi, fuel, Driver.cost,
          costAll_append, costAll, costStack, Frame.cost]
        omega

theorem fuel_workerAct (t : Trie_c) (i : Nat) (w : Worker) (hw : t.running.get? i = some w) :
    fuel (workerAct t i w) < fuel t := by
  obtain ⟨pre, post, repl, spawned, added, e⟩ := workerAct_effect t i w hw
  have hc := e.cost_lt
  simp only [fuel, e.root_new, e.driver_new, e.running_new, e.running_eq, costAll_append,
    costAll] at hc ⊢
  omega

/-- As long as something is in flight every transition uses up fuel. -/
theorem fuel_step (t : Trie_c) (k : Nat) (hp : Pool t) (hq : ¬ Quiet t) :
    fuel (step t k) < fuel t := by
  rcases step_cases t k with ⟨hr, he, -⟩ | ⟨he, hs⟩ | ⟨i, w, hw, hs⟩
  · exfalso
    apply hq
    refine ⟨?_, hr⟩
    cases hdr : t.driver with
    | ready => rfl
    | spin p =>
      have := hp.2
      simp [driverEnabled, hdr, hr] at he this
      omega
    | unflag p => simp [driverEnabled, hdr] at he
    | clear p => simp [driverEnabled, hdr] at he
    | descend p => simp [driverEnabled, hdr] at he
  · rw [hs]; exact fuel_driverStep t he
  · rw [hs]; exact fuel_workerAct t i w hw

theorem quiet_of_fuel_zero (t : Trie_c) (h : fuel t = 0) : Quiet t := by
  unfold fuel at h
  constructor
  · cases hdr : t.driver with
    | ready => rfl
    | spin p => simp [hdr, Driver.cost] at h
    | unflag p => simp [hdr, Driver.cost] at h
    | clear p => simp [hdr, Driver.cost] at h
    | descend p => simp [hdr, Driver.cost] at h
  · cases hr : t.running with
    | nil => rfl
    | cons w ws =>
      simp only [hr, costAll] at h
      omega

/-- Every schedule at least as long as the fuel ends with nothing in flight. -/
theorem quiet_of_fuel_le (sched : List Nat) : ∀ t : Trie_c, Pool t → fuel t ≤ sched.length →
    Quiet (run sched t) := by
  induction sched with
  | nil =>
    intro t _ h
    exact quiet_of_fuel_zero t (by simpa using h)
  | cons k sched ih =>
    intro t hp h
    by_cases hq : Quiet t
    · rw [quiet_run _ t hq]; exact hq
    · rw [run_cons]
      have := fuel_step t k hp hq
      simp only [List.length_cons] at h
      exact ih _ (pool_step t k hp) (by omega)

end Trie_c

namespace Trie_c

theorem session_driverStep (d0 : List (List Word)) (p : Word) (t : Trie_c) (hp : Pool t)
    (h : Session d0 p t) : Session d0 p (driverStep t) := by
  cases hdr : t.driver with
  | ready => simpa [driverStep, hdr] using h
  | spin q =>
    by_cases hlt : t._idleWorkers.length < t._numWorkers
    · simpa [driverStep, hdr, hlt] using h
    · simp only [Session, hdr] at h
      simpa [driverStep, hdr, hlt, Session] using h
  | unflag q =>
    simp only [Session, hdr] at h
    simpa [driverStep, hdr, Session] using h
  | clear q =>
    simp only [Session, hdr] at h
    simpa [driverStep, hdr, Session] using h
  | descend q =>
    simp only [Session, hdr] at h
    obtain ⟨rfl, hr, hd0, hflag, hres⟩ := h
    cases hd : descend t._root q with
    | none => simp [driverStep, hdr, hd, Session, hflag, hres, hr, hd0, target, pendingAll]
    | some reached =>
      cases hi : t._idleWorkers with
      | nil =>
        have := hp.2
        have h0 := hp.1
        simp [hi, hr] at this
        omega
      | cons j rest =>
        simp [driverStep, hdr, hd, reserveFreeWorker, hi, Session, hflag, hres, hr, hd0,
          target, pendingAll, pendingStack, Frame.pending]

theorem session_workerAct (d0 : List (List Word)) (p : Word) (t : Trie_c) (i : Nat)
    (w : Worker) (hw : t.running.get? i = some w) (hp : Pool t) (h : Session d0 p t) :
    Session d0 p (workerAct t i w) := by
  obtain ⟨pre, post, repl, spawned, added, e⟩ := workerAct_effect t i w hw
  have hne : t.running ≠ [] := by rw [e.running_eq]; simp
  cases hdr : t.driver with
  | spin q => simp only [Session, hdr] at h; exact absurd h.2.1 hne
  | unflag q => simp only [Session, hdr] at h; exact absurd h.2.1 hne
  | clear q => simp only [Session, hdr] at h; exact absurd h.2.1 hne
  | descend q => simp only [Session, hdr] at h; exact absurd h.2.1 hne
  | ready =>
    simp only [Session, hdr] at h
    obtain ⟨hflag, hperm, hdel⟩ := h
    have hd0 : t.delivered = d0 := by
      rcases hdel with ⟨-, h⟩ | ⟨h, -⟩
      · exact h
      · exact absurd h hne
    have hex := e.exact hflag
    simp only [Session, e.driver_new, hdr, e.flag_new, hflag, e.root_new, true_and]
    constructor
    · refine List.Perm.trans ?_ hperm
      rw [e.results_new, e.running_new, e.running_eq]
      have hsplit : pendingAll (w :: post) = pendingAll [w] ++ pendingAll post := by
        simp [pendingAll]
      simp only [pendingAll_append, hsplit, ← hex]
      refine List.perm_iff_count.2 (fun a => ?_)
      simp only [List.count_append]
      omega
    · rw [e.delivered_new, e.running_new, e.results_new, hd0]
      have hpool := hp.2
      rw [e.running_eq] at hpool
      simp only [List.length_append, List.length_cons] at hpool
      by_cases hs : w.stack = []
      · obtain ⟨r1, r2, r3, -⟩ := e.release hs
        subst r1 r2 r3
        by_cases hlast : t._idleWorkers.length + 1 = t._numWorkers
        · right
          have h1 : pre = [] := List.eq_nil_of_length_eq_zero (by omega)
          have h2 : post = [] := List.eq_nil_of_length_eq_zero (by omega)
          simp [hs, hlast, h1, h2]
        · left
          have h1 : pre ++ post ≠ [] := by
            intro hnil
            have := congrArg List.length hnil
            simp only [List.length_append, List.length_nil] at this
            omega
          simp [hs, hlast, h1]
      · left
        obtain ⟨r1, -⟩ := e.carry_on hs
        have h1 : repl ≠ [] := by
          intro hnil
          simp [hnil] at r1
        simp [hs, h1]

theorem session_step (d0 : List (List Word)) (p : Word) (t : Trie_c) (k : Nat)
    (h : Pool t ∧ Session d0 p t) : Pool (step t k) ∧ Session d0 p (step t k) := by
  refine ⟨pool_step t k h.1, ?_⟩
  rcases step_cases t k with ⟨-, -, hs⟩ | ⟨-, hs⟩ | ⟨i, w, hw, hs⟩
  · rw [hs]; exact h.2
  · rw [hs]; exact session_driverStep d0 p t h.1 h.2
  · rw [hs]; exact session_workerAct d0 p t i w hw h.1 h.2

theorem session_run (d0 : List (List Word)) (p : Word) (sched : List Nat) (t : Trie_c)
    (h : Pool t ∧ Session d0 p t) : Pool (run sched t) ∧ Session d0 p (run sched t) :=
  run_induction (fun s => Pool s ∧ Session d0 p s) (session_step d0 p) sched t h

theorem session_findPrefixMatches (p : Word) (t : Trie_c) (h : Quiet t) :
    Session t.delivered p (findPrefixMatches p t) := by
  simp [findPrefixMatches, h.1, h.2, Session]

end Trie_c

namespace Trie_c

theorem quiet_new (num : Nat) : Quiet (new num) := ⟨rfl, rfl⟩

theorem quiet_build (num : Nat) (D : List Word) : Quiet (build num D) := by
  obtain ⟨-, -, -, -, h5, h6, -⟩ := foldl_insertWord_frame D (new num)
  exact ⟨h6, h5⟩

theorem delivered_build (num : Nat) (D : List Word) : (build num D).delivered = [] := by
  obtain ⟨-, -, -, -, -, -, h7⟩ := foldl_insertWord_frame D (new num)
  exact h7

theorem findPrefixMatches_root (p : Word) (t : Trie_c) : (findPrefixMatches p t)._root = t._root := by
  unfold findPrefixMatches
  cases t.driver <;> rfl

/-- What a session invariant says about the callback log: nothing yet, or one delivery of
the final results with nothing left in flight. -/
theorem session_delivered (d0 : List (List Word)) (p : Word) (t : Trie_c)
    (h : Session d0 p t) :
    t.delivered = d0 ∨
      (Quiet t ∧ t.delivered = d0 ++ [t._results] ∧ t._results.Perm (target t._root p)) := by
  cases hdr : t.driver with
  | spin q => simp only [Session, hdr] at h; exact Or.inl h.2.2
  | unflag q => simp only [Session, hdr] at h; exact Or.inl h.2.2
  | clear q => simp only [Session, hdr] at h; exact Or.inl h.2.2.1
  | descend q => simp only [Session, hdr] at h; exact Or.inl h.2.2.1
  | ready =>
    simp only [Session, hdr] at h
    obtain ⟨-, hperm, ⟨-, hd⟩ | ⟨hr, hd⟩⟩ := h
    · exact Or.inl hd
    · right
      refine ⟨⟨hdr, hr⟩, hd, ?_⟩
      simpa [hr, pendingAll] using hperm

theorem session_quiet (d0 : List (List Word)) (p : Word) (t : Trie_c)
    (h : Session d0 p t) (hq : Quiet t) :
    t.delivered = d0 ++ [t._results] ∧ t._results.Perm (target t._root p) := by
  simp only [Session, hq.1, hq.2, pendingAll, List.append_nil] at h
  obtain ⟨-, hperm, ⟨hne, -⟩ | ⟨-, hd⟩⟩ := h
  · exact absurd rfl hne
  · exact ⟨hd, hperm⟩

/-- A search called with nothing in flight: at every moment the callback has not been
called, or it has been called once with a rearrangement of the target and nothing is
in flight any more; and once the schedule is as long as the fuel, the latter holds. -/
theorem session_outcome (q : Trie_c) (hq : Quiet q) (hp : Pool q) (p : Word)
    (sched : List Nat) :
    ((run sched (findPrefixMatches p q)).delivered = q.delivered ∨
      (Quiet (run sched (findPrefixMatches p q)) ∧
        (run sched (findPrefixMatches p q)).delivered =
          q.delivered ++ [(run sched (findPrefixMatches p q))._results] ∧
        (run sched (findPrefixMatches p q))._results.Perm (target q._root p))) ∧
    (fuel (findPrefixMatches p q) ≤ sched.length →
      (Quiet (run sched (findPrefixMatches p q)) ∧
        (run sched (findPrefixMatches p q)).delivered =
          q.delivered ++ [(run sched (findPrefixMatches p q))._results] ∧
        (run sched (findPrefixMatches p q))._results.Perm (target q._root p))) := by
  have hinv := session_run q.delivered p sched (findPrefixMatches p q)
    ⟨pool_findPrefixMatches p q hp, session_findPrefixMatches p q hq⟩
  have hroot : (run sched (findPrefixMatches p q))._root = q._root := by
    rw [(run_frame sched _).1, findPrefixMatches_root]
  constructor
  · have := session_delivered _ _ _ hinv.2
    rwa [hroot] at this
  · intro hlen
    have hquiet := quiet_of_fuel_le sched _ (pool_findPrefixMatches p q hp) hlen
    have := session_quiet _ _ _ hinv.2 hquiet
    rw [hroot] at this
    exact ⟨hquiet, this⟩

/-- Membership in a rearrangement of the target of a search on a built dictionary. -/
theorem mem_of_perm_target (num : Nat) (D : List Word) (p : Word) (r : List Word)
    (h : r.Perm (target (build num D)._root p)) (w : Word) :
    w ∈ r ↔ w ∈ D ∧ p <+: w := by
  rw [h.mem_iff, mem_target _ (wellFormed_build num D), contains_build]
  exact And.comm

theorem nodup_of_perm_target (num : Nat) (D : List Word) (p : Word) (r : List Word)
    (h : r.Perm (target (build num D)._root p)) : r.Nodup :=
  h.nodup_iff.2 (nodup_target _ (wellFormed_build num D) p)

theorem findPrefixMatches_driver (p : Word) (t : Trie_c) (h : t.driver = Driver.ready) :
    (findPrefixMatches p t).driver = Driver.spin p := by
  simp [findPrefixMatches, h]

theorem fuel_findPrefixMatches (p : Word) (q : Trie_c) (hq : Quiet q) :
    fuel (findPrefixMatches p q) = 5 + cost q._root := by
  simp [findPrefixMatches, hq.1, hq.2, fuel, Driver.cost, costAll]

end Trie_c

namespace Trie_c

theorem setChild_setChild (a : Char) (n m : TrieNode_t) (cs : List (Char × TrieNode_t)) :
    setChild a n (setChild a m cs) = setChild a n cs := by
  induction cs with
  | nil => rfl
  | cons x rest ih =>
    obtain ⟨d, k⟩ := x
    by_cases hd : d = a
    · simp [setChild, hd]
    · simp [setChild, hd, ih]

theorem insertFrom_insertFrom (w : Word) : ∀ t : TrieNode_t,
    insertFrom (insertFrom t w) w = insertFrom t w := by
  induction w with
  | nil => intro t; obtain ⟨l, cs⟩ := t; simp [insertFrom]
  | cons a w ih =>
    intro t
    obtain ⟨l, cs⟩ := t
    cases hf : findChild a cs with
    | none => simp [insertFrom, hf, findChild, setChild, ih]
    | some child =>
      simp [insertFrom, hf, findChild_setChild_same a _ cs child hf, ih, setChild_setChild]

theorem step_of_no_worker (t : Trie_c) (k : Nat) (h : t.running = []) :
    step t k = driverStep t := by
  rcases step_cases t k with ⟨-, he, hs⟩ | ⟨-, hs⟩ | ⟨i, w, hw, -⟩
  · rw [hs]
    cases hdr : t.driver with
    | ready => simp [driverStep, hdr]
    | spin q =>
      have : t._idleWorkers.length < t._numWorkers := by
        simp [driverEnabled, hdr] at he
        exact he
      simp [driverStep, hdr, this]
    | unflag q => simp [driverEnabled, hdr] at he
    | clear q => simp [driverEnabled, hdr] at he
    | descend q => simp [driverEnabled, hdr] at he
  · exact hs
  · simp [h] at hw

theorem absent_step (d0 : List (List Word)) (idle0 : List Nat) (p : Word) (n : Nat)
    (t : Trie_c) (k : Nat) (h : Absent d0 idle0 p n t) :
    Absent d0 idle0 p (n + 1) (step t k) := by
  obtain ⟨hr, hi, hn, hd, hph⟩ := h
  rw [step_of_no_worker t k hr]
  match n, hph with
  | 0, hph =>
    have : ¬ idle0.length < t._numWorkers := by omega
    simp [Absent, driverStep, hph.1, hph.2, this, hr, hi, hn, hd]
  | 1, hph => simp [Absent, driverStep, hph.1, hph.2, hr, hi, hn, hd]
  | 2, hph => simp [Absent, driverStep, hph.1, hph.2, hr, hi, hn, hd]
  | 3, hph => simp [Absent, driverStep, hph.1, hph.2.1, hph.2.2, hr, hi, hn, hd]
  | n + 4, hph => simp [Absent, driverStep, hph.1, hph.2, hr, hi, hn, hd]

theorem absent_run (d0 : List (List Word)) (idle0 : List Nat) (p : Word)
    (sched : List Nat) : ∀ (n : Nat) (t : Trie_c), Absent d0 idle0 p n t →
      Absent d0 idle0 p (n + sched.length) (run sched t) := by
  induction sched with
  | nil => intro n t h; exact h
  | cons k sched ih =>
    intro n t h
    have := ih (n + 1) _ (absent_step d0 idle0 p n t k h)
    rw [run_cons]
    simpa [Nat.add_assoc, Nat.add_comm 1] using this

theorem absent_findPrefixMatches (p : Word) (q : Trie_c) (hq : Quiet q) (hp : Pool q)
    (hd : descend q._root p = none) :
    Absent q.delivered q._idleWorkers p 0 (findPrefixMatches p q) := by
  have := hp.2
  simp only [hq.2, List.length_nil, Nat.add_zero] at this
  simp [Absent, findPrefixMatches, hq.1, hq.2, hd, this]

theorem solo_step (d0 : List (List Word)) (p : Word) (t : Trie_c) (k : Nat)
    (h : Pool t ∧ Session d0 p t ∧ Solo p t) :
    Pool (step t k) ∧ Session d0 p (step t k) ∧ Solo p (step t k) := by
  obtain ⟨hp, hs, hn, hsolo⟩ := h
  obtain ⟨hp2, hs2⟩ := session_step d0 p t k ⟨hp, hs⟩
  refine ⟨hp2, hs2, by rw [(step_frame t k).2]; exact hn, ?_⟩
  rcases step_cases t k with ⟨-, -, hst⟩ | ⟨-, hst⟩ | ⟨i, w, hw, hst⟩
  · rw [hst]; exact hsolo
  · rw [hst]
    cases hdr : t.driver with
    | ready => simpa [driverStep, hdr] using hsolo
    | spin q =>
      by_cases hlt : t._idleWorkers.length < t._numWorkers <;> simp [driverStep, hdr, hlt]
    | unflag q => simp [driverStep, hdr]
    | clear q => simp [driverStep, hdr]
    | descend q =>
      simp only [Session, hdr] at hs
      obtain ⟨rfl, hr, -, -, hres⟩ := hs
      cases hd : descend t._root q with
      | none => simp [driverStep, hdr, hd, hres, hr, target, pendingAll]
      | some reached =>
        cases hi : t._idleWorkers with
        | nil =>
          have := hp.2
          simp [hi, hr] at this
          omega
        | cons j rest =>
          simp [driverStep, hdr, hd, reserveFreeWorker, hi, hres, hr, target, pendingAll,
            pendingStack, Frame.pending]
  · rw [hst]
    obtain ⟨pre, post, repl, spawned, added, e⟩ := workerAct_effect t i w hw
    intro hready
    rw [e.driver_new] at hready
    simp only [Session, hready] at hs
    have hex := e.exact hs.1
    have hpool := hp.2
    rw [e.running_eq, hn] at hpool
    simp only [List.length_append, List.length_cons] at hpool
    have h1 : pre = [] := List.eq_nil_of_length_eq_zero (by omega)
    have h2 : post = [] := List.eq_nil_of_length_eq_zero (by omega)
    have h3 : spawned = [] := by
      by_cases hstack : w.stack = []
      · exact (e.release hstack).2.1
      · have := (e.carry_on hstack).2
        exact List.eq_nil_of_length_eq_zero (by omega)
    have hsolo2 := hsolo hready
    rw [e.running_eq, h1, h2] at hsolo2
    rw [e.results_new, e.running_new, e.root_new, h1, h2, h3, ← hsolo2]
    rw [h3] at hex
    simp only [List.nil_append, List.append_nil, pendingAll] at hex ⊢
    rw [List.append_assoc, hex]

theorem solo_run (d0 : List (List Word)) (p : Word) (sched : List Nat) (t : Trie_c)
    (h : Pool t ∧ Session d0 p t ∧ Solo p t) :
    Pool (run sched t) ∧ Session d0 p (run sched t) ∧ Solo p (run sched t) :=
  run_induction (fun s => Pool s ∧ Session d0 p s ∧ Solo p s) (solo_step d0 p) sched t h

end Trie_c

namespace Trie_c

/-- The only transition of a session on an existing prefix that calls the callback is the
release of the last running worker. -/
theorem delivered_step (d0 : List (List Word)) (p : Word) (t : Trie_c) (k : Nat)
    (hp : Pool t) (hs : Session d0 p t) (hfound : descend t._root p ≠ none)
    (hch : (step t k).delivered ≠ t.delivered) :
    ∃ w, t.running = [w] ∧ w.stack = [] ∧ t.delivered = d0 ∧
      (step t k)._idleWorkers = t._idleWorkers ++ [w.workerId] ∧
      (step t k)._idleWorkers.length = t._numWorkers ∧ (step t k).running = [] ∧
      (step t k)._results = t._results ∧ (step t k).delivered = d0 ++ [t._results] := by
  rcases step_cases t k with ⟨-, -, hst⟩ | ⟨-, hst⟩ | ⟨i, w, hw, hst⟩
  · rw [hst] at hch; exact absurd rfl hch
  · exfalso
    apply hch
    rw [hst]
    cases hdr : t.driver with
    | ready => simp [driverStep, hdr]
    | spin q =>
      by_cases hlt : t._idleWorkers.length < t._numWorkers <;> simp [driverStep, hdr, hlt]
    | unflag q => simp [driverStep, hdr]
    | clear q => simp [driverStep, hdr]
    | descend q =>
      simp only [Session, hdr] at hs
      obtain ⟨rfl, -⟩ := hs
      cases hd : descend t._root q with
      | none => exact absurd hd hfound
      | some reached =>
        cases hi : t._idleWorkers <;> simp [driverStep, hdr, hd, reserveFreeWorker, hi]
  · obtain ⟨pre, post, repl, spawned, added, e⟩ := workerAct_effect t i w hw
    rw [hst] at hch ⊢
    have hne : t.running ≠ [] := by rw [e.running_eq]; simp
    have hd0 : t.delivered = d0 := by
      rcases session_delivered d0 p t hs with h | ⟨hq, -⟩
      · exact h
      · exact absurd hq.2 hne
    by_cases hc : w.stack.isEmpty = true ∧ t._idleWorkers.length + 1 = t._numWorkers
    · have hstack : w.stack = [] := List.isEmpty_iff.1 hc.1
      obtain ⟨r1, r2, r3, r4⟩ := e.release hstack
      have hpool := hp.2
      rw [e.running_eq] at hpool
      simp only [List.length_append, List.length_cons] at hpool
      have h1 : pre = [] := List.eq_nil_of_length_eq_zero (by omega)
      have h2 : post = [] := List.eq_nil_of_length_eq_zero (by omega)
      refine ⟨w, by rw [e.running_eq, h1, h2]; rfl, hstack, hd0, r4, ?_, ?_, ?_, ?_⟩
      · rw [r4, List.length_append, List.length_singleton]; exact hc.2
      · rw [e.running_new, h1, h2, r1, r2]; rfl
      · rw [e.results_new, r3, List.append_nil]
      · rw [e.delivered_new, if_pos hc, hd0]
    · exfalso
      apply hch
      rw [e.delivered_new, if_neg hc]

theorem draining_step (p : Word) (t : Trie_c) (k : Nat) (h : Pool t ∧ Draining p t) :
    Pool (step t k) ∧ Draining p (step t k) := by
  obtain ⟨hp, hd⟩ := h
  refine ⟨pool_step t k hp, ?_⟩
  have hsess : ∀ d0, Session d0 p t → Draining p (step t k) :=
    fun d0 hs => Or.inr ⟨d0, (session_step d0 p t k ⟨hp, hs⟩).2⟩
  rcases hd with hspin | ⟨d0, hs⟩
  · by_cases hr : t.running = []
    · exact hsess t.delivered (by simp [Session, hspin, hr])
    · rcases step_cases t k with ⟨hr2, -, -⟩ | ⟨he, -⟩ | ⟨i, w, hw, hst⟩
      · exact absurd hr2 hr
      · exfalso
        have hpool := hp.2
        have hpos : 0 < t.running.length := List.length_pos.2 hr
        simp [driverEnabled, hspin] at he
        omega
      · obtain ⟨pre, post, repl, spawned, added, e⟩ := workerAct_effect t i w hw
        left
        rw [hst, e.driver_new, hspin]
  · exact hsess d0 hs

theorem draining_run (p : Word) (sched : List Nat) (t : Trie_c) (h : Pool t ∧ Draining p t) :
    Pool (run sched t) ∧ Draining p (run sched t) :=
  run_induction (fun s => Pool s ∧ Draining p s) (draining_step p) sched t h

end Trie_c

/-! ## The claims -/

namespace Trie_c

/-- C1: for every dictionary `D` (inserted word by word into a fresh trie), every prefix
`p`, every requested worker number (`0` gives one worker) and every schedule of the
threads, when no new search is issued the callback log after `findPrefixMatches p` is
empty or holds one sequence whose strings are exactly the words of `D` that start with
`p`; and every schedule at least as long as the fuel has delivered that sequence. -/
theorem findPrefixMatches_delivers_exact_matches (num : Nat) (D : List Word) (p : Word)
    (sched : List Nat) :
    ((run sched (findPrefixMatches p (build num D))).delivered = [] ∨
      ∃ r, (run sched (findPrefixMatches p (build num D))).delivered = [r] ∧
        ∀ w, w ∈ r ↔ w ∈ D ∧ p <+: w) ∧
    (fuel (findPrefixMatches p (build num D)) ≤ sched.length →
      ∃ r, (run sched (findPrefixMatches p (build num D))).delivered = [r] ∧
        ∀ w, w ∈ r ↔ w ∈ D ∧ p <+: w) := by
  obtain ⟨h1, h2⟩ := session_outcome (build num D) (quiet_build num D) (pool_build num D) p sched
  rw [delivered_build] at h1 h2
  constructor
  · rcases h1 with h | ⟨-, hd, hperm⟩
    · exact Or.inl h
    · exact Or.inr ⟨_, by simpa using hd, mem_of_perm_target num D p _ hperm⟩
  · intro hlen
    obtain ⟨-, hd, hperm⟩ := h2 hlen
    exact ⟨_, by simpa using hd, mem_of_perm_target num D p _ hperm⟩

/-- C2: for every dictionary `D` (a word may be inserted several times), prefix, worker number
and schedule, no sequence handed to the callback by an uncancelled session contains a
string twice, every word of `D` that starts with the prefix occurs in it exactly once,
and every schedule at least as long as the fuel has delivered such a sequence. -/
theorem delivered_results_without_duplicates (num : Nat) (D : List Word) (p : Word)
    (sched : List Nat) :
    (∀ r ∈ (run sched (findPrefixMatches p (build num D))).delivered,
      r.Nodup ∧ ∀ w ∈ D, p <+: w → r.countP (fun v => decide (v = w)) = 1) ∧
    (fuel (findPrefixMatches p (build num D)) ≤ sched.length →
      ∃ r, (run sched (findPrefixMatches p (build num D))).delivered = [r] ∧
        r.Nodup ∧ ∀ w ∈ D, p <+: w → r.countP (fun v => decide (v = w)) = 1) := by
  obtain ⟨h1, h2⟩ := session_outcome (build num D) (quiet_build num D) (pool_build num D) p sched
  rw [delivered_build] at h1 h2
  have key : ∀ r : List Word, r.Perm (target (build num D)._root p) →
      r.Nodup ∧ ∀ w ∈ D, p <+: w → r.countP (fun v => decide (v = w)) = 1 := by
    intro r hperm
    have hnd := nodup_of_perm_target num D p r hperm
    refine ⟨hnd, fun w hw hpw => ?_⟩
    exact (List.count_eq_one_of_mem hnd
      ((mem_of_perm_target num D p r hperm w).2 ⟨hw, hpw⟩) :
        @List.count Word instBEqOfDecidableEq w r = 1)
  constructor
  · intro r hr
    rcases h1 with h | ⟨-, hd, hperm⟩
    · rw [h] at hr; cases hr
    · rw [hd] at hr
      simp only [List.nil_append, List.mem_singleton] at hr
      rw [hr]; exact key _ hperm
  · intro hlen
    obtain ⟨-, hd, hperm⟩ := h2 hlen
    exact ⟨_, by simpa using hd, key _ hperm⟩

/-- C5: for every dictionary, prefix and any two requested worker numbers, whatever the two
schedules, any sequence delivered with the one pool and any delivered with the other
are rearrangements of each other, so they hold the same strings; and schedules at
least as long as the fuel have both delivered one. -/
theorem result_set_independent_of_worker_count (n1 n2 : Nat) (D : List Word) (p : Word)
    (sched1 sched2 : List Nat) :
    (∀ r1 ∈ (run sched1 (findPrefixMatches p (build n1 D))).delivered,
      ∀ r2 ∈ (run sched2 (findPrefixMatches p (build n2 D))).delivered,
        r1.Perm r2 ∧ ∀ w, w ∈ r1 ↔ w ∈ r2) ∧
    (fuel (findPrefixMatches p (build n1 D)) ≤ sched1.length →
      fuel (findPrefixMatches p (build n2 D)) ≤ sched2.length →
      ∃ r1 r2, (run sched1 (findPrefixMatches p (build n1 D))).delivered = [r1] ∧
        (run sched2 (findPrefixMatches p (build n2 D))).delivered = [r2] ∧
        ∀ w, w ∈ r1 ↔ w ∈ r2) := by
  obtain ⟨a1, a2⟩ := session_outcome (build n1 D) (quiet_build n1 D) (pool_build n1 D) p sched1
  obtain ⟨b1, b2⟩ := session_outcome (build n2 D) (quiet_build n2 D) (pool_build n2 D) p sched2
  rw [delivered_build] at a1 a2 b1 b2
  have hroot : (build n2 D)._root = (build n1 D)._root := by rw [build_root, build_root]
  rw [hroot] at b1 b2
  constructor
  · intro r1 hr1 r2 hr2
    rcases a1 with h | ⟨-, hd1, hp1⟩
    · rw [h] at hr1; cases hr1
    rcases b1 with h | ⟨-, hd2, hp2⟩
    · rw [h] at hr2; cases hr2
    rw [hd1] at hr1
    rw [hd2] at hr2
    simp only [List.nil_append, List.mem_singleton] at hr1 hr2
    subst hr1 hr2
    have hperm := hp1.trans hp2.symm
    exact ⟨hperm, fun w => hperm.mem_iff⟩
  · intro hl1 hl2
    obtain ⟨-, hd1, hp1⟩ := a2 hl1
    obtain ⟨-, hd2, hp2⟩ := b2 hl2
    exact ⟨_, _, by simpa using hd1, by simpa using hd2, fun w => (hp1.trans hp2.symm).mem_iff⟩

/-- C9: for every sequence of words `D` inserted into a fresh trie and every string `w`, the
path spelled by `w` from the root exists and ends at a node with `_isLeaf = true` if and
only if `w` is an element of `D`; and on any trie, inserting a word leaves the membership
of every other string as it was. -/
theorem insertWord_membership (num : Nat) (D : List Word) (w : Word) :
    (contains (build num D)._root w = true ↔ w ∈ D) ∧
    (∀ (t : Trie_c) (v : Word), v ≠ w →
      contains (insertWord t w)._root v = contains t._root v) := by
  refine ⟨contains_build num D w, fun t v hv => ?_⟩
  simp [insertWord, contains_insertFrom, hv]

/-- C3: for every dictionary `D` and every prefix `p` that no word of `D` starts with, the
callback log after `findPrefixMatches p` is empty or holds the empty sequence, and holds
it once the schedule is as long as the fuel.  When a letter of `p` is absent in the
descent, no worker ever runs, the idle list is the one of the constructor all along,
and the empty sequence is delivered by the fourth transition of the driving thread
(set the flag back, clear, descend, call back), not before. -/
theorem absent_prefix_delivers_empty (num : Nat) (D : List Word) (p : Word)
    (habs : ∀ w ∈ D, ¬ p <+: w) (sched : List Nat) :
    ((run sched (findPrefixMatches p (build num D))).delivered = [] ∨
      (run sched (findPrefixMatches p (build num D))).delivered = [[]]) ∧
    (fuel (findPrefixMatches p (build num D)) ≤ sched.length →
      (run sched (findPrefixMatches p (build num D))).delivered = [[]]) ∧
    (descend (build num D)._root p = none →
      (run sched (findPrefixMatches p (build num D))).running = [] ∧
      (run sched (findPrefixMatches p (build num D)))._idleWorkers =
        (new num)._idleWorkers ∧
      (run sched (findPrefixMatches p (build num D)))._idleWorkers.length =
        (run sched (findPrefixMatches p (build num D)))._numWorkers ∧
      (sched.length < 4 → (run sched (findPrefixMatches p (build num D))).delivered = []) ∧
      (4 ≤ sched.length →
        (run sched (findPrefixMatches p (build num D))).delivered = [[]] ∧
        (run sched (findPrefixMatches p (build num D))).driver = Driver.ready)) := by
  obtain ⟨h1, h2⟩ := session_outcome (build num D) (quiet_build num D) (pool_build num D) p sched
  rw [delivered_build] at h1 h2
  have hnil : ∀ r : List Word, r.Perm (target (build num D)._root p) → r = [] := by
    intro r hperm
    apply List.eq_nil_iff_forall_not_mem.2
    intro w hw
    obtain ⟨hwD, hpw⟩ := (mem_of_perm_target num D p r hperm w).1 hw
    exact habs w hwD hpw
  refine ⟨?_, ?_, ?_⟩
  · rcases h1 with h | ⟨-, hd, hperm⟩
    · exact Or.inl h
    · right
      rw [hd, hnil _ hperm]; rfl
  · intro hlen
    obtain ⟨-, hd, hperm⟩ := h2 hlen
    rw [hd, hnil _ hperm]; rfl
  · intro hdesc
    have hab := absent_run _ _ p sched 0 _
      (absent_findPrefixMatches p (build num D) (quiet_build num D) (pool_build num D) hdesc)
    obtain ⟨hr, hi, -, -, hph⟩ := hab
    have hpool := (pool_run sched _
      (pool_findPrefixMatches p _ (pool_build num D))).2
    rw [hr] at hpool
    have hidle : (build num D)._idleWorkers = (new num)._idleWorkers :=
      (foldl_insertWord_frame D (new num)).2.1
    rw [delivered_build] at hph
    refine ⟨hr, hi.trans hidle, by simpa using hpool, ?_, ?_⟩
    · intro hlt
      match hl : sched.length, hlt, hph with
      | 0, _, hph => simp only [hl] at hph; exact hph.2
      | 1, _, hph => simp only [hl] at hph; exact hph.2
      | 2, _, hph => simp only [hl] at hph; exact hph.2
      | 3, _, hph => simp only [hl] at hph; exact hph.2.1
    · intro hge
      obtain ⟨m, hm⟩ : ∃ m, 0 + sched.length = m + 4 := ⟨sched.length - 4, by omega⟩
      rw [hm] at hph
      exact ⟨by simpa using hph.2, hph.1⟩

/-- As long as no `detach` throws (the transitions of `step`, which leave the thread objects
out of account): in every schedule of a session started by `findPrefixMatches` on a
prefix that exists
in the trie, the callback log is empty, or holds one sequence while no worker runs and
the idle list has `_numWorkers` entries; a transition that changes the log is the
release of the only worker still running, which brings the idle list to `_numWorkers`
entries and hands over the results; and a schedule as long as the fuel has delivered. -/
theorem callback_once_by_last_worker (num : Nat) (D : List Word) (p : Word)
    (node : TrieNode_t) (hfound : descend (build num D)._root p = some node)
    (sched : List Nat) (k : Nat) :
    ((run sched (findPrefixMatches p (build num D))).delivered = [] ∨
      ((∃ r, (run sched (findPrefixMatches p (build num D))).delivered = [r]) ∧
        (run sched (findPrefixMatches p (build num D))).running = [] ∧
        (run sched (findPrefixMatches p (build num D)))._idleWorkers.length =
          (run sched (findPrefixMatches p (build num D)))._numWorkers)) ∧
    ((step (run sched (findPrefixMatches p (build num D))) k).delivered ≠
        (run sched (findPrefixMatches p (build num D))).delivered →
      ∃ w, (run sched (findPrefixMatches p (build num D))).running = [w] ∧ w.stack = [] ∧
        (run sched (findPrefixMatches p (build num D))).delivered = [] ∧
        (step (run sched (findPrefixMatches p (build num D))) k)._idleWorkers =
          (run sched (findPrefixMatches p (build num D)))._idleWorkers ++ [w.workerId] ∧
        (step (run sched (findPrefixMatches p (build num D))) k)._idleWorkers.length =
          (run sched (findPrefixMatches p (build num D)))._numWorkers ∧
        (step (run sched (findPrefixMatches p (build num D))) k).running = [] ∧
        (step (run sched (findPrefixMatches p (build num D))) k).delivered =
          [(run sched (findPrefixMatches p (build num D)))._results]) ∧
    (fuel (findPrefixMatches p (build num D)) ≤ sched.length →
      ∃ r, (run sched (findPrefixMatches p (build num D))).delivered = [r]) := by
  obtain ⟨h1, h2⟩ := session_outcome (build num D) (quiet_build num D) (pool_build num D) p sched
  have hinv := session_run (build num D).delivered p sched (findPrefixMatches p (build num D))
    ⟨pool_findPrefixMatches p _ (pool_build num D),
      session_findPrefixMatches p _ (quiet_build num D)⟩
  rw [delivered_build] at h1 h2 hinv
  refine ⟨?_, ?_, ?_⟩
  · rcases h1 with h | ⟨hq, hd, -⟩
    · exact Or.inl h
    · right
      have hpool := hinv.1.2
      rw [hq.2] at hpool
      exact ⟨⟨_, by simpa using hd⟩, hq.2, by simpa using hpool⟩
  · intro hch
    have hroot : (run sched (findPrefixMatches p (build num D)))._root = (build num D)._root := by
      rw [(run_frame sched _).1, findPrefixMatches_root]
    obtain ⟨w, a1, a2, a3, a4, a5, a6, -, a8⟩ :=
      delivered_step [] p _ k hinv.1 hinv.2 (by rw [hroot, hfound]; simp) hch
    exact ⟨w, a1, a2, a3, a4, a5, a6, by simpa using a8⟩
  · intro hlen
    obtain ⟨-, hd, -⟩ := h2 hlen
    exact ⟨_, by simpa using hd⟩

/-- C6: with one worker, for every trie, whatever the iteration order of its children maps
is, and every prefix present in it, a search called with nothing in flight has in every
schedule at most one running worker, `reserveFreeWorker` fails while it runs, and the
callback log is as before or has grown by exactly the depth-first pre-order listing
below the node of the prefix, the children of each node in its iteration order; every
schedule as long as the fuel has delivered this one sequence, so two runs on the same
trie deliver the same sequence. -/
theorem single_worker_delivers_preorder (q : Trie_c) (hq : Quiet q) (hp : Pool q)
    (hone : q._numWorkers = 1) (p : Word) (node : TrieNode_t)
    (hfound : descend q._root p = some node) (sched sched' : List Nat) :
    (∀ w ∈ (run sched (findPrefixMatches p q)).running,
      (run sched (findPrefixMatches p q)).running = [w] ∧
      reserveFreeWorker (run sched (findPrefixMatches p q))._idleWorkers = none) ∧
    ((run sched (findPrefixMatches p q)).delivered = q.delivered ∨
      (run sched (findPrefixMatches p q)).delivered = q.delivered ++ [preorder node p]) ∧
    (fuel (findPrefixMatches p q) ≤ sched.length →
      (run sched (findPrefixMatches p q)).delivered = q.delivered ++ [preorder node p]) ∧
    (fuel (findPrefixMatches p q) ≤ sched.length →
      fuel (findPrefixMatches p q) ≤ sched'.length →
      (run sched (findPrefixMatches p q)).delivered =
        (run sched' (findPrefixMatches p q)).delivered) := by
  have hinit : Solo p (findPrefixMatches p q) := by
    simp [Solo, findPrefixMatches, hq.1, hone]
  have htarget : target q._root p = preorder node p := by
    simp [target, hfound]
  have hfinal : ∀ s : List Nat, Quiet (run s (findPrefixMatches p q)) →
      (run s (findPrefixMatches p q)).delivered = q.delivered ++ [preorder node p] := by
    intro s hquiet
    obtain ⟨-, hsess, -, hsolo⟩ := solo_run q.delivered p s _
      ⟨pool_findPrefixMatches p _ hp, session_findPrefixMatches p _ hq, hinit⟩
    have hroot : (run s (findPrefixMatches p q))._root = q._root := by
      rw [(run_frame s _).1, findPrefixMatches_root]
    have h1 := (session_quiet q.delivered p _ hsess hquiet).1
    have h2 := hsolo hquiet.1
    rw [hquiet.2, hroot, htarget] at h2
    simp only [pendingAll, List.append_nil] at h2
    rw [h1, h2]
  have hlong : ∀ s : List Nat, fuel (findPrefixMatches p q) ≤ s.length →
      (run s (findPrefixMatches p q)).delivered = q.delivered ++ [preorder node p] :=
    fun s hlen => hfinal s (quiet_of_fuel_le s _ (pool_findPrefixMatches p _ hp) hlen)
  obtain ⟨hpool, hsess, hn, -⟩ := solo_run q.delivered p sched _
    ⟨pool_findPrefixMatches p _ hp, session_findPrefixMatches p _ hq, hinit⟩
  refine ⟨?_, ?_, hlong sched, fun h1 h2 => (hlong sched h1).trans (hlong sched' h2).symm⟩
  · intro w hw
    have h2 := hpool.2
    rw [hn] at h2
    cases hr : (run sched (findPrefixMatches p q)).running with
    | nil => rw [hr] at hw; cases hw
    | cons a rest =>
      rw [hr] at h2 hw
      simp only [List.length_cons] at h2
      have h3 : rest = [] := List.eq_nil_of_length_eq_zero (by omega)
      have h4 : (run sched (findPrefixMatches p q))._idleWorkers = [] :=
        List.eq_nil_of_length_eq_zero (by omega)
      subst h3
      simp only [List.mem_singleton] at hw
      rw [hw, h4]
      exact ⟨rfl, rfl⟩
  · rcases session_delivered q.delivered p _ hsess with h | ⟨hquiet, -, -⟩
    · exact Or.inl h
    · exact Or.inr (hfinal sched hquiet)

/-- C7: for every dictionary and prefix `p`, when `findPrefixMatches p` is called, the session
runs to completion (a schedule as long as the fuel), and `findPrefixMatches p` is
called again with no insertion in between and runs to completion, the callback has
been called exactly twice, with sequences that hold the same strings; the second one
has no duplicates (nothing of the first session is left in it) and holds exactly the
words of the dictionary that start with `p`. -/
theorem repeated_search_same_result (num : Nat) (D : List Word) (p : Word)
    (sched1 sched2 : List Nat)
    (h1 : fuel (findPrefixMatches p (build num D)) ≤ sched1.length)
    (h2 : fuel (findPrefixMatches p (build num D)) ≤ sched2.length) :
    ∃ r1 r2,
      (run sched1 (findPrefixMatches p (build num D))).delivered = [r1] ∧
      (run sched2 (findPrefixMatches p
        (run sched1 (findPrefixMatches p (build num D))))).delivered = [r1, r2] ∧
      r1.Perm r2 ∧ (∀ w, w ∈ r1 ↔ w ∈ r2) ∧ r2.Nodup ∧ (∀ w, w ∈ r2 ↔ w ∈ D ∧ p <+: w) := by
  have hq := quiet_build num D
  have hp := pool_build num D
  obtain ⟨hq1, hd1, hperm1⟩ := (session_outcome (build num D) hq hp p sched1).2 h1
  rw [delivered_build] at hd1
  have hp1 := pool_run sched1 _ (pool_findPrefixMatches p _ hp)
  have hroot1 : (run sched1 (findPrefixMatches p (build num D)))._root = (build num D)._root := by
    rw [(run_frame sched1 _).1, findPrefixMatches_root]
  have hfuel : fuel (findPrefixMatches p (run sched1 (findPrefixMatches p (build num D)))) ≤
      sched2.length := by
    rw [fuel_findPrefixMatches p _ hq1, hroot1, ← fuel_findPrefixMatches p _ hq]
    exact h2
  obtain ⟨-, hd2, hperm2⟩ := (session_outcome _ hq1 hp1 p sched2).2 hfuel
  rw [hroot1] at hperm2
  refine ⟨_, _, by simpa using hd1, ?_, hperm1.trans hperm2.symm,
    fun w => (hperm1.trans hperm2.symm).mem_iff, nodup_of_perm_target num D p _ hperm2,
    mem_of_perm_target num D p _ hperm2⟩
  rw [hd2, hd1]; rfl

/-- With a loop of `stopAllWorkers` that holds the driving thread until all ids are idle (the
transitions of `driverStep`): when `findPrefixMatches p2` is issued after the call for
`p1` has returned, whatever
the old session has done so far (it may still be running): once the driving thread
is past the loop of `stopAllWorkers` and still inside the call, no worker runs; after
the call has returned the results hold only words of the dictionary that start with
`p2`, none twice; and a schedule as long as the fuel ends with a delivery of exactly
the words of the dictionary that start with `p2`. -/
theorem new_search_not_mixed_with_old (num : Nat) (D : List Word) (p1 p2 : Word)
    (sched1 sched2 : List Nat)
    (hret : (run sched1 (findPrefixMatches p1 (build num D))).driver = Driver.ready) :
    (∀ q, (run sched2 (findPrefixMatches p2
          (run sched1 (findPrefixMatches p1 (build num D))))).driver = Driver.unflag q ∨
        (run sched2 (findPrefixMatches p2
          (run sched1 (findPrefixMatches p1 (build num D))))).driver = Driver.clear q ∨
        (run sched2 (findPrefixMatches p2
          (run sched1 (findPrefixMatches p1 (build num D))))).driver = Driver.descend q →
      (run sched2 (findPrefixMatches p2
        (run sched1 (findPrefixMatches p1 (build num D))))).running = []) ∧
    ((run sched2 (findPrefixMatches p2
        (run sched1 (findPrefixMatches p1 (build num D))))).driver = Driver.ready →
      (run sched2 (findPrefixMatches p2
        (run sched1 (findPrefixMatches p1 (build num D)))))._results.Nodup ∧
      ∀ w ∈ (run sched2 (findPrefixMatches p2
        (run sched1 (findPrefixMatches p1 (build num D)))))._results, w ∈ D ∧ p2 <+: w) ∧
    (fuel (findPrefixMatches p2 (run sched1 (findPrefixMatches p1 (build num D)))) ≤
        sched2.length →
      ∃ d r2, (run sched2 (findPrefixMatches p2
          (run sched1 (findPrefixMatches p1 (build num D))))).delivered = d ++ [r2] ∧
        (run sched2 (findPrefixMatches p2
          (run sched1 (findPrefixMatches p1 (build num D)))))._results = r2 ∧
        (∀ w, w ∈ r2 ↔ w ∈ D ∧ p2 <+: w) ∧ r2.Nodup) := by
  have hp1 := pool_run sched1 _ (pool_findPrefixMatches p1 _ (pool_build num D))
  have hp2 := pool_findPrefixMatches p2 _ hp1
  have hspin : (findPrefixMatches p2
      (run sched1 (findPrefixMatches p1 (build num D)))).driver = Driver.spin p2 :=
    findPrefixMatches_driver p2 _ hret
  obtain ⟨hpool, hdr⟩ := draining_run p2 sched2 _ ⟨hp2, Or.inl hspin⟩
  have hroot : (run sched2 (findPrefixMatches p2
      (run sched1 (findPrefixMatches p1 (build num D)))))._root = (build num D)._root := by
    rw [(run_frame sched2 _).1, findPrefixMatches_root, (run_frame sched1 _).1,
      findPrefixMatches_root]
  have hready : (run sched2 (findPrefixMatches p2
      (run sched1 (findPrefixMatches p1 (build num D))))).driver = Driver.ready →
      ∃ d0, Session d0 p2 (run sched2 (findPrefixMatches p2
        (run sched1 (findPrefixMatches p1 (build num D))))) := by
    intro h
    rcases hdr with hs | hs
    · rw [h] at hs; cases hs
    · exact hs
  refine ⟨?_, ?_, ?_⟩
  · intro q hq
    rcases hdr with hs | ⟨d0, hs⟩
    · rw [hs] at hq
      rcases hq with h | h | h <;> cases h
    · rcases hq with h | h | h <;>
        · simp only [Session, h] at hs
          exact hs.2.1
  · intro h
    obtain ⟨d0, hs⟩ := hready h
    simp only [Session, h, hroot] at hs
    have hnd := hs.2.1.nodup_iff.2 (nodup_target _ (wellFormed_build num D) p2)
    refine ⟨(List.nodup_append.1 hnd).1, fun w hw => ?_⟩
    have hmem : w ∈ target (build num D)._root p2 :=
      hs.2.1.mem_iff.1 (List.mem_append_left _ hw)
    exact (mem_of_perm_target num D p2 _ (List.Perm.refl _) w).1 hmem
  · intro hlen
    have hquiet := quiet_of_fuel_le sched2 _ hp2 hlen
    obtain ⟨d0, hs⟩ := hready hquiet.1
    obtain ⟨hd, hperm⟩ := session_quiet d0 p2 _ hs hquiet
    rw [hroot] at hperm
    exact ⟨d0, _, hd, rfl, mem_of_perm_target num D p2 _ hperm,
      nodup_of_perm_target num D p2 _ hperm⟩

/-- C10: `insertWord` is idempotent: for every trie state and every word (the empty word
included), inserting the word twice gives the very same trie (same nodes, same edge
labels in the same places, same leaf flags) as inserting it once. -/
theorem insertWord_idempotent (t : Trie_c) (w : Word) :
    insertWord (insertWord t w) w = insertWord t w := by
  simp [insertWord, insertFrom_insertFrom]

/-! ## Instances at the scenario dictionary -/

set_option maxRecDepth 100000 in
/-- Witness for C1 at the scenario: with three workers and a round-robin schedule the prefixes "ca", "do"
and "" deliver sequences holding exactly the matching words. -/
theorem findPrefixMatches_delivers_exact_matches_witness :
    (∃ r, (run (List.range 56) (findPrefixMatches ['c', 'a'] (build 3 exampleDict))).delivered
        = [r] ∧ ∀ w, w ∈ r ↔ w ∈ exampleDict ∧ ['c', 'a'] <+: w) ∧
    (∃ r, (run (List.range 56) (findPrefixMatches ['d', 'o'] (build 3 exampleDict))).delivered
        = [r] ∧ ∀ w, w ∈ r ↔ w ∈ exampleDict ∧ ['d', 'o'] <+: w) ∧
    (∃ r, (run (List.range 56) (findPrefixMatches [] (build 3 exampleDict))).delivered
        = [r] ∧ ∀ w, w ∈ r ↔ w ∈ exampleDict ∧ [] <+: w) ∧
    (run (List.range 56) (findPrefixMatches ['c', 'a'] (build 3 exampleDict))).delivered =
      [[['c', 'a', 'r'], ['c', 'a', 'r', 't'], ['c', 'a', 't']]] ∧
    (run (List.range 56) (findPrefixMatches ['d', 'o'] (build 3 exampleDict))).delivered =
      [[['d', 'o', 'g']]] :=
  ⟨(findPrefixMatches_delivers_exact_matches 3 exampleDict ['c', 'a'] (List.range 56)).2
      (by decide),
    (findPrefixMatches_delivers_exact_matches 3 exampleDict ['d', 'o'] (List.range 56)).2
      (by decide),
    (findPrefixMatches_delivers_exact_matches 3 exampleDict [] (List.range 56)).2 (by decide),
    by decide, by decide⟩

set_option maxRecDepth 100000 in
/-- Witness for C2 at a dictionary that holds "car" twice: the delivered sequence has no duplicates. -/
theorem delivered_results_without_duplicates_witness :
    ∃ r, (run (List.range 56) (findPrefixMatches ['c', 'a']
        (build 2 (['c', 'a', 'r'] :: exampleDict)))).delivered = [r] ∧
      r.Nodup ∧ ∀ w ∈ ['c', 'a', 'r'] :: exampleDict, ['c', 'a'] <+: w →
        r.countP (fun v => decide (v = w)) = 1 :=
  (delivered_results_without_duplicates 2 (['c', 'a', 'r'] :: exampleDict) ['c', 'a']
    (List.range 56)).2 (by decide)

set_option maxRecDepth 100000 in
/-- Witness for C3 at the scenario, prefix "z": the descent fails and four transitions deliver the empty
sequence with the idle list untouched. -/
theorem absent_prefix_delivers_empty_witness :
    (∀ w ∈ exampleDict, ¬ ['z'] <+: w) ∧
    descend (build 2 exampleDict)._root ['z'] = none ∧
    (run [0, 0, 0, 0] (findPrefixMatches ['z'] (build 2 exampleDict))).delivered = [[]] ∧
    (run [0, 0, 0, 0] (findPrefixMatches ['z'] (build 2 exampleDict))).running = [] ∧
    (run [0, 0, 0, 0] (findPrefixMatches ['z'] (build 2 exampleDict)))._idleWorkers =
      (new 2)._idleWorkers :=
  ⟨by decide, rfl,
    (((absent_prefix_delivers_empty 2 exampleDict ['z'] (by decide) [0, 0, 0, 0]).2.2
      rfl).2.2.2.2 (by decide)).1,
    ((absent_prefix_delivers_empty 2 exampleDict ['z'] (by decide) [0, 0, 0, 0]).2.2 rfl).1,
    ((absent_prefix_delivers_empty 2 exampleDict ['z'] (by decide) [0, 0, 0, 0]).2.2 rfl).2.1⟩

set_option maxRecDepth 100000 in
/-- Instance at the scenario, prefix "ca": the prefix exists and the session delivers once. -/
theorem callback_once_by_last_worker_witness :
    descend (build 2 exampleDict)._root ['c', 'a'] = some exampleNode ∧
    ∃ r, (run (List.range 56) (findPrefixMatches ['c', 'a'] (build 2 exampleDict))).delivered
      = [r] :=
  ⟨rfl, (callback_once_by_last_worker 2 exampleDict ['c', 'a'] exampleNode rfl
    (List.range 56) 0).2.2 (by decide)⟩

set_option maxRecDepth 100000 in
/-- Witness for C5 at the scenario: one worker and eight workers deliver the same strings for "ca". -/
theorem result_set_independent_of_worker_count_witness :
    ∃ r1 r2,
      (run (List.range 56) (findPrefixMatches ['c', 'a'] (build 1 exampleDict))).delivered
        = [r1] ∧
      (run (List.range 56) (findPrefixMatches ['c', 'a'] (build 8 exampleDict))).delivered
        = [r2] ∧
      ∀ w, w ∈ r1 ↔ w ∈ r2 :=
  (result_set_independent_of_worker_count 1 8 exampleDict ['c', 'a'] (List.range 56)
    (List.range 56)).2 (by decide) (by decide)

set_option maxRecDepth 100000 in
/-- Witness for C6 at a trie whose root iterates over its children in the order b, n, a: the
single worker delivers the words in this order. -/
theorem single_worker_delivers_preorder_witness :
    Quiet exampleUnordered ∧ Pool exampleUnordered ∧ exampleUnordered._numWorkers = 1 ∧
    descend exampleUnordered._root [] = some exampleUnordered._root ∧
    (run (List.range 40) (findPrefixMatches [] exampleUnordered)).delivered =
      [preorder exampleUnordered._root []] ∧
    preorder exampleUnordered._root [] = [['b'], ['n'], ['a']] :=
  ⟨⟨rfl, rfl⟩, ⟨by decide, by decide⟩, rfl, rfl,
    (single_worker_delivers_preorder exampleUnordered ⟨rfl, rfl⟩ ⟨by decide, by decide⟩ rfl []
      exampleUnordered._root rfl (List.range 40) []).2.2.1 (by decide), by decide⟩

set_option maxRecDepth 100000 in
/-- Witness for C7 at the scenario: two searches for "ca" in a row deliver the same strings. -/
theorem repeated_search_same_result_witness :
    fuel (findPrefixMatches ['c', 'a'] (build 2 exampleDict)) ≤ (List.range 56).length ∧
    ∃ r1 r2,
      (run (List.range 56) (findPrefixMatches ['c', 'a'] (build 2 exampleDict))).delivered
        = [r1] ∧
      (run (List.range 56) (findPrefixMatches ['c', 'a']
        (run (List.range 56) (findPrefixMatches ['c', 'a'] (build 2 exampleDict))))).delivered
        = [r1, r2] ∧
      r1.Perm r2 ∧ (∀ w, w ∈ r1 ↔ w ∈ r2) ∧ r2.Nodup ∧
      (∀ w, w ∈ r2 ↔ w ∈ exampleDict ∧ ['c', 'a'] <+: w) :=
  ⟨by decide, repeated_search_same_result 2 exampleDict ['c', 'a'] (List.range 56)
    (List.range 56) (by decide) (by decide)⟩

set_option maxRecDepth 100000 in
/-- Instance at the scenario: a search for "ca" issued while two workers of the search for "" are
still running ends with a delivery of exactly the words that start with "ca". -/
theorem new_search_not_mixed_with_old_witness :
    (run [0, 0, 0, 0, 1, 1, 1, 1, 1]
      (findPrefixMatches [] (build 3 exampleDict))).driver = Driver.ready ∧
    (run [0, 0, 0, 0, 1, 1, 1, 1, 1]
      (findPrefixMatches [] (build 3 exampleDict))).running.length = 2 ∧
    ∃ d r2, (run (List.range 120) (findPrefixMatches ['c', 'a']
        (run [0, 0, 0, 0, 1, 1, 1, 1, 1]
          (findPrefixMatches [] (build 3 exampleDict))))).delivered = d ++ [r2] ∧
      (run (List.range 120) (findPrefixMatches ['c', 'a']
        (run [0, 0, 0, 0, 1, 1, 1, 1, 1]
          (findPrefixMatches [] (build 3 exampleDict)))))._results = r2 ∧
      (∀ w, w ∈ r2 ↔ w ∈ exampleDict ∧ ['c', 'a'] <+: w) ∧ r2.Nodup :=
  ⟨rfl, by decide, (new_search_not_mixed_with_old 3 exampleDict [] ['c', 'a']
    [0, 0, 0, 0, 1, 1, 1, 1, 1] (List.range 120) rfl).2.2 (by decide)⟩

end Trie_c

/-! ## Reachable states -/

namespace Trie_c

theorem exec_nil (num : Nat) : exec num [] = new num := rfl

theorem exec_snoc (num : Nat) (events : List Event) (e : Event) :
    exec num (events ++ [e]) = apply (exec num events) e := by
  simp [exec, List.foldl_append]

/-- An invariant of the constructor and of every event holds in every reachable state. -/
theorem exec_induction (P : Trie_c → Prop) (num : Nat) (h0 : P (new num))
    (hstep : ∀ t e, P t → P (apply t e)) : ∀ events : List Event, P (exec num events) := by
  intro events
  induction events using List.reverseRecOn with
  | nil => exact h0
  | append_singleton es e ih => rw [exec_snoc]; exact hstep _ e ih

theorem pool_insertWord (t : Trie_c) (w : Word) (h : Pool t) : Pool (insertWord t w) := h

theorem pool_apply (t : Trie_c) (e : Event) (h : Pool t) : Pool (apply t e) := by
  cases e with
  | insert w =>
    simp only [apply]
    cases t.driver <;> exact h
  | search p => exact pool_findPrefixMatches p t h
  | request => exact h
  | tick k => exact pool_step t k h

theorem pool_exec (num : Nat) (events : List Event) : Pool (exec num events) :=
  exec_induction Pool num (pool_new num) pool_apply events

theorem numWorkers_apply (t : Trie_c) (e : Event) : (apply t e)._numWorkers = t._numWorkers := by
  cases e with
  | insert w =>
    simp only [apply]
    cases t.driver <;> rfl
  | search p =>
    simp only [apply, findPrefixMatches]
    cases t.driver <;> rfl
  | request => rfl
  | tick k => exact (step_frame t k).2

theorem numWorkers_new (num : Nat) : (new num)._numWorkers = max num 1 := by
  by_cases h : num = 0
  · simp [new, h]
  · simp only [new, h, if_false]
    omega

theorem numWorkers_exec (num : Nat) (events : List Event) :
    (exec num events)._numWorkers = max num 1 :=
  exec_induction (fun t => t._numWorkers = max num 1) num (numWorkers_new num)
    (fun t e h => (numWorkers_apply t e).trans h) events

end Trie_c

namespace Trie_c

theorem gate_driverStep (t : Trie_c) (hp : Pool t) (h : Gate t) : Gate (driverStep t) := by
  cases hdr : t.driver with
  | ready => simpa [driverStep, hdr] using h
  | spin q =>
    by_cases hlt : t._idleWorkers.length < t._numWorkers
    · simpa [driverStep, hdr, hlt] using h
    · have := hp.2
      have hr : t.running = [] := List.eq_nil_of_length_eq_zero (by omega)
      simp [driverStep, hdr, hlt, Gate, hr]
  | unflag q =>
    simp only [Gate, hdr] at h
    simp [driverStep, hdr, Gate, h]
  | clear q =>
    simp only [Gate, hdr] at h
    simp [driverStep, hdr, Gate, h]
  | descend q =>
    cases hd : descend t._root q with
    | none => simp [driverStep, hdr, hd, Gate]
    | some reached =>
      cases hi : t._idleWorkers <;> simp [driverStep, hdr, hd, reserveFreeWorker, hi, Gate]

theorem gate_workerAct (t : Trie_c) (i : Nat) (w : Worker) (hw : t.running.get? i = some w)
    (h : Gate t) : Gate (workerAct t i w) := by
  obtain ⟨pre, post, repl, spawned, added, e⟩ := workerAct_effect t i w hw
  have hne : t.running ≠ [] := by rw [e.running_eq]; simp
  cases hdr : t.driver with
  | ready => simp [Gate, e.driver_new, hdr]
  | spin q => simp [Gate, e.driver_new, hdr]
  | unflag q => simp only [Gate, hdr] at h; exact absurd h hne
  | clear q => simp only [Gate, hdr] at h; exact absurd h hne
  | descend q => simp only [Gate, hdr] at h; exact absurd h hne

theorem gate_step (t : Trie_c) (k : Nat) (h : Pool t ∧ Gate t) :
    Pool (step t k) ∧ Gate (step t k) := by
  refine ⟨pool_step t k h.1, ?_⟩
  rcases step_cases t k with ⟨-, -, hs⟩ | ⟨-, hs⟩ | ⟨i, w, hw, hs⟩
  · rw [hs]; exact h.2
  · rw [hs]; exact gate_driverStep t h.1 h.2
  · rw [hs]; exact gate_workerAct t i w hw h.2

theorem gate_apply (t : Trie_c) (e : Event) (h : Pool t ∧ Gate t) :
    Pool (apply t e) ∧ Gate (apply t e) := by
  refine ⟨pool_apply t e h.1, ?_⟩
  cases e with
  | insert w =>
    simp only [apply]
    cases hdr : t.driver <;> simp [Gate, insertWord, hdr]
    all_goals simpa [Gate, hdr] using h.2
  | search p =>
    simp only [apply, findPrefixMatches]
    cases hdr : t.driver <;> simp [Gate, hdr]
    all_goals simpa [Gate, hdr] using h.2
  | request => exact h.2
  | tick k => exact (gate_step t k h).2

theorem gate_exec (num : Nat) (events : List Event) :
    Pool (exec num events) ∧ Gate (exec num events) :=
  exec_induction (fun t => Pool t ∧ Gate t) num ⟨pool_new num, by simp [Gate, new]⟩
    gate_apply events

/-- The callback log only grows. -/
theorem delivered_step_grows (t : Trie_c) (k : Nat) : t.delivered <+: (step t k).delivered := by
  rcases step_cases t k with ⟨-, -, hs⟩ | ⟨-, hs⟩ | ⟨i, w, hw, hs⟩
  · rw [hs]
  · rw [hs]
    cases hdr : t.driver with
    | ready => simp [driverStep, hdr]
    | spin q =>
      by_cases hlt : t._idleWorkers.length < t._numWorkers <;> simp [driverStep, hdr, hlt]
    | unflag q => simp [driverStep, hdr]
    | clear q => simp [driverStep, hdr]
    | descend q =>
      cases hd : descend t._root q with
      | none => simp [driverStep, hdr, hd]
      | some reached =>
        cases hi : t._idleWorkers <;> simp [driverStep, hdr, hd, reserveFreeWorker, hi]
  · obtain ⟨pre, post, repl, spawned, added, e⟩ := workerAct_effect t i w hw
    rw [hs, e.delivered_new]
    split
    · exact List.prefix_append _ _
    · exact List.prefix_refl _

theorem called_step (d : List (List Word)) (p : Word) (t : Trie_c) (k : Nat)
    (h : Pool t ∧ Called d p t) : Pool (step t k) ∧ Called d p (step t k) := by
  obtain ⟨hp, hc⟩ := h
  refine ⟨pool_step t k hp, ?_⟩
  have hsess : ∀ d0, d <+: d0 → Session d0 p t → Called d p (step t k) :=
    fun d0 hd hs => Or.inr ⟨d0, hd, (session_step d0 p t k ⟨hp, hs⟩).2⟩
  rcases hc with ⟨hspin, hd⟩ | ⟨d0, hd, hs⟩
  · by_cases hr : t.running = []
    · exact hsess t.delivered hd (by simp [Session, hspin, hr])
    · rcases step_cases t k with ⟨hr2, -, -⟩ | ⟨he, -⟩ | ⟨i, w, hw, hst⟩
      · exact absurd hr2 hr
      · exfalso
        have hpool := hp.2
        have hpos : 0 < t.running.length := List.length_pos.2 hr
        simp [driverEnabled, hspin] at he
        omega
      · obtain ⟨pre, post, repl, spawned, added, e⟩ := workerAct_effect t i w hw
        left
        refine ⟨by rw [hst, e.driver_new, hspin], hd.trans (delivered_step_grows t k)⟩
  · exact hsess d0 hd hs

theorem called_run (d : List (List Word)) (p : Word) (sched : List Nat) (t : Trie_c)
    (h : Pool t ∧ Called d p t) : Pool (run sched t) ∧ Called d p (run sched t) :=
  run_induction (fun s => Pool s ∧ Called d p s) (called_step d p) sched t h

/-- A search called in any state where the driving thread is free: once the schedule is as
long as the fuel, nothing is in flight, the callback has been called after the call,
the last time with the results, and these are a rearrangement of the target. -/
theorem called_outcome (t : Trie_c) (hp : Pool t) (hready : t.driver = Driver.ready)
    (p : Word) (sched : List Nat) (hlen : fuel (findPrefixMatches p t) ≤ sched.length) :
    Quiet (run sched (findPrefixMatches p t)) ∧
    ∃ extra, (run sched (findPrefixMatches p t)).delivered =
        t.delivered ++ extra ++ [(run sched (findPrefixMatches p t))._results] ∧
      (run sched (findPrefixMatches p t))._results.Perm (target t._root p) := by
  have hp2 := pool_findPrefixMatches p t hp
  have hdel : (findPrefixMatches p t).delivered = t.delivered := by
    simp [findPrefixMatches, hready]
  have hinit : Called t.delivered p (findPrefixMatches p t) :=
    Or.inl ⟨findPrefixMatches_driver p t hready, by rw [hdel]⟩
  obtain ⟨-, hc⟩ := called_run t.delivered p sched _ ⟨hp2, hinit⟩
  have hquiet := quiet_of_fuel_le sched _ hp2 hlen
  refine ⟨hquiet, ?_⟩
  rcases hc with ⟨hspin, -⟩ | ⟨d0, ⟨extra, hd0⟩, hs⟩
  · rw [hquiet.1] at hspin; cases hspin
  · obtain ⟨hd, hperm⟩ := session_quiet d0 p _ hs hquiet
    rw [(run_frame sched _).1, findPrefixMatches_root] at hperm
    exact ⟨extra, by rw [hd, hd0], hperm⟩

end Trie_c

namespace Trie_c

theorem root_apply (t : Trie_c) (e : Event) (h : e.isInsert = false) :
    (apply t e)._root = t._root := by
  cases e with
  | insert w => simp [Event.isInsert] at h
  | search p => exact findPrefixMatches_root p t
  | request => rfl
  | tick k => exact (step_frame t k).1

theorem root_foldl_apply (events : List Event) : ∀ t : Trie_c,
    (∀ e ∈ events, e.isInsert = false) → (events.foldl apply t)._root = t._root := by
  induction events with
  | nil => intro t _; rfl
  | cons e es ih =>
    intro t h
    rw [List.foldl_cons, ih _ (fun x hx => h x (List.mem_cons_of_mem _ hx)),
      root_apply t e (h e (List.mem_cons_self _ _))]

theorem quiet_apply (t : Trie_c) (e : Event) (hq : Quiet t) (h : e.isSearch = false) :
    Quiet (apply t e) ∧ (apply t e)._results = t._results ∧
      (apply t e).delivered = t.delivered := by
  cases e with
  | insert w => simp [apply, hq.1, insertWord, Quiet, hq.2]
  | search p => simp [Event.isSearch] at h
  | request => exact ⟨hq, rfl, rfl⟩
  | tick k => simp only [apply, quiet_step t k hq, and_self, and_true]; exact hq

theorem quiet_foldl_apply (events : List Event) : ∀ t : Trie_c, Quiet t →
    (∀ e ∈ events, e.isSearch = false) →
    Quiet (events.foldl apply t) ∧ (events.foldl apply t)._results = t._results ∧
      (events.foldl apply t).delivered = t.delivered := by
  induction events with
  | nil => intro t hq _; exact ⟨hq, rfl, rfl⟩
  | cons e es ih =>
    intro t hq h
    obtain ⟨h1, h2, h3⟩ := quiet_apply t e hq (h e (List.mem_cons_self _ _))
    obtain ⟨g1, g2, g3⟩ := ih _ h1 (fun x hx => h x (List.mem_cons_of_mem _ hx))
    rw [List.foldl_cons]
    exact ⟨g1, g2.trans h2, g3.trans h3⟩

/-- C11: in every state reachable from the constructor by calls of `insertWord`,
`findPrefixMatches`, `requestResult` and transitions of the threads (reserve, traverse,
release), the length of the idle list plus the number of tasks that were reserved and
have not released themselves is `_numWorkers`, which is the requested number or one;
so the idle list is never longer than `_numWorkers` and has exactly that length
whenever no task is running, in particular after every completed session. -/
theorem idle_plus_running_is_worker_count (num : Nat) (events : List Event) :
    (exec num events)._idleWorkers.length + (exec num events).running.length =
      (exec num events)._numWorkers ∧
    (exec num events)._numWorkers = max num 1 ∧
    (exec num events)._idleWorkers.length ≤ (exec num events)._numWorkers ∧
    ((exec num events).running = [] →
      (exec num events)._idleWorkers.length = (exec num events)._numWorkers) := by
  have h := (pool_exec num events).2
  refine ⟨h, numWorkers_exec num events, by omega, fun hr => ?_⟩
  rw [hr] at h
  simpa using h

/-- With a loop of `stopAllWorkers` that holds the driving thread until all ids are idle (the
transitions of `driverStep`): in every reachable state in which the driving thread
stands before the descent, the
idle list is not empty, so after a successful descent `reserveFreeWorker` succeeds and
the session starts with that worker on the node reached; and every call of
`findPrefixMatches` issued in a reachable state leads to a call of the callback: once the
schedule is as long as the fuel the log has grown, its last entry being the results. -/
theorem session_start_reserve_succeeds (num : Nat) (events : List Event) (p : Word)
    (sched : List Nat) :
    (∀ q, (exec num events).driver = Driver.descend q →
      ∃ index rest, reserveFreeWorker (exec num events)._idleWorkers = some (index, rest) ∧
        ∀ reached, descend (exec num events)._root q = some reached →
          (driverStep (exec num events)).running = [⟨index, [Frame.visit reached q]⟩] ∧
          (driverStep (exec num events))._idleWorkers = rest) ∧
    ((exec num events).driver = Driver.ready →
      fuel (findPrefixMatches p (exec num events)) ≤ sched.length →
      ∃ extra, (run sched (findPrefixMatches p (exec num events))).delivered =
        (exec num events).delivered ++ extra ++
          [(run sched (findPrefixMatches p (exec num events)))._results]) := by
  obtain ⟨hp, hg⟩ := gate_exec num events
  constructor
  · intro q hq
    simp only [Gate, hq] at hg
    have h := hp.2
    rw [hg] at h
    cases hi : (exec num events)._idleWorkers with
    | nil =>
      have h0 := hp.1
      simp [hi] at h
      omega
    | cons index rest =>
      refine ⟨index, rest, rfl, fun reached hd => ?_⟩
      simp [driverStep, hq, hd, reserveFreeWorker, hi, hg]
  · intro hready hlen
    obtain ⟨-, extra, hd, -⟩ := called_outcome _ hp hready p sched hlen
    exact ⟨extra, hd⟩

/-- C13: for every requested worker number `num` the constructed object has
`_numWorkers = max num 1` (one worker for `num = 0`), its idle list is `0, 1, ...,
_numWorkers - 1`, each id once, its results and callback log are empty, the cancel flag
is false, no task runs, and its root has no children and is not a leaf. -/
theorem constructor_state (num : Nat) :
    (new num)._numWorkers = max num 1 ∧ (new 0)._numWorkers = 1 ∧
    (new num)._idleWorkers = List.range (max num 1) ∧
    (new num)._idleWorkers.Nodup ∧
    (∀ i, i ∈ (new num)._idleWorkers ↔ i < max num 1) ∧
    (new num)._results = [] ∧ (new num)._stopAllWorkers = false ∧
    (new num).running = [] ∧ (new num).delivered = [] ∧
    (new num)._root._children = [] ∧ (new num)._root._isLeaf = false := by
  have hn := numWorkers_new num
  have hidle : (new num)._idleWorkers = List.range (max num 1) := by
    rw [← hn]; rfl
  refine ⟨hn, rfl, hidle, ?_, ?_, rfl, rfl, rfl, rfl, rfl, rfl⟩
  · rw [hidle]; exact List.nodup_range _
  · intro i; rw [hidle]; exact List.mem_range

/-- C14: `findPrefixMatches` never modifies the trie: for every state and every prefix, present
or absent, the call, every single transition and every schedule of transitions leave the
root as it was, and so do all events other than `insertWord`; a later lookup, search or
insertion sees the same trie. -/
theorem search_leaves_trie_unchanged (t : Trie_c) (p : Word) (sched : List Nat) (k : Nat)
    (events : List Event) :
    (findPrefixMatches p t)._root = t._root ∧ (step t k)._root = t._root ∧
    (driverStep t)._root = t._root ∧
    (run sched (findPrefixMatches p t))._root = t._root ∧
    (∀ w, contains (run sched (findPrefixMatches p t))._root w = contains t._root w) ∧
    (∀ q, target (run sched (findPrefixMatches p t))._root q = target t._root q) ∧
    (∀ w, (insertWord (run sched (findPrefixMatches p t)) w)._root = (insertWord t w)._root) ∧
    ((∀ e ∈ events, e.isInsert = false) → (events.foldl apply t)._root = t._root) := by
  have h : (run sched (findPrefixMatches p t))._root = t._root := by
    rw [(run_frame sched _).1, findPrefixMatches_root]
  refine ⟨findPrefixMatches_root p t, (step_frame t k).1, (driverStep_frame t).1, h, ?_, ?_, ?_,
    root_foldl_apply events t⟩
  · intro w; rw [h]
  · intro q; rw [h]
  · intro w; simp [insertWord, h]

/-- C15: `requestResult` returns the current results and leaves the state as it is; called
after a session has run to completion, and after any further events that are not a call
of `findPrefixMatches`, it returns exactly the sequence the callback was last called
with. -/
theorem requestResult_returns_delivered (t : Trie_c) (num : Nat) (events : List Event)
    (p : Word) (sched : List Nat) (later : List Event) :
    (requestResult t).1 = t._results ∧ (requestResult t).2 = t ∧
    ((exec num events).driver = Driver.ready →
      fuel (findPrefixMatches p (exec num events)) ≤ sched.length →
      (∀ e ∈ later, e.isSearch = false) →
      ∃ d r, (run sched (findPrefixMatches p (exec num events))).delivered = d ++ [r] ∧
        (requestResult (run sched (findPrefixMatches p (exec num events)))).1 = r ∧
        (later.foldl apply (run sched (findPrefixMatches p (exec num events)))).delivered
          = d ++ [r] ∧
        (requestResult
          (later.foldl apply (run sched (findPrefixMatches p (exec num events))))).1 = r) := by
  refine ⟨rfl, rfl, fun hready hlen hlater => ?_⟩
  obtain ⟨hq, extra, hd, -⟩ := called_outcome _ (pool_exec num events) hready p sched hlen
  obtain ⟨-, h2, h3⟩ := quiet_foldl_apply later _ hq hlater
  exact ⟨_, _, hd, rfl, h3.trans hd, by simp [requestResult, h2]⟩

end Trie_c

/-! ## `timer.hpp` -/

namespace tool_n

theorem tdiv_eq_ite (x k : Int) (hk : 0 ≤ k) :
    x.tdiv k = if 0 ≤ x then x / k else -((-x) / k) := by
  split
  · next h => exact Int.tdiv_eq_ediv h hk
  · next h =>
    have h2 : 0 ≤ -x := by omega
    have := Int.tdiv_eq_ediv (a := -x) (b := k) h2 hk
    rw [Int.neg_tdiv] at this
    omega

namespace PreciseTime

/-- C16: for every stored time whose nanoseconds are at most 999999999 in size and whose
seconds are at most 3599 in size, `getSeperatedTimeComponents` returns the six values of
the `get` functions, each sub-second and minute-second component lies in its range, and
the components recompose exactly to the stored time; for 2h 3m 44s 40ms 66us 12ns they are
12, 66, 40, 44, 3 and 2. -/
theorem separated_components_recompose (pt : PreciseTime)
    (hns : -999999999 ≤ pt.nano_seconds ∧ pt.nano_seconds ≤ 999999999)
    (hs : -3599 ≤ pt.seconds ∧ pt.seconds ≤ 3599) :
    sample.getSeperatedTimeComponents = [12, 66, 40, 44, 3, 2] ∧
    pt.getSeperatedTimeComponents =
      [pt.get_nanoseconds, pt.get_microseconds, pt.get_milliseconds, pt.get_seconds,
        pt.get_minutes, pt.get_hours] ∧
    pt.get_hours * 3600 * 1000000000 +
        (pt.get_minutes * 60 + pt.get_seconds) * 1000000000 +
        pt.get_milliseconds * 1000000 + pt.get_microseconds * 1000 + pt.get_nanoseconds =
      pt.hours * 3600 * 1000000000 + pt.seconds * 1000000000 + pt.nano_seconds ∧
    (-999 ≤ pt.get_nanoseconds ∧ pt.get_nanoseconds ≤ 999) ∧
    (-999 ≤ pt.get_microseconds ∧ pt.get_microseconds ≤ 999) ∧
    (-999 ≤ pt.get_milliseconds ∧ pt.get_milliseconds ≤ 999) ∧
    (-59 ≤ pt.get_seconds ∧ pt.get_seconds ≤ 59) ∧
    (-59 ≤ pt.get_minutes ∧ pt.get_minutes ≤ 59) := by
  refine ⟨by decide, rfl, ?_, ?_, ?_, ?_, ?_, ?_⟩ <;>
    simp only [get_hours, get_minutes, get_seconds, get_milliseconds, get_microseconds,
      get_nanoseconds, tdiv_eq_ite _ _ (by norm_num : (0 : Int) ≤ 60),
      tdiv_eq_ite _ _ (by norm_num : (0 : Int) ≤ 1000),
      tdiv_eq_ite _ _ (by norm_num : (0 : Int) ≤ 1000000)] <;>
    split_ifs <;> omega

/-- Witness for C16 at a time with negative members: -1s -500ms -1us -500ns. -/
theorem separated_components_recompose_witness :
    (-999999999 ≤ sampleNegative.nano_seconds ∧ sampleNegative.nano_seconds ≤ 999999999) ∧
    (-3599 ≤ sampleNegative.seconds ∧ sampleNegative.seconds ≤ 3599) ∧
    sampleNegative.getSeperatedTimeComponents = [-500, -1, -500, -1, 0, 0] ∧
    sampleNegative.get_hours * 3600 * 1000000000 +
        (sampleNegative.get_minutes * 60 + sampleNegative.get_seconds) * 1000000000 +
        sampleNegative.get_milliseconds * 1000000 + sampleNegative.get_microseconds * 1000 +
        sampleNegative.get_nanoseconds =
      sampleNegative.hours * 3600 * 1000000000 + sampleNegative.seconds * 1000000000 +
        sampleNegative.nano_seconds :=
  ⟨by decide, by decide, by decide,
    (separated_components_recompose sampleNegative (by decide) (by decide)).2.2.1⟩

/-- C17, the code at the documented example: for 2h 3m 44s 40ms 66us 12ns
`convert<std::chrono::minutes>()` adds the hours in minutes to the seconds before dividing
by sixty and returns 5, where its comment promises 60 * 2 + 3 = 123. -/
theorem convert_minutes_sample :
    sample.convert_minutes = 5 ∧ sample.documented_minutes = 123 ∧
    sample.convert_minutes ≠ sample.documented_minutes := by
  decide

end PreciseTime

end tool_n

/-! ## Transitions of a worker frame by frame -/

namespace Trie_c

theorem workerAct_release (t : Trie_c) (i : Nat) (w : Worker) (h : w.stack = []) :
    workerAct t i w =
      { t with _idleWorkers := t._idleWorkers ++ [w.workerId]
               running := t.running.eraseIdx i
               delivered :=
                 if (t._idleWorkers ++ [w.workerId]).length = t._numWorkers
                 then t.delivered ++ [t._results] else t.delivered } := by
  simp only [workerAct, h]

theorem workerAct_visit (t : Trie_c) (i : Nat) (w : Worker) (node : TrieNode_t) (word : Word)
    (below : List Frame) (h : w.stack = Frame.visit node word :: below) :
    workerAct t i w =
      { t with _results := if node._isLeaf then t._results ++ [word] else t._results
               running := t.running.set i ⟨w.workerId,
                 match node._children with
                 | [] => below
                 | [(letter, child)] => Frame.visit child (word ++ [letter]) :: below
                 | cs => Frame.loop cs word :: below⟩ } := by
  simp only [workerAct, h]

theorem workerAct_loop_nil (t : Trie_c) (i : Nat) (w : Worker) (word : Word)
    (below : List Frame) (h : w.stack = Frame.loop [] word :: below) :
    workerAct t i w = { t with running := t.running.set i ⟨w.workerId, below⟩ } := by
  simp only [workerAct, h]

theorem workerAct_loop_cancelled (t : Trie_c) (i : Nat) (w : Worker) (c : Char)
    (n : TrieNode_t) (rest : List (Char × TrieNode_t)) (word : Word) (below : List Frame)
    (h : w.stack = Frame.loop ((c, n) :: rest) word :: below)
    (hflag : t._stopAllWorkers = true) :
    workerAct t i w = { t with running := t.running.set i ⟨w.workerId, below⟩ } := by
  simp only [workerAct, h, hflag, if_true]

theorem workerAct_loop_go (t : Trie_c) (i : Nat) (w : Worker) (c : Char)
    (n : TrieNode_t) (rest : List (Char × TrieNode_t)) (word : Word) (below : List Frame)
    (h : w.stack = Frame.loop ((c, n) :: rest) word :: below)
    (hflag : t._stopAllWorkers = false) :
    workerAct t i w =
      { t with running :=
          t.running.set i ⟨w.workerId, Frame.reserve c n rest word :: below⟩ } := by
  simp [workerAct, h, hflag]

theorem noReserve_cons (f : Frame) (below : List Frame) :
    NoReserve (f :: below) ↔ f.isReserve = false ∧ NoReserve below := by
  simp [NoReserve]

/-- One transition inside `traverse` while the flag is set, from a stack without a frame
before `reserveFreeWorker`: only the results and the stack of the worker change. -/
theorem workerAct_cancelled (t : Trie_c) (i : Nat) (w : Worker) (f : Frame)
    (below : List Frame) (h : w.stack = f :: below) (hflag : t._stopAllWorkers = true)
    (hnr : NoReserve (f :: below)) :
    ∃ st added,
      workerAct t i w =
        { t with _results := t._results ++ added
                 running := t.running.set i ⟨w.workerId, st⟩ } ∧
      NoReserve st ∧ added ++ cancelledStack st = cancelledStack (f :: below) ∧
      costStack st < costStack (f :: below) := by
  obtain ⟨hf, hb⟩ := (noReserve_cons f below).1 hnr
  cases f with
  | visit node word =>
    obtain ⟨l, cs⟩ := node
    rw [workerAct_visit t i w _ word below h]
    have hadd : (if l = true then t._results ++ [word] else t._results) =
        t._results ++ (if l = true then [word] else []) := by cases l <;> simp
    match cs with
    | [] =>
      exact ⟨below, if l then [word] else [], by simp [_isLeaf, _children, hadd], hb,
        by simp [cancelledStack, cancelledWords, cancelledWordsC],
        by simp [costStack, Frame.cost, cost, costC]⟩
    | [(c, child)] =>
      refine ⟨Frame.visit child (word ++ [c]) :: below, if l then [word] else [],
        by simp [_isLeaf, _children, hadd], ?_,
        by simp [cancelledStack, cancelledWords, cancelledWordsC], ?_⟩
      · exact (noReserve_cons _ _).2 ⟨rfl, hb⟩
      · simp only [costStack, Frame.cost, cost, costC]; omega
    | x :: y :: rest =>
      refine ⟨Frame.loop (x :: y :: rest) word :: below, if l then [word] else [],
        by simp [_isLeaf, _children, hadd], ?_,
        by simp [cancelledStack, cancelledWords, cancelledWordsC], ?_⟩
      · exact (noReserve_cons _ _).2 ⟨rfl, hb⟩
      · simp only [costStack, Frame.cost, cost]; omega
  | loop rest word =>
    match rest with
    | [] =>
      rw [workerAct_loop_nil t i w word below h]
      exact ⟨below, [], by simp, hb, by simp [cancelledStack],
        by simp [costStack, Frame.cost, costC]⟩
    | (c, n) :: rest =>
      rw [workerAct_loop_cancelled t i w c n rest word below h hflag]
      exact ⟨below, [], by simp, hb, by simp [cancelledStack],
        by simp only [costStack, Frame.cost, costC]; omega⟩
  | reserve c n rest word => simp [Frame.isReserve] at hf

theorem get?_set_self (ws : List Worker) (i : Nat) (w x : Worker) (h : ws.get? i = some w) :
    (ws.set i x).get? i = some x ∧ (ws.set i x).length = ws.length ∧ ws.set i w = ws := by
  obtain ⟨pre, post, h1, h2, -⟩ := running_split ws i w h
  have hlen : i < ws.length := by
    by_contra hc
    have : ws.get? i = none := List.get?_eq_none.2 (by omega)
    rw [this] at h; cases h
  refine ⟨?_, by simp, ?_⟩
  · rw [List.get?_eq_get (by simpa using hlen)]
    simp
  · rw [h2 w, ← h1]

end Trie_c

mutual
/-- What a cancelled traversal appends is part of the listing, in the same order. -/
theorem cancelledWords_sublist (t : TrieNode_t) (word : Word) :
    (cancelledWords t word).Sublist (preorder t word) := by
  match t with
  | TrieNode_t.mk l cs =>
    simp only [cancelledWords, preorder]
    exact List.Sublist.append (List.Sublist.refl _) (cancelledWordsC_sublist cs word)
theorem cancelledWordsC_sublist (cs : List (Char × TrieNode_t)) (word : Word) :
    (cancelledWordsC cs word).Sublist (preorderC cs word) := by
  match cs with
  | [] => simp [cancelledWordsC]
  | [(c, n)] =>
    simp only [cancelledWordsC, preorderC, List.append_nil]
    exact cancelledWords_sublist n (word ++ [c])
  | _ :: _ :: _ => simp [cancelledWordsC]
end

theorem cancelledStack_sublist (stack : List Frame) :
    (cancelledStack stack).Sublist (pendingStack stack) := by
  induction stack with
  | nil => simp [cancelledStack]
  | cons f below ih =>
    cases f with
    | visit node word =>
      simp only [cancelledStack, pendingStack, Frame.pending]
      exact List.Sublist.append (cancelledWords_sublist node word) ih
    | loop rest word =>
      simp only [cancelledStack, pendingStack]
      exact ih.trans (List.sublist_append_right _ _)
    | reserve c n rest word =>
      simp only [cancelledStack, pendingStack]
      exact ih.trans (List.sublist_append_right _ _)

namespace Trie_c

/-- The rest of `traverse` of one worker while the flag is set: only the results and the
stack of the worker change; what is appended and what the remaining stack would still
append under cancellation make up what the stack at the start would append; and after
as many transitions as the cost of the stack `traverse` has returned. -/
theorem traverseSteps_cancelled (i : Nat) : ∀ (n : Nat) (t : Trie_c) (w : Worker),
    t._stopAllWorkers = true → t.running.get? i = some w → NoReserve w.stack →
    ∃ st added,
      traverseSteps i n t =
        { t with _results := t._results ++ added
                 running := t.running.set i ⟨w.workerId, st⟩ } ∧
      NoReserve st ∧ added ++ cancelledStack st = cancelledStack w.stack ∧
      (st = [] ∨ costStack st + n ≤ costStack w.stack) := by
  intro n
  induction n with
  | zero =>
    intro t w _ hw hnr
    refine ⟨w.stack, [], ?_, hnr, by simp, Or.inr (by simp)⟩
    obtain ⟨id, stack⟩ := w
    simp only [traverseSteps, List.append_nil]
    rw [(get?_set_self t.running i _ ⟨id, stack⟩ hw).2.2]
  | succ n ih =>
    intro t w hflag hw hnr
    simp only [traverseSteps, hw]
    cases hs : w.stack with
    | nil =>
      refine ⟨[], [], ?_, by simp [NoReserve], by simp, Or.inl rfl⟩
      obtain ⟨id, stack⟩ := w
      simp only at hs
      subst hs
      simp only [List.isEmpty_nil, if_true, List.append_nil]
      rw [(get?_set_self t.running i _ ⟨id, []⟩ hw).2.2]
    | cons f below =>
      rw [hs] at hnr
      obtain ⟨st1, added1, h1, hnr1, hc1, hcost1⟩ :=
        workerAct_cancelled t i w f below hs hflag hnr
      have hw1 : (workerAct t i w).running.get? i = some ⟨w.workerId, st1⟩ := by
        rw [h1]; exact (get?_set_self t.running i w _ hw).1
      have hflag1 : (workerAct t i w)._stopAllWorkers = true := by rw [h1]; exact hflag
      obtain ⟨st2, added2, h2, hnr2, hc2, hcost2⟩ := ih _ _ hflag1 hw1 hnr1
      refine ⟨st2, added1 ++ added2, ?_, hnr2, ?_, ?_⟩
      · simp only [List.isEmpty_cons, Bool.false_eq_true, if_false]
        rw [h2, h1]
        simp [List.set_set]
      · rw [List.append_assoc, hc2, hc1]
      · rcases hcost2 with h | h
        · exact Or.inl h
        · right
          simp only at h
          omega

end Trie_c

namespace Trie_c

/-- A transition from a frame that is not the one before `reserveFreeWorker` touches neither
the idle list nor the set of tasks: only the stack of the worker (and the results). -/
theorem workerAct_plain (t : Trie_c) (i : Nat) (w : Worker) (f : Frame) (below : List Frame)
    (h : w.stack = f :: below) (hf : f.isReserve = false) :
    (workerAct t i w)._idleWorkers = t._idleWorkers ∧
    (workerAct t i w)._stopAllWorkers = t._stopAllWorkers ∧
    ∃ st, (workerAct t i w).running = t.running.set i ⟨w.workerId, st⟩ := by
  cases f with
  | visit node word =>
    rw [workerAct_visit t i w node word below h]
    exact ⟨rfl, rfl, _, rfl⟩
  | loop rest word =>
    match rest with
    | [] =>
      rw [workerAct_loop_nil t i w word below h]
      exact ⟨rfl, rfl, _, rfl⟩
    | (c, n) :: rest =>
      cases hflag : t._stopAllWorkers with
      | true =>
        rw [workerAct_loop_cancelled t i w c n rest word below h hflag]
        exact ⟨rfl, hflag, _, rfl⟩
      | false =>
        rw [workerAct_loop_go t i w c n rest word below h hflag]
        exact ⟨rfl, hflag, _, rfl⟩
  | reserve c n rest word => simp [Frame.isReserve] at hf

theorem chain_driverStep (idle0 : List Nat) (p : Word) (t : Trie_c)
    (hchain : ∀ node, descend t._root p = some node → Chain node)
    (h : ChainSession idle0 p t) : ChainSession idle0 p (driverStep t) := by
  cases hdr : t.driver with
  | ready => simpa [driverStep, hdr] using h
  | spin q =>
    by_cases hlt : t._idleWorkers.length < t._numWorkers
    · simpa [driverStep, hdr, hlt] using h
    · simp only [ChainSession, hdr] at h
      simpa [driverStep, hdr, hlt, ChainSession] using h
  | unflag q =>
    simp only [ChainSession, hdr] at h
    simpa [driverStep, hdr, ChainSession] using h
  | clear q =>
    simp only [ChainSession, hdr] at h
    simpa [driverStep, hdr, ChainSession] using h
  | descend q =>
    simp only [ChainSession, hdr] at h
    obtain ⟨rfl, hr, hi⟩ := h
    cases hd : descend t._root q with
    | none => simp [driverStep, hdr, hd, ChainSession, hr]
    | some reached =>
      cases hidle : t._idleWorkers with
      | nil => simp [driverStep, hdr, hd, reserveFreeWorker, hidle, ChainSession, hr]
      | cons j rest =>
        simp only [driverStep, hdr, hd, reserveFreeWorker, hidle, ChainSession, hr,
          List.nil_append]
        right
        exact ⟨_, rfl, by rw [← hi, hidle], Or.inr ⟨reached, q, rfl, hchain reached hd⟩⟩

theorem chain_workerAct (idle0 : List Nat) (p : Word) (t : Trie_c) (i : Nat) (w : Worker)
    (hw : t.running.get? i = some w) (h : ChainSession idle0 p t) :
    ChainSession idle0 p (workerAct t i w) := by
  have hne : t.running ≠ [] := by
    intro hnil
    rw [hnil] at hw
    simp at hw
  cases hdr : t.driver with
  | spin q => simp only [ChainSession, hdr] at h; exact absurd h.2.1 hne
  | unflag q => simp only [ChainSession, hdr] at h; exact absurd h.2.1 hne
  | clear q => simp only [ChainSession, hdr] at h; exact absurd h.2.1 hne
  | descend q => simp only [ChainSession, hdr] at h; exact absurd h.2.1 hne
  | ready =>
    simp only [ChainSession, hdr] at h
    rcases h with h | ⟨w0, hr, hi, hst⟩
    · exact absurd h hne
    · have hi0 : i = 0 ∧ w = w0 := by
        rw [hr] at hw
        cases i with
        | zero => simpa using hw.symm
        | succ j => simp at hw
      obtain ⟨rfl, rfl⟩ := hi0
      rcases hst with hs | ⟨node, word, hs, hc⟩
      · rw [workerAct_release t 0 w hs]
        simp [ChainSession, hdr, hr]
      · obtain ⟨l, cs⟩ := node
        rw [workerAct_visit t 0 w _ word [] hs]
        simp only [Chain] at hc
        match cs, hc with
        | [], _ =>
          simp only [ChainSession, hdr, hr, _children, List.set_cons_zero]
          exact Or.inr ⟨_, rfl, hi, Or.inl rfl⟩
        | [(c, child)], hc =>
          simp only [ChainSession, hdr, hr, _children, List.set_cons_zero]
          simp only [ChainC] at hc
          exact Or.inr ⟨_, rfl, hi, Or.inr ⟨child, word ++ [c], rfl, hc.2.1⟩⟩
        | _ :: _ :: _, hc =>
          have := hc.1
          simp at this

theorem chain_step (idle0 : List Nat) (p : Word) (t : Trie_c) (k : Nat)
    (h : (∀ node, descend t._root p = some node → Chain node) ∧ ChainSession idle0 p t) :
    (∀ node, descend (step t k)._root p = some node → Chain node) ∧
      ChainSession idle0 p (step t k) := by
  refine ⟨by rw [(step_frame t k).1]; exact h.1, ?_⟩
  rcases step_cases t k with ⟨-, -, hs⟩ | ⟨-, hs⟩ | ⟨i, w, hw, hs⟩
  · rw [hs]; exact h.2
  · rw [hs]; exact chain_driverStep idle0 p t h.1 h.2
  · rw [hs]; exact chain_workerAct idle0 p t i w hw h.2

theorem chain_run (idle0 : List Nat) (p : Word) (sched : List Nat) (t : Trie_c)
    (h : (∀ node, descend t._root p = some node → Chain node) ∧ ChainSession idle0 p t) :
    ChainSession idle0 p (run sched t) :=
  (run_induction
    (fun s => (∀ node, descend s._root p = some node → Chain node) ∧ ChainSession idle0 p s)
    (chain_step idle0 p) sched t h).2

end Trie_c

namespace Trie_c

theorem eraseIdx_set (ws : List Worker) (x : Worker) : ∀ i : Nat,
    (ws.set i x).eraseIdx i = ws.eraseIdx i := by
  induction ws with
  | nil => intro i; simp
  | cons a ws ih =>
    intro i
    cases i with
    | zero => simp
    | succ j => simp [ih j]

theorem costStack_pos (f : Frame) (below : List Frame) : 0 < costStack (f :: below) := by
  cases f with
  | visit node word =>
    obtain ⟨l, cs⟩ := node
    simp only [costStack, Frame.cost, cost]; omega
  | loop rest word =>
    cases rest with
    | nil => simp only [costStack, Frame.cost, costC]; omega
    | cons x rest => obtain ⟨c, n⟩ := x; simp only [costStack, Frame.cost, costC]; omega
  | reserve c n rest word => simp only [costStack, Frame.cost]; omega

/-- The whole rest of `traverse` of one worker while the flag is set, once the number of
transitions reaches the cost of its stack. -/
theorem traverseSteps_cancelled_done (i n : Nat) (t : Trie_c) (w : Worker)
    (hflag : t._stopAllWorkers = true) (hw : t.running.get? i = some w)
    (hnr : NoReserve w.stack) (hn : costStack w.stack ≤ n) :
    traverseSteps i n t =
      { t with _results := t._results ++ cancelledStack w.stack
               running := t.running.set i ⟨w.workerId, []⟩ } := by
  obtain ⟨st, added, h1, -, h3, h4⟩ := traverseSteps_cancelled i n t w hflag hw hnr
  have hst : st = [] := by
    rcases h4 with h | h
    · exact h
    · cases st with
      | nil => rfl
      | cons f below =>
        have := costStack_pos f below
        omega
  subst hst
  simp only [cancelledStack, List.append_nil] at h3
  rw [h1, h3]

end Trie_c

/-! ## The claims on cancellation and on unbranching subtrees -/

namespace Trie_c

set_option maxRecDepth 100000 in
/-- C18 fails on the code: in the scenario on one worker, the worker that was given the
whole trie (four words pending, none appended yet) stands at the branch point of the
root when a new search sets the flag; two transitions later it has left the loop and
released itself, with no word appended and the empty sequence delivered. -/
theorem cancelled_worker_drops_children :
    exampleRunning.running.length = 1 ∧
    pendingAll exampleRunning.running =
      [['d', 'o', 'g'], ['c', 'a', 'r'], ['c', 'a', 'r', 't'], ['c', 'a', 't']] ∧
    exampleRunning._results = [] ∧
    exampleCancelled._stopAllWorkers = true ∧
    (run [0, 0] exampleCancelled).running.length = 0 ∧
    (run [0, 0] exampleCancelled)._idleWorkers = [0] ∧
    (run [0, 0] exampleCancelled)._results = [] ∧
    (run [0, 0] exampleCancelled).delivered = [[]] ∧
    ¬ (∀ word ∈ pendingAll exampleRunning.running,
        word ∈ (run [0, 0] exampleCancelled)._results) := by
  decide

/-- C19: the flag is read at the head of the loop for every child: whatever children are left,
a worker there leaves the loop when the flag is set and goes on to `reserveFreeWorker`
when it is not.  And while the flag is set, a transition inside `traverse` from a stack
with no frame before `reserveFreeWorker` leaves the idle list and the number of tasks as
they are and leads to such a stack again; so does the whole rest of `traverse`, which
has returned after as many transitions as the cost of the stack. -/
theorem cancelled_traverse_reserves_nothing (t : Trie_c) (i : Nat) (w : Worker)
    (hw : t.running.get? i = some w) (hflag : t._stopAllWorkers = true)
    (hnr : NoReserve w.stack) (n : Nat) :
    (∀ (s : Trie_c) (j : Nat) (v : Worker) c nd rest word below,
      v.stack = Frame.loop ((c, nd) :: rest) word :: below →
      (s._stopAllWorkers = true →
        workerAct s j v = { s with running := s.running.set j ⟨v.workerId, below⟩ }) ∧
      (s._stopAllWorkers = false →
        workerAct s j v =
          { s with
            running := s.running.set j ⟨v.workerId, Frame.reserve c nd rest word :: below⟩ })) ∧
    (w.stack ≠ [] →
      (workerAct t i w)._idleWorkers = t._idleWorkers ∧
      (workerAct t i w).running.length = t.running.length ∧
      ∃ st, (workerAct t i w).running = t.running.set i ⟨w.workerId, st⟩ ∧ NoReserve st) ∧
    (traverseSteps i n t)._idleWorkers = t._idleWorkers ∧
    (traverseSteps i n t).running.length = t.running.length ∧
    (traverseSteps i n t)._stopAllWorkers = true ∧
    ∃ st, (traverseSteps i n t).running = t.running.set i ⟨w.workerId, st⟩ ∧ NoReserve st ∧
      (costStack w.stack ≤ n → st = []) := by
  refine ⟨fun s j v c nd rest word below h =>
      ⟨workerAct_loop_cancelled s j v c nd rest word below h,
        workerAct_loop_go s j v c nd rest word below h⟩, ?_, ?_⟩
  · intro hne
    cases hs : w.stack with
    | nil => exact absurd hs hne
    | cons f below =>
      rw [hs] at hnr
      obtain ⟨st, added, h1, hnr1, -, -⟩ := workerAct_cancelled t i w f below hs hflag hnr
      rw [h1]
      exact ⟨rfl, by simp, st, rfl, hnr1⟩
  · obtain ⟨st, added, h1, hnr1, -, h4⟩ := traverseSteps_cancelled i n t w hflag hw hnr
    rw [h1]
    refine ⟨rfl, by simp, hflag, st, rfl, hnr1, fun hn => ?_⟩
    rcases h4 with h | h
    · exact h
    · cases st with
      | nil => rfl
      | cons f below =>
        have := costStack_pos f below
        omega

set_option maxRecDepth 100000 in
/-- Witness for C19 at the cancelled scenario. -/
theorem cancelled_traverse_reserves_nothing_witness :
    exampleCancelled.running.get? 0 = some exampleWorker ∧
    exampleCancelled._stopAllWorkers = true ∧
    (traverseSteps 0 49 exampleCancelled)._idleWorkers = exampleCancelled._idleWorkers ∧
    (traverseSteps 0 49 exampleCancelled).running.length = 1 ∧
    exampleCancelled._idleWorkers = [] :=
  ⟨rfl, rfl,
    (cancelled_traverse_reserves_nothing exampleCancelled 0 exampleWorker rfl rfl
      (by simp [NoReserve, exampleWorker, Frame.isReserve]) 49).2.2.1,
    (cancelled_traverse_reserves_nothing exampleCancelled 0 exampleWorker rfl rfl
      (by simp [NoReserve, exampleWorker, Frame.isReserve]) 49).2.2.2.1,
    rfl⟩

/-- C20: a worker that enters a node with exactly one child goes on inline, on the same id,
with the path extended by the letter of that child; with no child `traverse` returns;
only with two or more children it comes to the loop in which workers are reserved;
none of these transitions touches the idle list or the number of tasks.  Hence in a
session on a prefix whose node has no branch point below, at every moment no task runs
or exactly one, with id 0, while the idle list holds the other ids untouched; and one
does run from the return of `findPrefixMatches` until the callback. -/
theorem only_branch_points_consume_workers (num : Nat) (D : List Word) (p : Word)
    (node : TrieNode_t) (hfound : descend (build num D)._root p = some node)
    (hchain : Chain node) (sched : List Nat) :
    (∀ (t : Trie_c) (i : Nat) (w : Worker) (nd : TrieNode_t) (word : Word)
        (below : List Frame), w.stack = Frame.visit nd word :: below →
      (workerAct t i w)._idleWorkers = t._idleWorkers ∧
      (workerAct t i w).running.length = t.running.length ∧
      (∀ c child, nd._children = [(c, child)] →
        (workerAct t i w).running =
          t.running.set i ⟨w.workerId, Frame.visit child (word ++ [c]) :: below⟩) ∧
      (nd._children = [] →
        (workerAct t i w).running = t.running.set i ⟨w.workerId, below⟩) ∧
      (2 ≤ nd._children.length →
        (workerAct t i w).running =
          t.running.set i ⟨w.workerId, Frame.loop nd._children word :: below⟩)) ∧
    ((run sched (findPrefixMatches p (build num D))).running = [] ∨
      ∃ w, (run sched (findPrefixMatches p (build num D))).running = [w] ∧
        w.workerId = 0 ∧
        (run sched (findPrefixMatches p (build num D)))._idleWorkers =
          (List.range (max num 1)).tail) ∧
    ((run sched (findPrefixMatches p (build num D))).driver = Driver.ready →
      (run sched (findPrefixMatches p (build num D))).delivered = [] →
      (run sched (findPrefixMatches p (build num D))).running ≠ []) := by
  refine ⟨?_, ?_, ?_⟩
  · intro t i w nd word below h
    rw [workerAct_visit t i w nd word below h]
    refine ⟨rfl, by simp, ?_, ?_, ?_⟩
    · intro c child hc
      simp [hc]
    · intro hc
      simp [hc]
    · intro hc
      match hcs : nd._children, hc with
      | x :: y :: rest, _ => rfl
  · have hq := quiet_build num D
    have hidle : (build num D)._idleWorkers = List.range (max num 1) := by
      have h1 : (build num D)._idleWorkers = (new num)._idleWorkers :=
        (foldl_insertWord_frame D (new num)).2.1
      rw [h1, ← numWorkers_new num]; rfl
    have hinit : ChainSession (List.range (max num 1)) p (findPrefixMatches p (build num D)) := by
      simp [ChainSession, findPrefixMatches, hq.1, hq.2, hidle]
    have hnode : ∀ nd, descend (findPrefixMatches p (build num D))._root p = some nd →
        Chain nd := by
      intro nd hnd
      rw [findPrefixMatches_root, hfound] at hnd
      cases hnd
      exact hchain
    have hinv := chain_run _ p sched _ ⟨hnode, hinit⟩
    have hready : (run sched (findPrefixMatches p (build num D))).driver = Driver.ready ∨
        (run sched (findPrefixMatches p (build num D))).running = [] := by
      cases hdr : (run sched (findPrefixMatches p (build num D))).driver with
      | ready => exact Or.inl rfl
      | spin q => simp only [ChainSession, hdr] at hinv; exact Or.inr hinv.2.1
      | unflag q => simp only [ChainSession, hdr] at hinv; exact Or.inr hinv.2.1
      | clear q => simp only [ChainSession, hdr] at hinv; exact Or.inr hinv.2.1
      | descend q => simp only [ChainSession, hdr] at hinv; exact Or.inr hinv.2.1
    rcases hready with hdr | hr
    · simp only [ChainSession, hdr] at hinv
      rcases hinv with h | ⟨w, hr, hi, -⟩
      · exact Or.inl h
      · right
        have hpos : 0 < max num 1 := by omega
        obtain ⟨m, hm⟩ : ∃ m, max num 1 = m + 1 := ⟨max num 1 - 1, by omega⟩
        rw [hm, List.range_succ_eq_map] at hi ⊢
        simp only [List.cons.injEq] at hi
        exact ⟨w, hr, hi.1.symm, by simp [hi.2]⟩
    · exact Or.inl hr
  · intro hdr hdel
    have hs := (session_run (build num D).delivered p sched _
      ⟨pool_findPrefixMatches p _ (pool_build num D),
        session_findPrefixMatches p _ (quiet_build num D)⟩).2
    rw [delivered_build] at hs
    simp only [Session, hdr] at hs
    rcases hs.2.2 with h | h
    · exact h.1
    · rw [hdel] at h
      simp at h

set_option maxRecDepth 100000 in
/-- Witness for C20 at the scenario, prefix "d" on three workers: the node reached heads the
chain o, g; after the session has started the one worker has id 0 and the idle list
holds 1 and 2. -/
theorem only_branch_points_consume_workers_witness :
    descend (build 3 exampleDict)._root ['d'] = some exampleChain ∧ Chain exampleChain ∧
    (run [0, 0, 0, 0, 0] (findPrefixMatches ['d'] (build 3 exampleDict))).running.length = 1 ∧
    ((run [0, 0, 0, 0, 0] (findPrefixMatches ['d'] (build 3 exampleDict))).running = [] ∨
      ∃ w, (run [0, 0, 0, 0, 0] (findPrefixMatches ['d'] (build 3 exampleDict))).running = [w] ∧
        w.workerId = 0 ∧
        (run [0, 0, 0, 0, 0] (findPrefixMatches ['d'] (build 3 exampleDict)))._idleWorkers =
          (List.range (max 3 1)).tail) :=
  ⟨rfl, by simp [exampleChain, Chain, ChainC], by decide,
    (only_branch_points_consume_workers 3 exampleDict ['d'] exampleChain rfl
      (by simp [exampleChain, Chain, ChainC]) [0, 0, 0, 0, 0]).2.1⟩

end Trie_c

namespace Trie_c

set_option maxRecDepth 100000 in
/-- Witness for C11 at the scenario on three workers, a search for the empty prefix under
way with two tasks running. -/
theorem idle_plus_running_is_worker_count_witness :
    (exec 3 (exampleDict.map Event.insert ++
      [Event.search [], Event.tick 0, Event.tick 0, Event.tick 0, Event.tick 0, Event.tick 1,
        Event.tick 1, Event.tick 1])).running.length = 2 ∧
    (exec 3 (exampleDict.map Event.insert ++
      [Event.search [], Event.tick 0, Event.tick 0, Event.tick 0, Event.tick 0, Event.tick 1,
        Event.tick 1, Event.tick 1]))._idleWorkers.length + 2 = 3 :=
  ⟨by decide, by
    have h := (idle_plus_running_is_worker_count 3 (exampleDict.map Event.insert ++
      [Event.search [], Event.tick 0, Event.tick 0, Event.tick 0, Event.tick 0, Event.tick 1,
        Event.tick 1, Event.tick 1])).1
    have h2 := (idle_plus_running_is_worker_count 3 (exampleDict.map Event.insert ++
      [Event.search [], Event.tick 0, Event.tick 0, Event.tick 0, Event.tick 0, Event.tick 1,
        Event.tick 1, Event.tick 1])).2.1
    rw [h2] at h
    have h3 : (exec 3 (exampleDict.map Event.insert ++
      [Event.search [], Event.tick 0, Event.tick 0, Event.tick 0, Event.tick 0, Event.tick 1,
        Event.tick 1, Event.tick 1])).running.length = 2 := by decide
    rw [h3] at h
    exact h⟩

set_option maxRecDepth 100000 in
/-- Instance at the scenario: before the descent for "ca" the reserve succeeds with
worker 0, and a search for "ca" issued after the insertions ends with a delivery. -/
theorem session_start_reserve_succeeds_witness :
    (exec 2 exampleEvents).driver = Driver.descend ['c', 'a'] ∧
    (∃ index rest, reserveFreeWorker (exec 2 exampleEvents)._idleWorkers = some (index, rest) ∧
      ∀ reached, descend (exec 2 exampleEvents)._root ['c', 'a'] = some reached →
        (driverStep (exec 2 exampleEvents)).running =
          [⟨index, [Frame.visit reached ['c', 'a']]⟩] ∧
        (driverStep (exec 2 exampleEvents))._idleWorkers = rest) ∧
    (exec 2 (exampleDict.map Event.insert)).driver = Driver.ready ∧
    ∃ extra, (run (List.range 56)
        (findPrefixMatches ['c', 'a'] (exec 2 (exampleDict.map Event.insert)))).delivered =
      (exec 2 (exampleDict.map Event.insert)).delivered ++ extra ++
        [(run (List.range 56)
          (findPrefixMatches ['c', 'a'] (exec 2 (exampleDict.map Event.insert))))._results] :=
  ⟨rfl,
    (session_start_reserve_succeeds 2 exampleEvents [] []).1 ['c', 'a'] rfl, rfl,
    (session_start_reserve_succeeds 2 (exampleDict.map Event.insert) ['c', 'a']
      (List.range 56)).2 rfl (by decide)⟩

set_option maxRecDepth 100000 in
/-- Witness for C15 at the scenario: after the search for "ca" has completed, and after a
further insertion, `requestResult` returns what was delivered. -/
theorem requestResult_returns_delivered_witness :
    ∃ d r, (run (List.range 56)
        (findPrefixMatches ['c', 'a'] (exec 2 (exampleDict.map Event.insert)))).delivered
        = d ++ [r] ∧
      (requestResult (run (List.range 56)
        (findPrefixMatches ['c', 'a'] (exec 2 (exampleDict.map Event.insert))))).1 = r ∧
      ([Event.insert ['c', 'o', 'w'], Event.request].foldl apply (run (List.range 56)
        (findPrefixMatches ['c', 'a'] (exec 2 (exampleDict.map Event.insert))))).delivered
        = d ++ [r] ∧
      (requestResult ([Event.insert ['c', 'o', 'w'], Event.request].foldl apply
        (run (List.range 56)
          (findPrefixMatches ['c', 'a'] (exec 2 (exampleDict.map Event.insert)))))).1 = r :=
  (requestResult_returns_delivered (new 1) 2 (exampleDict.map Event.insert) ['c', 'a']
    (List.range 56) [Event.insert ['c', 'o', 'w'], Event.request]).2.2 rfl (by decide)
    (by decide)

end Trie_c

/-! ## The idle list -/

namespace Trie_c

/-- C21: on a non-empty idle list `reserveFreeWorker` returns true, sets the out-parameter to
the id at the front and leaves the rest of the list, in its order; on an empty idle list
it returns false and leaves the out-parameter and the list as they are.  The result of
`reserveFreeWorker` used in the transitions is the same information. -/
theorem reserveFreeWorker_pops_front (idle : List Nat) (index : Nat) :
    (∀ front rest, idle = front :: rest →
      reserveFreeWorkerOut idle index = (true, front, rest) ∧
      reserveFreeWorker idle = some (front, rest)) ∧
    (idle = [] →
      reserveFreeWorkerOut idle index = (false, index, idle) ∧
      reserveFreeWorker idle = none) ∧
    ((reserveFreeWorkerOut idle index).1 = true →
      idle = (reserveFreeWorkerOut idle index).2.1 :: (reserveFreeWorkerOut idle index).2.2) ∧
    ((reserveFreeWorkerOut idle index).1 = decide (idle ≠ [])) ∧
    (reserveFreeWorker idle =
      if (reserveFreeWorkerOut idle index).1
      then some ((reserveFreeWorkerOut idle index).2.1, (reserveFreeWorkerOut idle index).2.2)
      else none) := by
  cases idle with
  | nil => simp [reserveFreeWorkerOut, reserveFreeWorker]
  | cons front rest => simp [reserveFreeWorkerOut, reserveFreeWorker]

theorem flagged_driverStep (t : Trie_c) (h : Flagged t) : Flagged (driverStep t) := by
  cases hdr : t.driver with
  | ready => simpa [driverStep, hdr] using h
  | spin q =>
    simp only [Flagged, hdr] at h
    by_cases hlt : t._idleWorkers.length < t._numWorkers <;>
      simp [driverStep, hdr, hlt, Flagged, h]
  | unflag q => simp [driverStep, hdr, Flagged]
  | clear q =>
    simp only [Flagged, hdr] at h
    simp [driverStep, hdr, Flagged, h]
  | descend q =>
    simp only [Flagged, hdr] at h
    cases hd : descend t._root q with
    | none => simp [driverStep, hdr, hd, Flagged, h]
    | some reached =>
      cases hi : t._idleWorkers <;> simp [driverStep, hdr, hd, reserveFreeWorker, hi, Flagged, h]

theorem flagged_step (t : Trie_c) (k : Nat) (h : Flagged t) : Flagged (step t k) := by
  rcases step_cases t k with ⟨-, -, hs⟩ | ⟨-, hs⟩ | ⟨i, w, hw, hs⟩
  · rw [hs]; exact h
  · rw [hs]; exact flagged_driverStep t h
  · obtain ⟨pre, post, repl, spawned, added, e⟩ := workerAct_effect t i w hw
    rw [hs]
    unfold Flagged at h ⊢
    rw [e.driver_new, e.flag_new]
    exact h

theorem flagged_apply (t : Trie_c) (e : Event) (h : Flagged t) : Flagged (apply t e) := by
  cases e with
  | insert w =>
    simp only [apply]
    cases hdr : t.driver <;> simp only [Flagged, insertWord, hdr] <;>
      simpa [Flagged, hdr] using h
  | search p =>
    simp only [apply, findPrefixMatches]
    cases hdr : t.driver <;> simp only [Flagged, hdr] <;> first
      | rfl
      | simpa [Flagged, hdr] using h
  | request => exact h
  | tick k => exact flagged_step t k h

theorem flagged_exec (num : Nat) (events : List Event) : Flagged (exec num events) :=
  exec_induction Flagged num (by simp [Flagged, new]) flagged_apply events

end Trie_c

namespace Trie_c

theorem perm_release (idle a b : List Nat) (x : Nat) :
    ((idle ++ [x]) ++ (a ++ b)).Perm (idle ++ (a ++ x :: b)) := by
  rw [List.perm_iff_count]
  intro v
  simp only [List.count_append, List.count_cons, List.count_nil]
  split_ifs <;> omega

theorem perm_reserve (rest a : List Nat) (j : Nat) :
    (rest ++ (a ++ [j])).Perm ((j :: rest) ++ a) := by
  rw [List.perm_iff_count]
  intro v
  simp only [List.count_append, List.count_cons, List.count_nil]
  split_ifs <;> omega

theorem ids_driverStep (t : Trie_c) (h : Ids t) : Ids (driverStep t) := by
  cases hdr : t.driver with
  | ready => simpa [driverStep, hdr] using h
  | spin q =>
    by_cases hlt : t._idleWorkers.length < t._numWorkers
    · simpa [driverStep, hdr, hlt] using h
    · simp only [driverStep, hdr, hlt, if_false]; exact h
  | unflag q => simp only [driverStep, hdr]; exact h
  | clear q => simp only [driverStep, hdr]; exact h
  | descend q =>
    cases hd : descend t._root q with
    | none => simp only [driverStep, hdr, hd]; exact h
    | some reached =>
      cases hi : t._idleWorkers with
      | nil =>
        simp only [driverStep, hdr, hd, reserveFreeWorker, hi]
        unfold Ids at h ⊢
        rw [hi] at h
        exact h
      | cons j rest =>
        simp only [driverStep, hdr, hd, reserveFreeWorker, hi]
        unfold Ids at h ⊢
        rw [hi] at h
        simp only [List.map_append, List.map_cons, List.map_nil]
        exact (perm_reserve rest _ j).trans h

theorem ids_workerAct (t : Trie_c) (i : Nat) (w : Worker) (hw : t.running.get? i = some w)
    (h : Ids t) : Ids (workerAct t i w) := by
  obtain ⟨pre, post, h1, h2, h3⟩ := running_split t.running i w hw
  unfold Ids at h
  rw [h1] at h
  simp only [List.map_append, List.map_cons] at h
  cases hs : w.stack with
  | nil =>
    rw [workerAct_release t i w hs]
    unfold Ids
    simp only [h3, List.map_append]
    exact (perm_release _ _ _ _).trans h
  | cons f below =>
    cases hf : f.isReserve with
    | false =>
      obtain ⟨hidle, -, st, hrun⟩ := workerAct_plain t i w f below hs hf
      obtain ⟨pre1, post1, repl, spawned, added, e⟩ := workerAct_effect t i w hw
      unfold Ids
      rw [hidle, hrun, h2, e.numWorkers_new]
      simpa using h
    | true =>
      cases f with
      | visit node word => simp [Frame.isReserve] at hf
      | loop rest word => simp [Frame.isReserve] at hf
      | reserve c n rest word =>
        cases hi : t._idleWorkers with
        | nil =>
          unfold Ids
          simp only [workerAct, hs, reserveFreeWorker, hi, h2, List.map_append, List.map_cons]
          rw [hi] at h
          exact h
        | cons j idle =>
          unfold Ids
          simp only [workerAct, hs, reserveFreeWorker, hi, h2, List.map_append, List.map_cons,
            List.map_nil]
          rw [hi] at h
          refine List.Perm.trans ?_ h
          have := perm_reserve idle (List.map Worker.workerId pre ++
            w.workerId :: List.map Worker.workerId post) j
          simpa using this

theorem ids_step (t : Trie_c) (k : Nat) (h : Ids t) : Ids (step t k) := by
  rcases step_cases t k with ⟨-, -, hs⟩ | ⟨-, hs⟩ | ⟨i, w, hw, hs⟩
  · rw [hs]; exact h
  · rw [hs]; exact ids_driverStep t h
  · rw [hs]; exact ids_workerAct t i w hw h

theorem ids_run (sched : List Nat) (t : Trie_c) (h : Ids t) : Ids (run sched t) :=
  run_induction Ids ids_step sched t h

theorem ids_apply (t : Trie_c) (e : Event) (h : Ids t) : Ids (apply t e) := by
  cases e with
  | insert w =>
    simp only [apply]
    cases t.driver <;> exact h
  | search p =>
    simp only [apply, findPrefixMatches]
    cases t.driver <;> exact h
  | request => exact h
  | tick k => exact ids_step t k h

theorem ids_exec (num : Nat) (events : List Event) : Ids (exec num events) :=
  exec_induction Ids num (by simp [Ids, new]) ids_apply events

theorem ids_facts (t : Trie_c) (h : Ids t) :
    t._idleWorkers.Nodup ∧ (∀ i ∈ t._idleWorkers, i < t._numWorkers) ∧
    (∀ i ∈ t._idleWorkers, ∀ w ∈ t.running, w.workerId ≠ i) ∧
    (t.running.map Worker.workerId).Nodup ∧
    (∀ w ∈ t.running, w.workerId < t._numWorkers) ∧
    (t.running = [] → t._idleWorkers.Perm (List.range t._numWorkers)) := by
  have hnd : (t._idleWorkers ++ t.running.map Worker.workerId).Nodup :=
    h.nodup_iff.2 (List.nodup_range _)
  have hmem : ∀ i, i ∈ t._idleWorkers ++ t.running.map Worker.workerId → i < t._numWorkers :=
    fun i hi => List.mem_range.1 (h.mem_iff.1 hi)
  rw [List.nodup_append] at hnd
  refine ⟨hnd.1, fun i hi => hmem i (List.mem_append_left _ hi), ?_, hnd.2.1, ?_, ?_⟩
  · intro i hi w hw heq
    exact hnd.2.2 hi (heq ▸ List.mem_map_of_mem _ hw)
  · intro w hw
    exact hmem _ (List.mem_append_right _ (List.mem_map_of_mem _ hw))
  · intro hr
    unfold Ids at h
    rw [hr] at h
    simpa using h

end Trie_c

/-! ## The claims on the pool -/

namespace Trie_c

/-- C22: in every reachable state the ids in the idle list are pairwise distinct, all smaller
than the worker count and different from the ids held by the running tasks, which are
pairwise distinct as well; the idle list and the held ids together are a rearrangement
of `0, ..., _numWorkers - 1`.  Whenever no task runs, and so after every session that
has run to its end, the idle list is a rearrangement of `0, ..., _numWorkers - 1`. -/
theorem worker_ids_distinct (num : Nat) (events : List Event) (sched : List Nat) :
    (exec num events)._idleWorkers.Nodup ∧
    (∀ i ∈ (exec num events)._idleWorkers, i < (exec num events)._numWorkers) ∧
    (∀ i ∈ (exec num events)._idleWorkers, ∀ w ∈ (exec num events).running,
      w.workerId ≠ i) ∧
    ((exec num events).running.map Worker.workerId).Nodup ∧
    (∀ w ∈ (exec num events).running, w.workerId < (exec num events)._numWorkers) ∧
    ((exec num events)._idleWorkers ++ (exec num events).running.map Worker.workerId).Perm
      (List.range (exec num events)._numWorkers) ∧
    ((exec num events).running = [] →
      (exec num events)._idleWorkers.Perm (List.range (exec num events)._numWorkers)) ∧
    (fuel (exec num events) ≤ sched.length →
      (run sched (exec num events)).running = [] ∧
      (run sched (exec num events))._idleWorkers.Perm
        (List.range (exec num events)._numWorkers)) := by
  have h := ids_exec num events
  obtain ⟨h1, h2, h3, h4, h5, h6⟩ := ids_facts _ h
  refine ⟨h1, h2, h3, h4, h5, h, h6, fun hlen => ?_⟩
  have hq := quiet_of_fuel_le sched _ (pool_exec num events) hlen
  have hi := ids_facts _ (ids_run sched _ h)
  refine ⟨hq.2, ?_⟩
  have := hi.2.2.2.2.2 hq.2
  rwa [(run_frame sched _).2] at this

end Trie_c

namespace Trie_c

set_option maxRecDepth 100000 in
theorem worker_ids_distinct_witness :
    (exec 3 exampleBusy)._idleWorkers = [2] ∧
    (exec 3 exampleBusy).running.map Worker.workerId = [0, 1] ∧
    ∀ i ∈ (exec 3 exampleBusy)._idleWorkers, ∀ w ∈ (exec 3 exampleBusy).running,
      w.workerId ≠ i :=
  ⟨by decide, by decide, (worker_ids_distinct 3 exampleBusy []).2.2.1⟩

theorem idle_call_returns (t : Trie_c) (p : Word) (k1 k2 : Nat) (hp : Pool t)
    (hf : t._stopAllWorkers = false) (hd : t.driver = Driver.ready) (hr : t.running = []) :
    run [k1, k2] (findPrefixMatches p t) = { t with driver := Driver.clear p } := by
  have hlen : ¬ t._idleWorkers.length < t._numWorkers := by
    have := hp.2
    rw [hr] at this
    simp only [List.length_nil, Nat.add_zero] at this
    omega
  have h1 : step (findPrefixMatches p t) k1 =
      { t with _stopAllWorkers := true, driver := Driver.unflag p } := by
    rw [step_of_no_worker _ _ (by simp [findPrefixMatches, hd, hr])]
    simp [findPrefixMatches, hd, driverStep, hlen]
  have h2 : step { t with _stopAllWorkers := true, driver := Driver.unflag p } k2 =
      { t with _stopAllWorkers := false, driver := Driver.clear p } := by
    rw [step_of_no_worker _ _ (by simp [hr])]
    simp [driverStep]
  rw [run_cons, run_cons, run_nil, h1, h2, ← hf]

/-- With a loop of `stopAllWorkers` that holds the driving thread until all ids are idle (the
transitions of `driverStep`): when `stopAllWorkers` has returned (the driving thread
stands right behind it), the
idle list has `_numWorkers` entries, the cancel flag is false and no task runs; while
fewer ids are idle the driving thread stays in its loop.  Called on a pool without a
running task it returns with the two transitions of the driving thread alone and
leaves everything but the position of the driving thread as it was.  Inside
`findPrefixMatches` it comes first: the call enters it, its transitions touch nothing
but the flag, and only afterwards the results are cleared, and then the descent starts. -/
theorem stopAllWorkers_returns_idle (num : Nat) (events : List Event) (p q : Word)
    (k1 k2 : Nat) :
    ((exec num events).driver = Driver.clear q →
      (exec num events)._idleWorkers.length = (exec num events)._numWorkers ∧
      (exec num events)._stopAllWorkers = false ∧ (exec num events).running = []) ∧
    ((exec num events).driver = Driver.ready → (exec num events).running = [] →
      (exec num events)._idleWorkers.length = (exec num events)._numWorkers ∧
      run [k1, k2] (findPrefixMatches p (exec num events)) =
        { exec num events with driver := Driver.clear p }) ∧
    (∀ t : Trie_c, t.driver = Driver.ready →
      findPrefixMatches p t = { t with _stopAllWorkers := true, driver := Driver.spin p }) ∧
    (∀ t : Trie_c, t.driver = Driver.spin p →
      (t._idleWorkers.length < t._numWorkers → driverEnabled t = false ∧ driverStep t = t) ∧
      (¬ t._idleWorkers.length < t._numWorkers →
        driverStep t = { t with driver := Driver.unflag p })) ∧
    (∀ t : Trie_c, t.driver = Driver.unflag p →
      driverStep t = { t with _stopAllWorkers := false, driver := Driver.clear p }) ∧
    (∀ t : Trie_c, t.driver = Driver.clear p →
      driverStep t = { t with _results := [], driver := Driver.descend p }) := by
  have hp := pool_exec num events
  have hg := (gate_exec num events)
  have hf := flagged_exec num events
  refine ⟨fun hd => ?_, fun hd hr => ?_, fun t hd => ?_, fun t hd => ⟨fun hlt => ?_, fun hlt => ?_⟩,
    fun t hd => ?_, fun t hd => ?_⟩
  · have hr : (exec num events).running = [] := by
      have := hg.2
      simpa [Gate, hd] using this
    have hflag : (exec num events)._stopAllWorkers = false := by
      simpa [Flagged, hd] using hf
    have := hp.2
    rw [hr] at this
    exact ⟨by simpa using this, hflag, hr⟩
  · have hflag : (exec num events)._stopAllWorkers = false := by
      simpa [Flagged, hd] using hf
    have := hp.2
    rw [hr] at this
    exact ⟨by simpa using this, idle_call_returns _ p k1 k2 hp hflag hd hr⟩
  · simp [findPrefixMatches, hd]
  · simp [driverEnabled, driverStep, hd, hlt]
  · simp [driverStep, hd, hlt]
  · simp [driverStep, hd]
  · simp [driverStep, hd]

set_option maxRecDepth 100000 in
theorem stopAllWorkers_returns_idle_witness :
    (exec 3 [Event.insert ['c', 'a', 't']]).driver = Driver.ready ∧
    (exec 3 [Event.insert ['c', 'a', 't']]).running = [] ∧
    (exec 3 [Event.insert ['c', 'a', 't']])._idleWorkers.length = 3 ∧
    run [0, 0] (findPrefixMatches ['c'] (exec 3 [Event.insert ['c', 'a', 't']])) =
      { exec 3 [Event.insert ['c', 'a', 't']] with driver := Driver.clear ['c'] } :=
  ⟨rfl, rfl, rfl,
    ((stopAllWorkers_returns_idle 3 [Event.insert ['c', 'a', 't']] ['c'] [] 0 0).2.1
      rfl rfl).2⟩

end Trie_c

/-! ## Termination of `traverse` -/

namespace Trie_c

/-- Every transition inside `traverse` replaces the stack of the worker and may start one
task; whatever the flag and the idle list are, the bound on the transitions left for the
stack and the started task is smaller than the bound for the stack before. -/
theorem workerAct_stack (t : Trie_c) (i : Nat) (w : Worker) (f : Frame) (below : List Frame)
    (h : w.stack = f :: below) :
    ∃ st spawned,
      (workerAct t i w).running = t.running.set i ⟨w.workerId, st⟩ ++ spawned ∧
      costStack st + costAll spawned < costStack (f :: below) := by
  cases f with
  | visit node word =>
    obtain ⟨l, cs⟩ := node
    rw [workerAct_visit t i w _ word below h]
    refine ⟨_, [], (List.append_nil _).symm, ?_⟩
    match cs with
    | [] => simp [costStack, costAll, Frame.cost, cost, costC, _children]
    | [(c, child)] =>
      simp [costStack, costAll, Frame.cost, cost, costC, _children]
      omega
    | x :: y :: rest => simp [costStack, costAll, Frame.cost, cost, costC, _children]
  | loop rest word =>
    match rest with
    | [] =>
      rw [workerAct_loop_nil t i w word below h]
      exact ⟨_, [], (List.append_nil _).symm, by simp [costStack, costAll, Frame.cost, costC]⟩
    | (c, n) :: rest =>
      cases hflag : t._stopAllWorkers with
      | true =>
        rw [workerAct_loop_cancelled t i w c n rest word below h hflag]
        exact ⟨_, [], (List.append_nil _).symm,
          by simp [costStack, costAll, Frame.cost, costC]⟩
      | false =>
        rw [workerAct_loop_go t i w c n rest word below h hflag]
        exact ⟨_, [], (List.append_nil _).symm,
          by simp [costStack, costAll, Frame.cost, costC]⟩
  | reserve c n rest word =>
    cases hi : t._idleWorkers with
    | nil =>
      refine ⟨Frame.visit n (word ++ [c]) :: Frame.loop rest word :: below, [], ?_, ?_⟩
      · simp [workerAct, h, reserveFreeWorker, hi]
      · simp [costStack, costAll, Frame.cost]
        omega
    | cons j idle =>
      refine ⟨Frame.loop rest word :: below, [⟨j, [Frame.visit n (word ++ [c])]⟩], ?_, ?_⟩
      · simp [workerAct, h, reserveFreeWorker, hi]
      · simp [costStack, costAll, Frame.cost]
        omega

/-- The `traverse` of a worker returns after at most as many of its own transitions as the
bound of its stack, whatever the pool and the flag are. -/
theorem traverseSteps_done (i : Nat) : ∀ (n : Nat) (t : Trie_c) (w : Worker),
    t.running.get? i = some w → costStack w.stack ≤ n →
    (traverseSteps i n t).running.get? i = some ⟨w.workerId, []⟩ := by
  intro n
  induction n with
  | zero =>
    intro t w hw hn
    obtain ⟨id, stack⟩ := w
    cases stack with
    | nil => simpa [traverseSteps] using hw
    | cons f below =>
      have := costStack_pos f below
      simp only at hn
      omega
  | succ n ih =>
    intro t w hw hn
    obtain ⟨id, stack⟩ := w
    cases stack with
    | nil =>
      simp only [traverseSteps, hw, List.isEmpty_nil, if_true]
    | cons f below =>
      simp only [traverseSteps, hw, List.isEmpty_cons, Bool.false_eq_true, if_false]
      obtain ⟨st, spawned, hrun, hlt⟩ := workerAct_stack t i ⟨id, f :: below⟩ f below rfl
      have hlen : i < t.running.length := by
        by_contra hc
        have : t.running.get? i = none := List.get?_eq_none.2 (by omega)
        rw [this] at hw; cases hw
      have hw1 : (workerAct t i ⟨id, f :: below⟩).running.get? i = some ⟨id, st⟩ := by
        rw [hrun, List.get?_eq_getElem?, List.getElem?_append_left (by simpa using hlen)]
        simp [hlen]
      have := ih _ _ hw1 (by simp only at hn ⊢; omega)
      exact this

end Trie_c

namespace Trie_c

/-- As long as no `detach` throws (the transitions of `step`, which leave the thread objects
out of account), `traverse` terminates and the worker then releases itself.  Every
transition inside
`traverse`, for every node, path, worker id, idle list and value of the flag, makes the
bound on the transitions left for the worker strictly smaller, so the worker alone
reaches the end of `traverse` within the bound of its stack; back in `startThread`
its transition pushes its id onto the idle list and ends the task.  From every
reachable state, every schedule at least as long as the bound ends with no task running
and with the idle list a rearrangement of all ids. -/
theorem traverse_terminates_and_releases (t : Trie_c) (i : Nat) (w : Worker)
    (num : Nat) (events : List Event) (sched : List Nat) :
    (t.running.get? i = some w → w.stack ≠ [] →
      ∃ st spawned,
        (workerAct t i w).running = t.running.set i ⟨w.workerId, st⟩ ++ spawned ∧
        costStack st + costAll spawned < costStack w.stack) ∧
    (t.running.get? i = some w →
      (traverseSteps i (costStack w.stack) t).running.get? i = some ⟨w.workerId, []⟩) ∧
    (t.running.get? i = some w → w.stack = [] →
      (workerAct t i w)._idleWorkers = t._idleWorkers ++ [w.workerId] ∧
      (workerAct t i w).running = t.running.eraseIdx i ∧
      (workerAct t i w).running.length + 1 = t.running.length) ∧
    (fuel (exec num events) ≤ sched.length →
      (run sched (exec num events)).running = [] ∧
      (run sched (exec num events)).driver = Driver.ready ∧
      (run sched (exec num events))._idleWorkers.Perm
        (List.range (exec num events)._numWorkers) ∧
      ∀ v ∈ (exec num events).running, v.workerId ∈ (run sched (exec num events))._idleWorkers) := by
  refine ⟨fun _ hs => ?_, fun hw => traverseSteps_done i _ t w hw (Nat.le_refl _),
    fun hw hs => ?_, fun hlen => ?_⟩
  · cases hst : w.stack with
    | nil => exact absurd hst hs
    | cons f below => exact workerAct_stack t i w f below hst
  · rw [workerAct_release t i w hs]
    refine ⟨rfl, rfl, ?_⟩
    have hlen : i < t.running.length := by
      by_contra hc
      have : t.running.get? i = none := List.get?_eq_none.2 (by omega)
      rw [this] at hw; cases hw
    simp only [List.length_eraseIdx, hlen, if_true]
    omega
  · have h := ids_exec num events
    have hq := quiet_of_fuel_le sched _ (pool_exec num events) hlen
    have hi := ids_facts _ (ids_run sched _ h)
    have hperm := hi.2.2.2.2.2 hq.2
    rw [(run_frame sched _).2] at hperm
    refine ⟨hq.2, hq.1, hperm, fun v hv => ?_⟩
    exact hperm.mem_iff.2 (List.mem_range.2 ((ids_facts _ h).2.2.2.2.1 v hv))

set_option maxRecDepth 100000 in
theorem traverse_terminates_and_releases_witness :
    (exec 3 exampleBusy).running.get? 0 = some exampleLooping ∧
    (traverseSteps 0 (costStack exampleLooping.stack) (exec 3 exampleBusy)).running.get? 0 =
      some ⟨0, []⟩ :=
  ⟨rfl, (traverse_terminates_and_releases (exec 3 exampleBusy) 0 exampleLooping 3 [] []).2.1
    rfl⟩

end Trie_c

/-! ## The shape of a trie after insertions -/

theorem hasPath_nil (t : TrieNode_t) : hasPath t [] = true := rfl

theorem hasPath_cons (l : Bool) (cs : List (Char × TrieNode_t)) (c : Char) (w : Word) :
    hasPath (mk l cs) (c :: w) =
      match findChild c cs with
      | none => false
      | some child => hasPath child w := by
  simp only [hasPath, descend, _children]
  cases findChild c cs <;> rfl

theorem hasPath_fresh (w : Word) : hasPath fresh w = decide (w = []) := by
  cases w with
  | nil => rfl
  | cons c w => simp [fresh, hasPath_cons, findChild]

/-- The paths after an insertion: the paths before, and the beginnings of the word. -/
theorem hasPath_insertFrom (w : Word) : ∀ (t : TrieNode_t) (v : Word),
    hasPath (insertFrom t w) v = (hasPath t v || v.isPrefixOf w) := by
  induction w with
  | nil =>
    intro t v
    obtain ⟨l, cs⟩ := t
    cases v with
    | nil => simp [hasPath_nil]
    | cons c v => simp [insertFrom, hasPath_cons, List.isPrefixOf]
  | cons a w ih =>
    intro t v
    obtain ⟨l, cs⟩ := t
    cases v with
    | nil => simp [hasPath_nil]
    | cons c v =>
      simp only [insertFrom]
      cases hf : findChild a cs with
      | none =>
        by_cases hc : a = c
        · subst hc
          cases v <;> simp [hasPath_cons, findChild, hf, ih, hasPath_fresh, List.isPrefixOf]
        · have hc2 : ¬ c = a := fun h => hc h.symm
          simp [hasPath_cons, findChild, hc, hc2, List.isPrefixOf]
      | some child =>
        by_cases hc : a = c
        · subst hc
          simp [hasPath_cons, findChild_setChild_same a _ cs child hf, hf, ih, List.isPrefixOf]
        · have hc2 : ¬ c = a := fun h => hc h.symm
          simp [hasPath_cons, findChild_setChild_other a c _ cs hc2, hc2, List.isPrefixOf]

theorem hasPath_foldl_insertFrom (D : List Word) : ∀ (r : TrieNode_t) (v : Word),
    hasPath (D.foldl insertFrom r) v = (hasPath r v || D.any (fun w => v.isPrefixOf w)) := by
  induction D with
  | nil => intro r v; simp
  | cons w D ih =>
    intro r v
    simp only [List.foldl, ih, hasPath_insertFrom, List.any_cons, Bool.or_assoc]

theorem matchLen_fresh (w : Word) : matchLen fresh w = 0 := by
  cases w with
  | nil => rfl
  | cons c w => simp [fresh, matchLen, findChild]

theorem matchLen_le (w : Word) : ∀ t : TrieNode_t, matchLen t w ≤ w.length := by
  induction w with
  | nil => intro t; simp [matchLen]
  | cons a w ih =>
    intro t
    obtain ⟨l, cs⟩ := t
    simp only [matchLen]
    cases hf : findChild a cs with
    | none => simp
    | some child =>
      have := ih child
      simp only [List.length_cons]
      omega

/-- The beginnings of `w` that are paths are those of length at most `matchLen`. -/
theorem hasPath_iff_le_matchLen (w : Word) : ∀ (t : TrieNode_t) (v : Word), v <+: w →
    (hasPath t v = true ↔ v.length ≤ matchLen t w) := by
  induction w with
  | nil =>
    intro t v hv
    have : v = [] := List.prefix_nil.1 hv
    subst this
    simp [hasPath_nil]
  | cons a w ih =>
    intro t v hv
    obtain ⟨l, cs⟩ := t
    cases v with
    | nil => simp [hasPath_nil]
    | cons c v =>
      obtain ⟨hca, hvw⟩ := List.cons_prefix_cons.1 hv
      subst hca
      simp only [hasPath_cons, matchLen]
      cases hf : findChild c cs with
      | none => simp
      | some child =>
        simp only [List.length_cons]
        rw [ih child v hvw]
        omega

theorem sizeC_setChild (a : Char) (n child : TrieNode_t) :
    ∀ cs : List (Char × TrieNode_t), findChild a cs = some child →
      sizeC (setChild a n cs) + size child = sizeC cs + size n := by
  intro cs
  induction cs with
  | nil => intro h; simp [findChild] at h
  | cons x rest ih =>
    obtain ⟨d, k⟩ := x
    intro h
    by_cases hd : d = a
    · simp only [findChild, hd, if_true, Option.some.injEq] at h
      subst h
      simp only [setChild, hd, if_true, sizeC]
      omega
    · simp only [findChild, hd, if_false] at h
      have := ih h
      simp only [setChild, hd, if_false, sizeC]
      omega

/-- An insertion adds one node for each letter of the word beyond the longest beginning that
is already a path. -/
theorem size_insertFrom (w : Word) : ∀ t : TrieNode_t,
    size (insertFrom t w) = size t + (w.length - matchLen t w) := by
  induction w with
  | nil =>
    intro t
    obtain ⟨l, cs⟩ := t
    simp [insertFrom, size, matchLen]
  | cons a w ih =>
    intro t
    obtain ⟨l, cs⟩ := t
    simp only [insertFrom, matchLen]
    cases hf : findChild a cs with
    | none =>
      have h1 := ih fresh
      rw [matchLen_fresh] at h1
      simp only [size, sizeC, List.length_cons, h1, fresh]
      simp only [fresh, size, sizeC] at h1
      omega
    | some child =>
      have h1 := ih child
      have h2 := sizeC_setChild a (insertFrom child w) child cs hf
      have h3 := matchLen_le w child
      simp only [size, List.length_cons]
      omega

/-! ## Nodes without children -/

theorem liveC_of_live (t : TrieNode_t) (h : Live t) : LiveC t._children := by
  obtain ⟨l, cs⟩ := t
  simp only [Live] at h
  exact h.2

theorem live_of_findChild (a : Char) (child : TrieNode_t) :
    ∀ cs : List (Char × TrieNode_t), LiveC cs → findChild a cs = some child → Live child := by
  intro cs
  induction cs with
  | nil => intro _ h; simp [findChild] at h
  | cons x rest ih =>
    obtain ⟨d, k⟩ := x
    intro h hf
    simp only [LiveC] at h
    by_cases hd : d = a
    · simp only [findChild, hd, if_true, Option.some.injEq] at hf
      exact hf ▸ h.1
    · simp only [findChild, hd, if_false] at hf
      exact ih h.2 hf

theorem liveC_setChild (a : Char) (n : TrieNode_t) (hn : Live n) :
    ∀ cs : List (Char × TrieNode_t), LiveC cs → LiveC (setChild a n cs) := by
  intro cs
  induction cs with
  | nil => intro h; simpa [setChild] using h
  | cons x rest ih =>
    obtain ⟨d, k⟩ := x
    intro h
    simp only [LiveC] at h
    by_cases hd : d = a
    · simp only [setChild, hd, if_true, LiveC]
      exact ⟨hn, h.2⟩
    · simp only [setChild, hd, if_false, LiveC]
      exact ⟨h.1, ih h.2⟩

theorem setChild_ne_nil (a : Char) (n child : TrieNode_t) (cs : List (Char × TrieNode_t))
    (h : findChild a cs = some child) : setChild a n cs ≠ [] := by
  cases cs with
  | nil => simp [findChild] at h
  | cons x rest =>
    obtain ⟨d, k⟩ := x
    by_cases hd : d = a <;> simp [setChild, hd]

/-- After an insertion every node without children is a leaf, the root included, when this
held below the root before. -/
theorem live_insertFrom (w : Word) : ∀ t : TrieNode_t, LiveC t._children →
    Live (insertFrom t w) := by
  induction w with
  | nil =>
    intro t h
    obtain ⟨l, cs⟩ := t
    simp only [insertFrom, Live]
    exact ⟨fun _ => trivial, h⟩
  | cons a w ih =>
    intro t h
    obtain ⟨l, cs⟩ := t
    simp only [_children] at h
    simp only [insertFrom]
    cases hf : findChild a cs with
    | none =>
      simp only [Live, LiveC]
      exact ⟨fun hc => by simp at hc, ih fresh (by simp [fresh, _children, LiveC]), h⟩
    | some child =>
      simp only [Live]
      refine ⟨fun hc => absurd hc (setChild_ne_nil a _ child cs hf), ?_⟩
      exact liveC_setChild a _ (ih child (liveC_of_live child (live_of_findChild a child cs h hf)))
        cs h

theorem liveC_foldl_insertFrom (D : List Word) : ∀ r : TrieNode_t, LiveC r._children →
    LiveC (D.foldl insertFrom r)._children ∧ (D ≠ [] → Live (D.foldl insertFrom r)) := by
  induction D with
  | nil => intro r h; exact ⟨h, fun hne => absurd rfl hne⟩
  | cons w D ih =>
    intro r h
    have hl := live_insertFrom w r h
    have := ih (insertFrom r w) (liveC_of_live _ hl)
    refine ⟨this.1, fun _ => ?_⟩
    cases D with
    | nil => exact hl
    | cons v D => exact this.2 (by simp)

theorem live_descend (v : Word) : ∀ (t node : TrieNode_t), LiveC t._children →
    descend t v = some node → v ≠ [] → Live node := by
  induction v with
  | nil => intro t node _ _ hne; exact absurd rfl hne
  | cons a v ih =>
    intro t node h hd _
    obtain ⟨l, cs⟩ := t
    simp only [descend, _children] at hd h
    cases hf : findChild a cs with
    | none => simp [hf] at hd
    | some child =>
      simp only [hf] at hd
      have hc := live_of_findChild a child cs h hf
      cases v with
      | nil =>
        simp only [descend, Option.some.injEq] at hd
        exact hd ▸ hc
      | cons b v => exact ih child node (liveC_of_live child hc) hd (by simp)

theorem leaf_of_live (t : TrieNode_t) (h : Live t) (hc : t._children = []) :
    t._isLeaf = true := by
  obtain ⟨l, cs⟩ := t
  simp only [Live] at h
  exact h.1 hc

/-! ## Equality of tries as trees of children maps -/

theorem sameTrie_refl (t : TrieNode_t) : SameTrie t t := fun _ => ⟨rfl, rfl⟩

theorem sameTrie_symm (s t : TrieNode_t) (h : SameTrie s t) : SameTrie t s :=
  fun v => ⟨(h v).1.symm, (h v).2.symm⟩

theorem sameTrie_trans (s t u : TrieNode_t) (h1 : SameTrie s t) (h2 : SameTrie t u) :
    SameTrie s u :=
  fun v => ⟨(h1 v).1.trans (h2 v).1, (h1 v).2.trans (h2 v).2⟩

theorem sameTrie_insertFrom (s t : TrieNode_t) (w : Word) (h : SameTrie s t) :
    SameTrie (insertFrom s w) (insertFrom t w) := by
  intro v
  rw [hasPath_insertFrom, hasPath_insertFrom, contains_insertFrom, contains_insertFrom,
    (h v).1, (h v).2]
  exact ⟨rfl, rfl⟩

theorem sameTrie_insertFrom_comm (t : TrieNode_t) (a b : Word) :
    SameTrie (insertFrom (insertFrom t a) b) (insertFrom (insertFrom t b) a) := by
  intro v
  simp only [hasPath_insertFrom, contains_insertFrom]
  constructor
  · cases hasPath t v <;> cases v.isPrefixOf a <;> cases v.isPrefixOf b <;> rfl
  · cases contains t v <;> cases decide (v = a) <;> cases decide (v = b) <;> rfl

theorem sameTrie_foldl (D : List Word) : ∀ s t : TrieNode_t, SameTrie s t →
    SameTrie (D.foldl insertFrom s) (D.foldl insertFrom t) := by
  induction D with
  | nil => intro s t h; exact h
  | cons w D ih => intro s t h; exact ih _ _ (sameTrie_insertFrom s t w h)

theorem sameTrie_foldl_perm (D1 D2 : List Word) (hp : D1.Perm D2) :
    ∀ s t : TrieNode_t, SameTrie s t →
      SameTrie (D1.foldl insertFrom s) (D2.foldl insertFrom t) := by
  induction hp with
  | nil => intro s t h; exact h
  | cons w _ ih => intro s t h; exact ih _ _ (sameTrie_insertFrom s t w h)
  | swap a b l =>
    intro s t h
    simp only [List.foldl]
    exact sameTrie_foldl l _ _
      (sameTrie_trans _ _ _ (sameTrie_insertFrom_comm s b a)
        (sameTrie_insertFrom _ _ b (sameTrie_insertFrom s t a h)))
  | trans _ _ ih1 ih2 =>
    intro s t h
    exact sameTrie_trans _ _ _ (ih1 s s (sameTrie_refl s)) (ih2 s t h)

/-- Two nodes are the same trie exactly when they carry the same leaf flag, have children
under the same letters, and the children under each letter are the same trie. -/
theorem sameTrie_iff (s u : TrieNode_t) :
    SameTrie s u ↔
      (s._isLeaf = u._isLeaf ∧
        ∀ c, match findChild c s._children, findChild c u._children with
          | none, none => True
          | some x, some y => SameTrie x y
          | _, _ => False) := by
  obtain ⟨l, cs⟩ := s
  obtain ⟨m, ds⟩ := u
  constructor
  · intro h
    refine ⟨by simpa [contains_nil] using (h []).2, fun c => ?_⟩
    simp only [_children]
    cases hs : findChild c cs with
    | none =>
      cases hu : findChild c ds with
      | none => trivial
      | some y =>
        have := (h [c]).1
        simp [hasPath_cons, hs, hu, hasPath_nil] at this
    | some x =>
      cases hu : findChild c ds with
      | none =>
        have := (h [c]).1
        simp [hasPath_cons, hs, hu, hasPath_nil] at this
      | some y =>
        intro v
        have := h (c :: v)
        simpa [hasPath_cons, contains_cons, hs, hu] using this
  · rintro ⟨hl, hc⟩ v
    cases v with
    | nil => exact ⟨rfl, by simpa [contains_nil] using hl⟩
    | cons c v =>
      have := hc c
      simp only [_children] at this
      simp only [hasPath_cons, contains_cons]
      cases hs : findChild c cs with
      | none =>
        cases hu : findChild c ds with
        | none => exact ⟨rfl, rfl⟩
        | some y => simp [hs, hu] at this
      | some x =>
        cases hu : findChild c ds with
        | none => simp [hs, hu] at this
        | some y =>
          simp only [hs, hu] at this
          exact this v

theorem target_perm_of_sameTrie (s u : TrieNode_t) (hs : WellFormed s) (hu : WellFormed u)
    (h : SameTrie s u) (p : Word) : (target s p).Perm (target u p) := by
  rw [List.perm_ext_iff_of_nodup (nodup_target s hs p) (nodup_target u hu p)]
  intro v
  rw [mem_target s hs, mem_target u hu, (h v).2]

/-! ## The claims on insertion -/

namespace Trie_c

/-- C25: `insertWord w` adds exactly `|w| - k` nodes, `k` being the length of the longest
beginning of `w` that is a path from the root; every path stays a path and the new paths
are beginnings of `w`; no string other than `w` changes between stored and not stored,
and `w` is stored afterwards.  Inserting the empty word adds no node and makes the root
a leaf, with its children as they were. -/
theorem insertWord_adds_missing_nodes (t : Trie_c) (w : Word) :
    size (insertWord t w)._root = size t._root + (w.length - matchLen t._root w) ∧
    matchLen t._root w ≤ w.length ∧
    (∀ v, v <+: w → (hasPath t._root v = true ↔ v.length ≤ matchLen t._root w)) ∧
    (∀ v, hasPath (insertWord t w)._root v = true ↔ (hasPath t._root v = true ∨ v <+: w)) ∧
    (∀ v, v ≠ w → contains (insertWord t w)._root v = contains t._root v) ∧
    contains (insertWord t w)._root w = true ∧
    (insertWord t [])._root = TrieNode_t.mk true t._root._children ∧
    size (insertWord t [])._root = size t._root := by
  refine ⟨size_insertFrom w _, matchLen_le w _, hasPath_iff_le_matchLen w _, fun v => ?_,
    fun v hv => ?_, ?_, ?_, ?_⟩
  · simp [insertWord, hasPath_insertFrom, List.isPrefixOf_iff_prefix]
  · simp [insertWord, contains_insertFrom, hv]
  · simp [insertWord, contains_insertFrom]
  · simp only [insertWord]
    cases t._root with
    | mk l cs => rfl
  · have := size_insertFrom [] t._root
    simpa [insertWord, matchLen] using this

theorem hasPath_build (num : Nat) (D : List Word) (p : Word) :
    hasPath (build num D)._root p = true ↔ p = [] ∨ ∃ w ∈ D, p <+: w := by
  rw [build_root, hasPath_foldl_insertFrom, hasPath_fresh]
  simp [List.isPrefixOf_iff_prefix]

set_option maxRecDepth 100000 in
/-- C26 fails on the code for a session that is cancelled: on the scenario dictionary with two
workers the descent for the empty prefix succeeds and a worker enters the root; a new
search sets the flag, the worker leaves the loop of the root and releases itself, and
the callback receives the empty sequence. -/
theorem cancelled_session_delivers_empty :
    exampleDict ≠ [] ∧ hasPath (build 2 exampleDict)._root [] = true ∧
    (run [0, 0, 0, 0, 0] (findPrefixMatches [] (build 2 exampleDict))).delivered = [] ∧
    (run [0, 0] (findPrefixMatches ['c', 'a']
      (run [0, 0, 0, 0, 0] (findPrefixMatches [] (build 2 exampleDict))))).delivered = [[]] := by
  decide

/-- C26 as amended: in the trie built from any word list every node other than the root that
has no children is a leaf, and so is the root once a word was inserted, while the root
of the trie of the empty list has no children and is no leaf.  The descent along `p`
succeeds exactly when `p` is empty or begins an inserted word.  And a session on a
non-empty dictionary whose descent succeeds, when no new search is issued, never
delivers an empty sequence, and delivers a non-empty one on every schedule at least as
long as the fuel. -/
theorem childless_nodes_are_leaves (num : Nat) (D : List Word) (p : Word) (sched : List Nat) :
    LiveC (build num D)._root._children ∧
    (D ≠ [] → Live (build num D)._root) ∧
    (∀ v node, descend (build num D)._root v = some node → node._children = [] →
      node._isLeaf = true ∨ (v = [] ∧ D = [])) ∧
    ((build num [])._root._children = [] ∧ (build num [])._root._isLeaf = false) ∧
    (hasPath (build num D)._root p = true ↔ p = [] ∨ ∃ w ∈ D, p <+: w) ∧
    (D ≠ [] → hasPath (build num D)._root p = true →
      (∀ r ∈ (run sched (findPrefixMatches p (build num D))).delivered, r ≠ []) ∧
      (fuel (findPrefixMatches p (build num D)) ≤ sched.length →
        ∃ r, (run sched (findPrefixMatches p (build num D))).delivered = [r] ∧ r ≠ [])) := by
  have hlive := liveC_foldl_insertFrom D fresh (by simp [fresh, _children, LiveC])
  rw [← build_root num D] at hlive
  refine ⟨hlive.1, hlive.2, fun v node hd hc => ?_, ⟨rfl, rfl⟩, hasPath_build num D p,
    fun hne hpath => ?_⟩
  · by_cases hv : v = []
    · subst hv
      simp only [descend, Option.some.injEq] at hd
      subst hd
      by_cases hD : D = []
      · exact Or.inr ⟨rfl, hD⟩
      · exact Or.inl (leaf_of_live _ (hlive.2 hD) hc)
    · exact Or.inl (leaf_of_live _ (live_descend v _ node hlive.1 hd hv) hc)
  · have hex : ∃ w, w ∈ D ∧ p <+: w := by
      rcases (hasPath_build num D p).1 hpath with h | ⟨w, hw, hpw⟩
      · subst h
        cases D with
        | nil => exact absurd rfl hne
        | cons w D => exact ⟨w, by simp, List.nil_prefix⟩
      · exact ⟨w, hw, hpw⟩
    obtain ⟨w, hw, hpw⟩ := hex
    obtain ⟨h1, h2⟩ :=
      session_outcome (build num D) (quiet_build num D) (pool_build num D) p sched
    rw [delivered_build] at h1 h2
    have hmem : ∀ r : List Word, r.Perm (target (build num D)._root p) → r ≠ [] := by
      intro r hperm hr
      have := (mem_of_perm_target num D p r hperm w).2 ⟨hw, hpw⟩
      rw [hr] at this
      cases this
    constructor
    · intro r hr
      rcases h1 with h | ⟨-, hd, hperm⟩
      · rw [h] at hr; cases hr
      · rw [hd] at hr
        simp only [List.nil_append, List.mem_singleton] at hr
        exact hr ▸ hmem _ hperm
    · intro hlen
      obtain ⟨-, hd, hperm⟩ := h2 hlen
      exact ⟨_, by simpa using hd, hmem _ hperm⟩

set_option maxRecDepth 100000 in
theorem childless_nodes_are_leaves_witness :
    exampleDict ≠ [] ∧ hasPath (build 2 exampleDict)._root ['c', 'a'] = true ∧
    ∀ r ∈ (run [0, 0, 0, 0, 0, 0, 0] (findPrefixMatches ['c', 'a']
      (build 2 exampleDict))).delivered, r ≠ [] :=
  ⟨by decide, by decide,
    ((childless_nodes_are_leaves 2 exampleDict ['c', 'a'] [0, 0, 0, 0, 0, 0, 0]).2.2.2.2.2
      (by decide) (by decide)).1⟩

/-- C27: `insertWord` commutes: for every trie and words `a` and `b`, inserting `a` then `b`
and inserting `b` then `a` give the same tree of character-keyed children maps with
leaf flags (the same paths lead to nodes with the same leaf flag), and leave every
other member equal; the trie built from a word list is the same tree for every
rearrangement of the list, and searches on it have the same targets up to order. -/
theorem insertWord_commutes (t : Trie_c) (a b : Word) (num : Nat) (D1 D2 : List Word)
    (p : Word) :
    SameTrie (insertWord (insertWord t a) b)._root (insertWord (insertWord t b) a)._root ∧
    { insertWord (insertWord t a) b with _root := t._root } =
      { insertWord (insertWord t b) a with _root := t._root } ∧
    (D1.Perm D2 →
      SameTrie (build num D1)._root (build num D2)._root ∧
      (target (build num D1)._root p).Perm (target (build num D2)._root p)) ∧
    (∀ s u : TrieNode_t, SameTrie s u ↔
      (s._isLeaf = u._isLeaf ∧
        ∀ c, match findChild c s._children, findChild c u._children with
          | none, none => True
          | some x, some y => SameTrie x y
          | _, _ => False)) := by
  refine ⟨sameTrie_insertFrom_comm t._root a b, rfl, fun hperm => ?_, sameTrie_iff⟩
  have h : SameTrie (build num D1)._root (build num D2)._root := by
    rw [build_root, build_root]
    exact sameTrie_foldl_perm D1 D2 hperm fresh fresh (sameTrie_refl fresh)
  exact ⟨h, target_perm_of_sameTrie _ _ (wellFormed_build num D1) (wellFormed_build num D2) h p⟩

theorem insertWord_commutes_witness :
    [['c', 'a', 't'], ['c', 'a', 'r']].Perm [['c', 'a', 'r'], ['c', 'a', 't']] ∧
    SameTrie (build 1 [['c', 'a', 't'], ['c', 'a', 'r']])._root
      (build 1 [['c', 'a', 'r'], ['c', 'a', 't']])._root :=
  ⟨List.Perm.swap _ _ _,
    ((insertWord_commutes (new 1) [] [] 1 [['c', 'a', 't'], ['c', 'a', 'r']]
      [['c', 'a', 'r'], ['c', 'a', 't']] []).2.2.1 (List.Perm.swap _ _ _)).1⟩

end Trie_c

/-! ## `timer.hpp`: comparisons -/

namespace tool_n

namespace PreciseTime

theorem operator_lt_iff (a b : PreciseTime) :
    operator_lt a b = true ↔
      (a.hours < b.hours ∨ (a.hours = b.hours ∧
        (a.seconds < b.seconds ∨ (a.seconds = b.seconds ∧ a.nano_seconds < b.nano_seconds)))) := by
  unfold operator_lt
  split_ifs <;> simp <;> omega

theorem operator_eq_iff (a b : PreciseTime) :
    operator_eq a b = true ↔
      (a.hours = b.hours ∧ a.seconds = b.seconds ∧ a.nano_seconds = b.nano_seconds ∧
        a.exponent = b.exponent) := by
  simp only [operator_eq, Bool.and_eq_true, decide_eq_true_eq]
  constructor
  · rintro ⟨⟨⟨h1, h2⟩, h3⟩, h4⟩
    exact ⟨h4.symm, h3.symm, h2.symm, h1.symm⟩
  · rintro ⟨h1, h2, h3, h4⟩
    exact ⟨⟨⟨h4.symm, h3.symm⟩, h2.symm⟩, h1.symm⟩

theorem operator_gt_iff (a b : PreciseTime) :
    operator_gt a b = true ↔ (¬ operator_lt a b = true ∧ ¬ operator_eq a b = true) := by
  unfold operator_gt
  cases operator_lt a b <;> cases operator_eq a b <;> simp

/-- C30, the code at two equal times of different units: for zero seconds and zero square
seconds `a > b` and `b > a` both hold, while `a < b`, `b < a` and `a == b` are false.
In general `a > b` and `b > a` hold together exactly for equal times with different
exponents (`operator<` does not look at the exponent, `operator==` does); the other
half of the claim holds for all values: exactly one of `a < b`, `a == b`, `a > b` is
true. -/
theorem operator_gt_both_ways :
    (operator_gt zeroSeconds zeroSquareSeconds = true ∧
      operator_gt zeroSquareSeconds zeroSeconds = true ∧
      operator_lt zeroSeconds zeroSquareSeconds = false ∧
      operator_lt zeroSquareSeconds zeroSeconds = false ∧
      operator_eq zeroSeconds zeroSquareSeconds = false ∧
      operator_le zeroSeconds zeroSquareSeconds = false ∧
      operator_ge zeroSeconds zeroSquareSeconds = true) ∧
    (∀ a b : PreciseTime, (operator_gt a b = true ∧ operator_gt b a = true) ↔
      (a.hours = b.hours ∧ a.seconds = b.seconds ∧ a.nano_seconds = b.nano_seconds ∧
        a.exponent ≠ b.exponent)) ∧
    (∀ a b : PreciseTime,
      (operator_lt a b = true ∧ operator_eq a b = false ∧ operator_gt a b = false) ∨
      (operator_lt a b = false ∧ operator_eq a b = true ∧ operator_gt a b = false) ∨
      (operator_lt a b = false ∧ operator_eq a b = false ∧ operator_gt a b = true)) := by
  refine ⟨by decide, fun a b => ?_, fun a b => ?_⟩
  · rw [operator_gt_iff, operator_gt_iff, operator_lt_iff, operator_lt_iff, operator_eq_iff,
      operator_eq_iff]
    constructor
    · rintro ⟨⟨h1, h2⟩, h3, h4⟩
      refine ⟨by omega, by omega, by omega, fun he => h2 ⟨by omega, by omega, by omega, he⟩⟩
    · rintro ⟨h1, h2, h3, h4⟩
      exact ⟨⟨by omega, fun h => h4 h.2.2.2⟩, by omega, fun h => h4 h.2.2.2.symm⟩
  · have hlt := operator_lt_iff a b
    have heq := operator_eq_iff a b
    have hgt := operator_gt_iff a b
    cases h1 : operator_lt a b <;> cases h2 : operator_eq a b <;>
      cases h3 : operator_gt a b <;> simp_all

end PreciseTime

end tool_n

/-! ## Soundness of what the callback receives -/

namespace Trie_c

theorem next_self (s : Tracked) : s.next s.state = s := by
  obtain ⟨t, cur, log⟩ := s
  simp only [Tracked.next, List.drop_length, List.map_nil, List.append_nil]
  cases t.driver <;> rfl

/-- A transition that leaves the callback log alone and is not the end of a descent keeps
the invariant, when it leaves the results and the tasks alone or ends with neither. -/
theorem sound_next_silent (R : TrieNode_t) (s : Tracked) (t : Trie_c)
    (hroot : t._root = s.state._root) (hdel : t.delivered = s.state.delivered)
    (hdr : ∀ q, s.state.driver = Driver.descend q → t.driver ≠ Driver.ready)
    (hdesc : ∀ q, t.driver = Driver.descend q → t._results = [])
    (hres : (t._results = [] ∧ t.running = []) ∨
      (t._results = s.state._results ∧ t.running = s.state.running))
    (h : Sound R s) : Sound R (s.next t) := by
  obtain ⟨t0, cur, log⟩ := s
  obtain ⟨h1, h2, h3, h4, h5⟩ := h
  simp only at h1 h2 h3 h4 h5 hroot hdel hdr hres
  have hcur : (match t0.driver, t.driver with
      | Driver.descend q, Driver.ready => some q
      | _, _ => cur) = cur := by
    cases hd0 : t0.driver with
    | descend q =>
      have := hdr q hd0
      cases hd1 : t.driver with
      | ready => exact absurd hd1 this
      | _ => rfl
    | _ => rfl
  simp only [Sound, Tracked.next, hcur, hdel, List.drop_length, List.map_nil, List.append_nil]
  refine ⟨hroot.trans h1, h2, h3, hdesc, ?_⟩
  rcases hres with hr | ⟨hr1, hr2⟩
  · exact Or.inl hr
  · rw [hr1, hr2]; exact h5

theorem sound_driverStep (R : TrieNode_t) (s : Tracked) (hg : Gate s.state)
    (h : Sound R s) : Sound R (s.next (driverStep s.state)) := by
  cases hdr : s.state.driver with
  | ready =>
    have : driverStep s.state = s.state := by simp [driverStep, hdr]
    rw [this, next_self]; exact h
  | spin q =>
    by_cases hlt : s.state._idleWorkers.length < s.state._numWorkers
    · have : driverStep s.state = s.state := by simp [driverStep, hdr, hlt]
      rw [this, next_self]; exact h
    · refine sound_next_silent R s _ ?_ ?_ ?_ ?_ ?_ h <;>
        simp [driverStep, hdr, hlt]
  | unflag q =>
    refine sound_next_silent R s _ ?_ ?_ ?_ ?_ ?_ h <;> simp [driverStep, hdr]
  | clear q =>
    have hr : s.state.running = [] := by simpa [Gate, hdr] using hg
    refine sound_next_silent R s _ ?_ ?_ ?_ ?_ ?_ h <;> simp [driverStep, hdr, hr]
  | descend q =>
    have hr : s.state.running = [] := by simpa [Gate, hdr] using hg
    obtain ⟨t0, cur, log⟩ := s
    obtain ⟨h1, h2, h3, h4, h5⟩ := h
    simp only at h1 h2 h3 h4 h5 hr hdr
    have hres := h4 q hdr
    cases hd : descend t0._root q with
    | none =>
      simp only [Sound, Tracked.next, driverStep, hdr, hd, hres, List.drop_left, List.map_cons,
        List.map_nil, List.map_append, h2]
      refine ⟨h1, trivial, ?_, by simp, Or.inl ⟨trivial, hr⟩⟩
      intro x hx
      rcases List.mem_append.1 hx with hx | hx
      · exact h3 x hx
      · simp only [List.mem_singleton] at hx
        subst hx
        exact ⟨q, rfl, List.nil_subperm⟩
    | some reached =>
      cases hi : t0._idleWorkers with
      | nil =>
        simp only [Sound, Tracked.next, driverStep, hdr, hd, reserveFreeWorker, hi,
          List.drop_length, List.map_nil, List.append_nil]
        exact ⟨h1, h2, h3, by simp, Or.inl ⟨hres, hr⟩⟩
      | cons j rest =>
        simp only [Sound, Tracked.next, driverStep, hdr, hd, reserveFreeWorker, hi,
          List.drop_length, List.map_nil, List.append_nil]
        refine ⟨h1, h2, h3, by simp, Or.inr ⟨q, rfl, ?_⟩⟩
        rw [hres, hr, ← h1]
        simp only [pendingAll, pendingStack, Frame.pending, target, hd, List.nil_append,
          List.append_nil]
        exact List.Subperm.refl _

theorem sound_workerAct (R : TrieNode_t) (s : Tracked) (i : Nat) (w : Worker)
    (hw : s.state.running.get? i = some w) (hg : Gate s.state) (h : Sound R s) :
    Sound R (s.next (workerAct s.state i w)) := by
  obtain ⟨t0, cur, log⟩ := s
  obtain ⟨h1, h2, h3, h4, h5⟩ := h
  simp only at h1 h2 h3 h4 h5 hw hg
  obtain ⟨pre, post, repl, spawned, added, e⟩ := workerAct_effect t0 i w hw
  have hne : t0.running ≠ [] := by rw [e.running_eq]; simp
  obtain ⟨p, hp, hsub⟩ : ∃ p, cur = some p ∧
      (t0._results ++ pendingAll t0.running).Subperm (target R p) := by
    rcases h5 with ⟨-, hr⟩ | h
    · exact absurd hr hne
    · exact h
  have hcur : (match t0.driver, (workerAct t0 i w).driver with
      | Driver.descend q, Driver.ready => some q
      | _, _ => cur) = cur := by
    rw [e.driver_new]
    cases t0.driver <;> rfl
  have hnew : ((workerAct t0 i w)._results ++ pendingAll (workerAct t0 i w).running).Subperm
      (target R p) := by
    refine List.Subperm.trans ?_ hsub
    rw [e.results_new, e.running_new, e.running_eq]
    have hsplit : pendingAll (w :: post) = pendingAll [w] ++ pendingAll post := by
      simp [pendingAll]
    have hs := e.sound.subperm
    simp only [pendingAll_append, hsplit]
    refine List.subperm_ext_iff.2 (fun a _ => ?_)
    have := hs.count_le a
    simp only [List.count_append] at this ⊢
    omega
  simp only [Sound, Tracked.next, hcur]
  refine ⟨e.root_new.trans h1, ?_, ?_, ?_, Or.inr ⟨p, hp, hnew⟩⟩
  · rw [e.delivered_new]
    split <;> simp [h2]
  · rw [e.delivered_new]
    intro x hx
    split at hx
    · simp only [List.drop_left, List.map_cons, List.map_nil, List.mem_append,
        List.mem_singleton] at hx
      rcases hx with hx | hx
      · exact h3 x hx
      · subst hx
        exact ⟨p, hp, (List.sublist_append_left _ _).subperm.trans hsub⟩
    · simp only [List.drop_length, List.map_nil, List.append_nil] at hx
      exact h3 x hx
  · intro q hq
    rw [e.driver_new] at hq
    have hr : t0.running = [] := by simpa [Gate, hq] using hg
    exact absurd hr hne

end Trie_c

namespace Trie_c

theorem sound_step (R : TrieNode_t) (s : Tracked) (k : Nat)
    (h : (Pool s.state ∧ Gate s.state) ∧ Sound R s) :
    (Pool (s.next (step s.state k)).state ∧ Gate (s.next (step s.state k)).state) ∧
      Sound R (s.next (step s.state k)) := by
  refine ⟨gate_step s.state k h.1, ?_⟩
  rcases step_cases s.state k with ⟨-, -, hs⟩ | ⟨-, hs⟩ | ⟨i, w, hw, hs⟩
  · rw [hs, next_self]; exact h.2
  · rw [hs]; exact sound_driverStep R s h.1.2 h.2
  · rw [hs]; exact sound_workerAct R s i w hw h.1.2 h.2

theorem sound_after (R : TrieNode_t) (s : Tracked) (e : Event) (he : e.isInsert = false)
    (h : (Pool s.state ∧ Gate s.state) ∧ Sound R s) :
    (Pool (s.after e).state ∧ Gate (s.after e).state) ∧ Sound R (s.after e) := by
  cases e with
  | insert w => simp [Event.isInsert] at he
  | search p =>
    refine ⟨gate_apply s.state (Event.search p) h.1, ?_⟩
    simp only [Tracked.after, apply]
    cases hdr : s.state.driver with
    | ready =>
      refine sound_next_silent R s _ ?_ ?_ ?_ ?_ ?_ h.2 <;> simp [findPrefixMatches, hdr]
    | spin q =>
      have : findPrefixMatches p s.state = s.state := by simp [findPrefixMatches, hdr]
      rw [this, next_self]; exact h.2
    | unflag q =>
      have : findPrefixMatches p s.state = s.state := by simp [findPrefixMatches, hdr]
      rw [this, next_self]; exact h.2
    | clear q =>
      have : findPrefixMatches p s.state = s.state := by simp [findPrefixMatches, hdr]
      rw [this, next_self]; exact h.2
    | descend q =>
      have : findPrefixMatches p s.state = s.state := by simp [findPrefixMatches, hdr]
      rw [this, next_self]; exact h.2
  | request =>
    have : s.after Event.request = s := by
      simp only [Tracked.after, apply, requestResult]
      exact next_self s
    rw [this]; exact h
  | tick k => exact sound_step R s k h

theorem sound_foldl (R : TrieNode_t) (events : List Event) :
    ∀ s : Tracked, (∀ e ∈ events, e.isInsert = false) →
      (Pool s.state ∧ Gate s.state) ∧ Sound R s →
      (Pool (events.foldl Tracked.after s).state ∧ Gate (events.foldl Tracked.after s).state) ∧
        Sound R (events.foldl Tracked.after s) := by
  induction events with
  | nil => intro s _ h; exact h
  | cons e events ih =>
    intro s he h
    exact ih _ (fun x hx => he x (List.mem_cons_of_mem _ hx))
      (sound_after R s e (he e (List.mem_cons_self _ _)) h)

theorem state_foldl_after (events : List Event) : ∀ s : Tracked,
    (events.foldl Tracked.after s).state = events.foldl apply s.state := by
  induction events with
  | nil => intro s; rfl
  | cons e events ih => intro s; simp only [List.foldl]; rw [ih]; rfl

theorem sound_track (num : Nat) (D : List Word) (events : List Event)
    (h : ∀ e ∈ events, e.isInsert = false) : Sound (build num D)._root (track num D events) := by
  refine (sound_foldl _ events ⟨build num D, none, []⟩ h ⟨⟨pool_build num D, ?_⟩, ?_⟩).2
  · simp [Gate, (quiet_build num D).1]
  · refine ⟨rfl, ?_, ?_, ?_, Or.inl ⟨?_, (quiet_build num D).2⟩⟩
    · simp [delivered_build]
    · intro x hx; simp at hx
    · intro q hq
      simp [(quiet_build num D).1] at hq
    · exact (foldl_insertWord_frame D (new num)).2.2.1

end Trie_c

namespace Trie_c

theorem called_driverStep (t : Trie_c) (q : Word) (h : (driverStep t).driver.called = some q) :
    t.driver.called = some q := by
  cases hdr : t.driver with
  | ready => simp [driverStep, hdr, Driver.called] at h
  | spin p =>
    by_cases hlt : t._idleWorkers.length < t._numWorkers <;>
      simpa [driverStep, hdr, hlt, Driver.called] using h
  | unflag p => simpa [driverStep, hdr, Driver.called] using h
  | clear p => simpa [driverStep, hdr, Driver.called] using h
  | descend p =>
    cases hd : descend t._root p with
    | none => simp [driverStep, hdr, hd, Driver.called] at h
    | some reached =>
      cases hi : t._idleWorkers <;>
        simp [driverStep, hdr, hd, reserveFreeWorker, hi, Driver.called] at h

theorem called_apply (t : Trie_c) (e : Event) (q : Word)
    (h : (apply t e).driver.called = some q) :
    t.driver.called = some q ∨ e = Event.search q := by
  cases e with
  | insert w =>
    left
    simp only [apply] at h
    cases hdr : t.driver <;> simp only [hdr, insertWord] at h <;> exact h
  | search p =>
    simp only [apply, findPrefixMatches] at h
    cases hdr : t.driver with
    | ready =>
      right
      simp only [hdr, Driver.called, Option.some.injEq] at h
      rw [h]
    | spin _ => left; simpa [hdr] using h
    | unflag _ => left; simpa [hdr] using h
    | clear _ => left; simpa [hdr] using h
    | descend _ => left; simpa [hdr] using h
  | request => exact Or.inl h
  | tick k =>
    left
    simp only [apply] at h
    rcases step_cases t k with ⟨-, -, hs⟩ | ⟨-, hs⟩ | ⟨i, w, hw, hs⟩
    · rwa [hs] at h
    · rw [hs] at h; exact called_driverStep t q h
    · obtain ⟨pre, post, repl, spawned, added, ef⟩ := workerAct_effect t i w hw
      rwa [hs, ef.driver_new] at h

theorem tagged_next (P : Word → Prop) (s : Tracked) (t : Trie_c)
    (ht : ∀ q, t.driver.called = some q → P q) (h : Tagged P s) : Tagged P (s.next t) := by
  obtain ⟨t0, cur, log⟩ := s
  obtain ⟨h1, h2, h3⟩ := h
  simp only at h1 h2 h3
  have hcur : ∀ q, (match t0.driver, t.driver with
      | Driver.descend q, Driver.ready => some q
      | _, _ => cur) = some q → P q := by
    intro q hq
    cases hd0 : t0.driver with
    | descend p =>
      cases hd1 : t.driver with
      | ready =>
        simp only [hd0, hd1, Option.some.injEq] at hq
        exact h1 q (by simp [hd0, Driver.called, hq])
      | _ => simp only [hd0, hd1] at hq; exact h2 q hq
    | _ => simp only [hd0] at hq; exact h2 q hq
  refine ⟨ht, hcur, ?_⟩
  intro x hx q hq
  simp only [Tracked.next, List.mem_append, List.mem_map] at hx
  rcases hx with hx | ⟨r, -, hx⟩
  · exact h3 x hx q hq
  · subst hx
    exact hcur q hq

theorem tagged_foldl (P : Word → Prop) (events : List Event) :
    ∀ s : Tracked, (∀ p, Event.search p ∈ events → P p) → Tagged P s →
      Tagged P (events.foldl Tracked.after s) := by
  induction events with
  | nil => intro s _ h; exact h
  | cons e events ih =>
    intro s he h
    refine ih _ (fun p hp => he p (List.mem_cons_of_mem _ hp)) ?_
    refine tagged_next P s _ (fun q hq => ?_) h
    rcases called_apply s.state e q hq with hc | hc
    · exact h.1 q hc
    · exact he q (hc ▸ List.mem_cons_self _ _)

theorem tagged_track (num : Nat) (D : List Word) (events : List Event) :
    Tagged (fun p => Event.search p ∈ events) (track num D events) := by
  refine tagged_foldl _ events ⟨build num D, none, []⟩ (fun p hp => hp) ⟨?_, ?_, ?_⟩
  · intro q hq
    simp [(quiet_build num D).1, Driver.called] at hq
  · intro q hq; cases hq
  · intro x hx; simp at hx

theorem nodup_of_subperm (r l : List Word) (h : r.Subperm l) (hl : l.Nodup) : r.Nodup := by
  obtain ⟨m, hm, hs⟩ := h
  exact hm.nodup_iff.1 (hl.sublist hs)

end Trie_c

/-! ## The claim on cancelled sessions -/

namespace Trie_c

/-- With a loop of `stopAllWorkers` that holds the driving thread until all ids are idle (the
transitions of `driverStep`): on a dictionary `D`, after any sequence of searches,
requests and transitions, of
which any search may cancel the session before it, every sequence that was passed to the
callback is sound for the session that passed it: the bookkeeping lists the sequences
passed, each with the prefix of a search that was called, and each entry of such a
sequence is a word of `D` that starts with that prefix, and no entry occurs twice. -/
theorem cancelled_sessions_deliver_sound (num : Nat) (D : List Word) (events : List Event)
    (h : ∀ e ∈ events, e.isInsert = false) :
    (track num D events).state = events.foldl apply (build num D) ∧
    (track num D events).log.map Prod.snd = (events.foldl apply (build num D)).delivered ∧
    (∀ x ∈ (track num D events).log, ∃ p, x.1 = some p ∧ Event.search p ∈ events ∧
      x.2.Nodup ∧ ∀ w ∈ x.2, w ∈ D ∧ p <+: w) ∧
    (∀ r ∈ (events.foldl apply (build num D)).delivered,
      r.Nodup ∧ ∃ p, Event.search p ∈ events ∧ ∀ w ∈ r, w ∈ D ∧ p <+: w) := by
  have hstate : (track num D events).state = events.foldl apply (build num D) :=
    state_foldl_after events _
  obtain ⟨-, h2, h3, -, -⟩ := sound_track num D events h
  have htag := (tagged_track num D events).2.2
  have hlog : ∀ x ∈ (track num D events).log, ∃ p, x.1 = some p ∧ Event.search p ∈ events ∧
      x.2.Nodup ∧ ∀ w ∈ x.2, w ∈ D ∧ p <+: w := by
    intro x hx
    obtain ⟨p, hp, hsub⟩ := h3 x hx
    refine ⟨p, hp, htag x hx p hp,
      nodup_of_subperm _ _ hsub (nodup_target _ (wellFormed_build num D) p), fun w hw => ?_⟩
    have := (mem_target _ (wellFormed_build num D) p w).1 (hsub.subset hw)
    rw [contains_build] at this
    exact ⟨this.2, this.1⟩
  refine ⟨hstate, by rw [h2, hstate], hlog, fun r hr => ?_⟩
  rw [← hstate, ← h2] at hr
  obtain ⟨x, hx, rfl⟩ := List.mem_map.1 hr
  obtain ⟨p, -, hs, hn, hw⟩ := hlog x hx
  exact ⟨hn, p, hs, hw⟩

set_option maxRecDepth 100000 in
theorem cancelled_sessions_deliver_sound_witness :
    (∀ e ∈ exampleCancel, e.isInsert = false) ∧
    (track 2 exampleDict exampleCancel).log =
      [(some [], [['d', 'o', 'g']]),
       (some ['c', 'a'], [['c', 'a', 't'], ['c', 'a', 'r'], ['c', 'a', 'r', 't']])] ∧
    ∀ x ∈ (track 2 exampleDict exampleCancel).log, ∃ p, x.1 = some p ∧
      Event.search p ∈ exampleCancel ∧ x.2.Nodup ∧ ∀ w ∈ x.2, w ∈ exampleDict ∧ p <+: w :=
  ⟨by decide, by decide,
    (cancelled_sessions_deliver_sound 2 exampleDict exampleCancel (by decide)).2.2.1⟩

end Trie_c

/-! ## The order of the results -/

namespace Trie_c

end Trie_c

namespace Trie_c

end Trie_c

/-! ## The claim on the order of the results -/

namespace Trie_c

end Trie_c

/-! ## The rest of `traverse` while the flag is set, from any stack -/

namespace Trie_c

/-- One transition inside `traverse` while the flag is set, from any frame: what is appended,
what is started and what is left to do make up what was left to do before. -/
theorem workerAct_flagged (t : Trie_c) (i : Nat) (w : Worker) (f : Frame) (below : List Frame)
    (hs : w.stack = f :: below) (hflag : t._stopAllWorkers = true) :
    ∃ st added spawned idle,
      workerAct t i w =
        { t with _results := t._results ++ added
                 _idleWorkers := idle
                 running := t.running.set i ⟨w.workerId, st⟩ ++ spawned } ∧
      (cancelledRun t._idleWorkers (f :: below)).1 = added ++ (cancelledRun idle st).1 ∧
      (cancelledRun t._idleWorkers (f :: below)).2.1 =
        spawned ++ (cancelledRun idle st).2.1 ∧
      (cancelledRun t._idleWorkers (f :: below)).2.2 = (cancelledRun idle st).2.2 ∧
      costStack st < costStack (f :: below) := by
  cases f with
  | visit node word =>
    obtain ⟨l, cs⟩ := node
    match cs with
    | [] =>
      refine ⟨below, if l then [word] else [], [], t._idleWorkers, ?_, ?_, ?_, ?_, ?_⟩
      · rw [workerAct_visit t i w _ word below hs]
        cases l <;> simp [_isLeaf, _children]
      · simp [cancelledRun, cancelledWords, cancelledWordsC]
      · simp [cancelledRun]
      · simp [cancelledRun]
      · simp [costStack, Frame.cost, cost, costC]
    | [(c, child)] =>
      refine ⟨Frame.visit child (word ++ [c]) :: below, if l then [word] else [], [],
        t._idleWorkers, ?_, ?_, ?_, ?_, ?_⟩
      · rw [workerAct_visit t i w _ word below hs]
        cases l <;> simp [_isLeaf, _children]
      · simp [cancelledRun, cancelledWords, cancelledWordsC]
      · simp [cancelledRun]
      · simp [cancelledRun]
      · simp [costStack, Frame.cost, cost, costC]
        omega
    | x :: y :: rest =>
      refine ⟨Frame.loop (x :: y :: rest) word :: below, if l then [word] else [], [],
        t._idleWorkers, ?_, ?_, ?_, ?_, ?_⟩
      · rw [workerAct_visit t i w _ word below hs]
        cases l <;> simp [_isLeaf, _children]
      · simp [cancelledRun, cancelledWords, cancelledWordsC]
      · simp [cancelledRun]
      · simp [cancelledRun]
      · simp [costStack, Frame.cost, cost, costC]
  | loop rest word =>
    refine ⟨below, [], [], t._idleWorkers, ?_, ?_, ?_, ?_, ?_⟩
    · match rest with
      | [] =>
        rw [workerAct_loop_nil t i w word below hs]
        simp
      | (c, n) :: rest =>
        rw [workerAct_loop_cancelled t i w c n rest word below hs hflag]
        simp
    · simp [cancelledRun]
    · simp [cancelledRun]
    · simp [cancelledRun]
    · match rest with
      | [] => simp [costStack, Frame.cost, costC]
      | (c, n) :: rest => simp [costStack, Frame.cost, costC]
  | reserve c n rest word =>
    cases hi : t._idleWorkers with
    | nil =>
      refine ⟨Frame.visit n (word ++ [c]) :: Frame.loop rest word :: below, [], [], [],
        ?_, ?_, ?_, ?_, ?_⟩
      · simp [workerAct, hs, reserveFreeWorker, hi]
      · simp [cancelledRun]
      · simp [cancelledRun]
      · simp [cancelledRun]
      · simp [costStack, Frame.cost]
        omega
    | cons j idle =>
      refine ⟨Frame.loop rest word :: below, [], [⟨j, [Frame.visit n (word ++ [c])]⟩], idle,
        ?_, ?_, ?_, ?_, ?_⟩
      · simp [workerAct, hs, reserveFreeWorker, hi]
      · simp [cancelledRun]
      · simp [cancelledRun]
      · simp [cancelledRun]
      · simp [costStack, Frame.cost]

theorem get?_set_append (ws sp : List Worker) (i : Nat) (w x : Worker)
    (h : ws.get? i = some w) :
    (ws.set i x ++ sp).get? i = some x ∧
    ∀ y, (ws.set i x ++ sp).set i y = ws.set i y ++ sp := by
  have hlen : i < ws.length := by
    by_contra hc
    have : ws.get? i = none := List.get?_eq_none.2 (by omega)
    rw [this] at h; cases h
  constructor
  · rw [List.get?_eq_getElem?, List.getElem?_append_left (by simpa using hlen)]
    simp [hlen]
  · intro y
    rw [List.set_append_left _ _ (by simpa using hlen), List.set_set]

/-- The rest of `traverse` of one worker while the flag is set, from any stack and with no
other thread moving: after `n` of its transitions, what was appended and started and
what the remaining stack will still do make up `cancelledRun` of the stack at the
start; and `traverse` has returned when `n` is at least the bound of the stack. -/
theorem traverseSteps_flagged (i : Nat) : ∀ (n : Nat) (t : Trie_c) (w : Worker),
    t._stopAllWorkers = true → t.running.get? i = some w →
    ∃ st added spawned idle,
      traverseSteps i n t =
        { t with _results := t._results ++ added
                 _idleWorkers := idle
                 running := t.running.set i ⟨w.workerId, st⟩ ++ spawned } ∧
      (cancelledRun t._idleWorkers w.stack).1 = added ++ (cancelledRun idle st).1 ∧
      (cancelledRun t._idleWorkers w.stack).2.1 = spawned ++ (cancelledRun idle st).2.1 ∧
      (cancelledRun t._idleWorkers w.stack).2.2 = (cancelledRun idle st).2.2 ∧
      (st = [] ∨ costStack st + n ≤ costStack w.stack) := by
  intro n
  induction n with
  | zero =>
    intro t w _ hw
    refine ⟨w.stack, [], [], t._idleWorkers, ?_, by simp, by simp, rfl, Or.inr (by simp)⟩
    obtain ⟨id, stack⟩ := w
    simp only [traverseSteps, List.append_nil]
    rw [(get?_set_self t.running i _ ⟨id, stack⟩ hw).2.2]
  | succ n ih =>
    intro t w hflag hw
    simp only [traverseSteps, hw]
    cases hs : w.stack with
    | nil =>
      refine ⟨[], [], [], t._idleWorkers, ?_, by simp, by simp, rfl, Or.inl rfl⟩
      obtain ⟨id, stack⟩ := w
      simp only at hs
      subst hs
      simp only [List.isEmpty_nil, if_true, List.append_nil]
      rw [(get?_set_self t.running i _ ⟨id, []⟩ hw).2.2]
    | cons f below =>
      obtain ⟨st1, added1, spawned1, idle1, h1, hw1, hsp1, hid1, hcost1⟩ :=
        workerAct_flagged t i w f below hs hflag
      obtain ⟨hget, hset⟩ := get?_set_append t.running spawned1 i w ⟨w.workerId, st1⟩ hw
      have hw1' : (workerAct t i w).running.get? i = some ⟨w.workerId, st1⟩ := by
        rw [h1]; exact hget
      have hflag1 : (workerAct t i w)._stopAllWorkers = true := by rw [h1]; exact hflag
      obtain ⟨st2, added2, spawned2, idle2, h2, hw2, hsp2, hid2, hcost2⟩ :=
        ih _ _ hflag1 hw1'
      have hidle1 : (workerAct t i w)._idleWorkers = idle1 := by rw [h1]
      rw [hidle1] at hw2 hsp2 hid2
      simp only at hw2 hsp2 hid2 hcost2
      refine ⟨st2, added1 ++ added2, spawned1 ++ spawned2, idle2, ?_, ?_, ?_, ?_, ?_⟩
      · simp only [List.isEmpty_cons, Bool.false_eq_true, if_false]
        rw [h2, h1]
        simp only [hset, List.append_assoc]
      · rw [hw1, hw2, List.append_assoc]
      · rw [hsp1, hsp2, List.append_assoc]
      · rw [hid1, hid2]
      · rcases hcost2 with h | h
        · exact Or.inl h
        · right; omega

theorem cancelledRun_words_sublist : ∀ (stack : List Frame) (idle : List Nat),
    (cancelledRun idle stack).1.Sublist (pendingStack stack) := by
  intro stack
  induction stack with
  | nil => intro idle; simp [cancelledRun, pendingStack]
  | cons f below ih =>
    intro idle
    cases f with
    | visit node word =>
      simp only [cancelledRun, pendingStack, Frame.pending]
      exact (cancelledWords_sublist node word).append (ih idle)
    | loop rest word =>
      simp only [cancelledRun, pendingStack, Frame.pending]
      exact (ih idle).trans (List.sublist_append_right _ _)
    | reserve c n rest word =>
      cases idle with
      | nil =>
        simp only [cancelledRun, pendingStack, Frame.pending, List.append_assoc]
        exact (cancelledWords_sublist n _).append
          ((ih []).trans (List.sublist_append_right _ _))
      | cons j idle =>
        simp only [cancelledRun, pendingStack, Frame.pending]
        exact (ih idle).trans (List.sublist_append_right _ _)

theorem cancelledRun_noReserve : ∀ (stack : List Frame) (idle : List Nat), NoReserve stack →
    cancelledRun idle stack = (cancelledStack stack, [], idle) := by
  intro stack
  induction stack with
  | nil => intro idle _; simp [cancelledRun, cancelledStack]
  | cons f below ih =>
    intro idle h
    rw [noReserve_cons] at h
    cases f with
    | visit node word => simp [cancelledRun, cancelledStack, ih idle h.2]
    | loop rest word => simp [cancelledRun, cancelledStack, ih idle h.2]
    | reserve c n rest word => simp [Frame.isReserve] at h

end Trie_c

/-! ## The claim on work dropped by cancellation -/

namespace Trie_c

/-- C18 as amended: the flag is read at the head of the loop of a branch point only.  While it
is set, a worker at the head of the loop with children left leaves the loop, so these
children are neither handed off nor traversed; a worker that has passed the read for a
child still hands this child off when an id is idle, and enters it itself when none is.
With no other thread moving, the rest of its `traverse` from any stack appends exactly
the words of `cancelledRun` (those of the nodes it has entered or enters itself and
of the single-child chains below them, each down to the first node with no or several
children), which are part of the words of its assigned subtrees, in order, and starts
exactly the tasks of `cancelledRun`; then `traverse` has returned and the next
transition of the worker is its release. -/
theorem cancelled_traverse_outcome (t : Trie_c) (i : Nat) (w : Worker)
    (hw : t.running.get? i = some w) (hflag : t._stopAllWorkers = true)
    (n : Nat) (hn : costStack w.stack ≤ n) :
    (∀ c nd rest word below, w.stack = Frame.loop ((c, nd) :: rest) word :: below →
      workerAct t i w = { t with running := t.running.set i ⟨w.workerId, below⟩ }) ∧
    (∀ c nd rest word below j idle, w.stack = Frame.reserve c nd rest word :: below →
      t._idleWorkers = j :: idle →
      workerAct t i w =
        { t with _idleWorkers := idle
                 running := t.running.set i ⟨w.workerId, Frame.loop rest word :: below⟩ ++
                   [⟨j, [Frame.visit nd (word ++ [c])]⟩] }) ∧
    (∀ c nd rest word below, w.stack = Frame.reserve c nd rest word :: below →
      t._idleWorkers = [] →
      workerAct t i w =
        { t with running := t.running.set i (Worker.mk w.workerId
            (Frame.visit nd (word ++ [c]) :: Frame.loop rest word :: below)) }) ∧
    traverseSteps i n t =
      { t with _results := t._results ++ (cancelledRun t._idleWorkers w.stack).1
               _idleWorkers := (cancelledRun t._idleWorkers w.stack).2.2
               running := t.running.set i ⟨w.workerId, []⟩ ++
                 (cancelledRun t._idleWorkers w.stack).2.1 } ∧
    (cancelledRun t._idleWorkers w.stack).1.Sublist (pendingStack w.stack) ∧
    (NoReserve w.stack →
      cancelledRun t._idleWorkers w.stack = (cancelledStack w.stack, [], t._idleWorkers)) ∧
    (workerAct (traverseSteps i n t) i ⟨w.workerId, []⟩)._idleWorkers =
      (cancelledRun t._idleWorkers w.stack).2.2 ++ [w.workerId] ∧
    (workerAct (traverseSteps i n t) i ⟨w.workerId, []⟩).running =
      t.running.eraseIdx i ++ (cancelledRun t._idleWorkers w.stack).2.1 := by
  have hlen : i < t.running.length := by
    by_contra hc
    have : t.running.get? i = none := List.get?_eq_none.2 (by omega)
    rw [this] at hw; cases hw
  have hdone : traverseSteps i n t =
      { t with _results := t._results ++ (cancelledRun t._idleWorkers w.stack).1
               _idleWorkers := (cancelledRun t._idleWorkers w.stack).2.2
               running := t.running.set i ⟨w.workerId, []⟩ ++
                 (cancelledRun t._idleWorkers w.stack).2.1 } := by
    obtain ⟨st, added, spawned, idle, h1, h2, h3, h4, h5⟩ := traverseSteps_flagged i n t w hflag hw
    have hst : st = [] := by
      rcases h5 with h | h
      · exact h
      · cases st with
        | nil => rfl
        | cons f below =>
          have := costStack_pos f below
          omega
    subst hst
    simp only [cancelledRun, List.append_nil] at h2 h3 h4
    rw [h1, h2, h3, h4]
  refine ⟨fun c nd rest word below h =>
      workerAct_loop_cancelled t i w c nd rest word below h hflag,
    fun c nd rest word below j idle h hi => by simp [workerAct, h, reserveFreeWorker, hi],
    fun c nd rest word below h hi => by simp [workerAct, h, reserveFreeWorker, hi],
    hdone, cancelledRun_words_sublist _ _, cancelledRun_noReserve _ _, ?_, ?_⟩
  · rw [workerAct_release _ i ⟨w.workerId, []⟩ rfl, hdone]
  · rw [workerAct_release _ i ⟨w.workerId, []⟩ rfl, hdone]
    simp only
    rw [List.eraseIdx_append_of_lt_length (by simpa using hlen)]
    rw [eraseIdx_set t.running _ i]

set_option maxRecDepth 100000 in
theorem cancelled_traverse_outcome_witness :
    exampleReserving.running.get? 0 = some exampleReserved ∧
    exampleReserving._stopAllWorkers = true ∧
    (traverseSteps 0 48 exampleReserving)._results = [['d', 'o', 'g']] ∧
    (traverseSteps 0 48 exampleReserving).running = [⟨0, []⟩] ∧
    exampleHandoff.running.get? 0 = some exampleReserved ∧
    exampleHandoff._stopAllWorkers = true ∧
    (traverseSteps 0 48 exampleHandoff)._results = [] ∧
    (traverseSteps 0 48 exampleHandoff).running =
      [⟨0, []⟩, ⟨1, [Frame.visit exampleChain ['d']]⟩] :=
  ⟨rfl, rfl,
    ((cancelled_traverse_outcome exampleReserving 0 exampleReserved rfl rfl 48
      (by decide)).2.2.2.1).symm ▸ rfl,
    ((cancelled_traverse_outcome exampleReserving 0 exampleReserved rfl rfl 48
      (by decide)).2.2.2.1).symm ▸ rfl,
    rfl, rfl,
    ((cancelled_traverse_outcome exampleHandoff 0 exampleReserved rfl rfl 48
      (by decide)).2.2.2.1).symm ▸ rfl,
    ((cancelled_traverse_outcome exampleHandoff 0 exampleReserved rfl rfl 48
      (by decide)).2.2.2.1).symm ▸ rfl⟩

end Trie_c

/-! ## The loop of `stopAllWorkers` does not hold the driving thread -/

namespace Trie_c

set_option maxRecDepth 1000000 in
/-- C23, the code when the loop of `stopAllWorkers` does not hold the driving thread: in the
scenario on two workers a search for "ca" is called while the worker of the search for
the empty prefix runs; the driving thread leaves the loop and resets the flag, and
stands behind `stopAllWorkers` with one of two ids idle and a task running. -/
theorem stopAllWorkers_returns_while_running :
    (findPrefixMatches ['c', 'a']
      (run [0, 0, 0, 0] (findPrefixMatches [] (build 2 exampleDict)))).driver =
        Driver.spin ['c', 'a'] ∧
    (exampleOverlap 2 [] ['c', 'a']).driver = Driver.unflag ['c', 'a'] ∧
    (run [0] (exampleOverlap 2 [] ['c', 'a'])).driver = Driver.clear ['c', 'a'] ∧
    (run [0] (exampleOverlap 2 [] ['c', 'a']))._stopAllWorkers = false ∧
    (run [0] (exampleOverlap 2 [] ['c', 'a']))._numWorkers = 2 ∧
    (run [0] (exampleOverlap 2 [] ['c', 'a']))._idleWorkers = [1] ∧
    (run [0] (exampleOverlap 2 [] ['c', 'a'])).running.map Worker.workerId = [0] :=
  ⟨rfl, rfl, rfl, by decide, by decide, by decide, by decide⟩

set_option maxRecDepth 1000000 in
/-- C12, the code when the loop of `stopAllWorkers` does not hold the driving thread: in the
scenario on one worker a search for "ca" is called while the worker of the search for
the empty prefix runs; the driving thread leaves the loop, clears the results, descends
to the node of "ca" and finds no idle id: it returns without a session and without a
callback.  The one callback that follows is made by the worker of the first search;
two calls have led to one callback. -/
theorem silent_return_is_reached :
    (run [0, 0] (exampleOverlap 1 [] ['c', 'a'])).driver = Driver.descend ['c', 'a'] ∧
    hasPath (run [0, 0] (exampleOverlap 1 [] ['c', 'a']))._root ['c', 'a'] = true ∧
    reserveFreeWorker (run [0, 0] (exampleOverlap 1 [] ['c', 'a']))._idleWorkers = none ∧
    (run [0, 0, 0] (exampleOverlap 1 [] ['c', 'a'])).driver = Driver.ready ∧
    (run [0, 0, 0] (exampleOverlap 1 [] ['c', 'a'])).delivered = [] ∧
    (run [0, 0, 0] (exampleOverlap 1 [] ['c', 'a'])).running =
      [⟨0, [Frame.visit (build 1 exampleDict)._root []]⟩] ∧
    (run (List.replicate 60 0) (exampleOverlap 1 [] ['c', 'a'])).driver = Driver.ready ∧
    (run (List.replicate 60 0) (exampleOverlap 1 [] ['c', 'a'])).running.length = 0 ∧
    (run (List.replicate 60 0) (exampleOverlap 1 [] ['c', 'a'])).delivered =
      [[['d', 'o', 'g'], ['c', 'a', 'r'], ['c', 'a', 'r', 't'], ['c', 'a', 't']]] :=
  ⟨rfl, by decide, by decide, rfl, by decide, rfl, rfl, by decide, by decide⟩

set_option maxRecDepth 1000000 in
/-- C8, the code when the loop of `stopAllWorkers` does not hold the driving thread: in the
scenario on two workers a search for "ca" is called while the worker of the search for
the empty prefix runs; the driving thread leaves the loop, clears the results and starts
the session for "ca", and the workers of both sessions append to the same results.  The
callback is called once, when all ids are idle, with dog, car, cart, cat, cat, car,
cart: "dog" does not start with "ca" and was appended by the worker of the first
session after `stopAllWorkers` had returned. -/
theorem stale_results_in_new_session :
    (run [0, 0, 0] (exampleOverlap 2 [] ['c', 'a'])).driver = Driver.ready ∧
    (run [0, 0, 0] (exampleOverlap 2 [] ['c', 'a']))._results = [] ∧
    (run [0, 0, 0] (exampleOverlap 2 [] ['c', 'a'])).running =
      [⟨0, [Frame.visit (build 2 exampleDict)._root []]⟩,
       ⟨1, [Frame.visit exampleNode ['c', 'a']]⟩] ∧
    (run (List.replicate 33 0) (exampleOverlap 2 [] ['c', 'a'])).delivered = [] ∧
    (run (List.replicate 34 0) (exampleOverlap 2 [] ['c', 'a'])).running.length = 0 ∧
    (run (List.replicate 34 0) (exampleOverlap 2 [] ['c', 'a'])).delivered =
      [[['d', 'o', 'g'], ['c', 'a', 'r'], ['c', 'a', 'r', 't'], ['c', 'a', 't'],
        ['c', 'a', 't'], ['c', 'a', 'r'], ['c', 'a', 'r', 't']]] ∧
    ¬ ['c', 'a'] <+: ['d', 'o', 'g'] :=
  ⟨rfl, by decide, rfl, by decide, by decide, by decide, by decide⟩

set_option maxRecDepth 1000000 in
/-- C29, the code when the loop of `stopAllWorkers` does not hold the driving thread, in the
scenario on two workers.  A search for "ca" called while the worker of a search for "ca"
runs: the one callback receives car, cart, cat, cat, car, cart, every entry twice.  A
search for "ca" called while the worker of a search for "d" runs: the one callback
receives dog, cat, car, cart, which are not all words that start with "d" and not all
words that start with "ca". -/
theorem overlapping_sessions_deliver_unsound :
    (run (List.replicate 24 0) (exampleOverlap 2 ['c', 'a'] ['c', 'a'])).running.length = 0 ∧
    (run (List.replicate 24 0) (exampleOverlap 2 ['c', 'a'] ['c', 'a'])).delivered =
      [[['c', 'a', 'r'], ['c', 'a', 'r', 't'], ['c', 'a', 't'],
        ['c', 'a', 't'], ['c', 'a', 'r'], ['c', 'a', 'r', 't']]] ∧
    ¬ [['c', 'a', 'r'], ['c', 'a', 'r', 't'], ['c', 'a', 't'],
        ['c', 'a', 't'], ['c', 'a', 'r'], ['c', 'a', 'r', 't']].Nodup ∧
    (run (List.replicate 18 0) (exampleOverlap 2 ['d'] ['c', 'a'])).running.length = 0 ∧
    (run (List.replicate 18 0) (exampleOverlap 2 ['d'] ['c', 'a'])).delivered =
      [[['d', 'o', 'g'], ['c', 'a', 't'], ['c', 'a', 'r'], ['c', 'a', 'r', 't']]] ∧
    ¬ ['c', 'a'] <+: ['d', 'o', 'g'] ∧ ¬ ['d'] <+: ['c', 'a', 't'] := by
  decide

end Trie_c

/-! ## A thread object detached twice -/

namespace Handles

theorem step_terminated (s : Handles) (k : Nat) (h : s.terminated = true) : step s k = s := by
  simp [step, h]

theorem run_terminated (sched : List Nat) : ∀ s : Handles, s.terminated = true →
    run sched s = s := by
  induction sched with
  | nil => intro s _; rfl
  | cons k sched ih =>
    intro s h
    simp only [run, List.foldl]
    rw [step_terminated s k h]
    exact ih s h

set_option maxRecDepth 1000000 in
/-- C4, the code with the thread objects taken into account: the dictionary aa, ab, ba, bb on
three workers, a search for the empty prefix, which exists.  The worker with id 1
reserves id 0 and starts a task on it, and is not scheduled before its `detach`; the
task appends its word and releases id 0; the worker with id 2 reserves id 0, finds
`_workers[ 0 ]` joinable, moves it to `_dump`, starts its task and detaches it; then
the `detach` of the worker with id 1 finds `_workers[ 0 ]` not joinable and throws.
The process is terminated: the callback has not been called and is not called in any
continuation. -/
theorem detach_throws_before_callback (later : List Nat) :
    hasPath (Trie_c.build 3 exampleSquare)._root [] = true ∧
    (exampleRace 15).detaching = [] ∧ (exampleRace 15)._workers = [false, false, false] ∧
    (exampleRace 16).detaching = [(1, 0)] ∧ (exampleRace 16)._workers = [true, false, false] ∧
    (exampleRace 18).trie._idleWorkers = [0] ∧ (exampleRace 18).detaching = [(1, 0)] ∧
    (exampleRace 21)._dump = 1 ∧ (exampleRace 21).detaching = [(2, 0), (1, 0)] ∧
    (exampleRace 22).detaching = [(1, 0)] ∧ (exampleRace 22)._workers = [false, false, false] ∧
    (exampleRace 22).terminated = false ∧
    (exampleRace 23).terminated = true ∧ (exampleRace 23).trie.delivered = [] ∧
    (run later (exampleRace 23)).trie.delivered = [] := by
  have h : (exampleRace 23).terminated = true := by decide
  rw [run_terminated later _ h]
  decide

set_option maxRecDepth 1000000 in
/-- C24, the code with the thread objects taken into account, in the run of `exampleRace`: when
the `detach` of the worker with id 1 throws, the exception leaves its `traverse` and
`startThread`; the ids 1, 2 and 0 are held by tasks, the idle list is empty, and in no
continuation is an id pushed back. -/
theorem detach_throws_before_release (later : List Nat) :
    (exampleRace 22).trie.running.map Worker.workerId = [1, 2, 0] ∧
    (exampleRace 22).detaching.lookup 1 = some 0 ∧
    (exampleRace 22)._workers.getD 0 false = false ∧
    (exampleRace 23).terminated = true ∧
    (exampleRace 23).trie.running.map Worker.workerId = [1, 2, 0] ∧
    (exampleRace 23).trie._idleWorkers = [] ∧
    (run later (exampleRace 23)).trie._idleWorkers = [] ∧
    (run later (exampleRace 23)).trie.running.map Worker.workerId = [1, 2, 0] := by
  have h : (exampleRace 23).terminated = true := by decide
  rw [run_terminated later _ h]
  decide

end Handles

namespace Handles

/-- The trie in a transition with the thread objects stays as it is (a `detach`, or none after
termination) or makes the transition of `Trie_c.step`. -/
theorem step_trie (s : Handles) (k : Nat) :
    (step s k).trie = s.trie ∨ (step s k).trie = Trie_c.step s.trie k := by
  unfold step
  by_cases ht : s.terminated = true
  · simp [ht]
  · simp only [ht, Bool.false_eq_true, if_false]
    by_cases h0 : (if Trie_c.driverEnabled s.trie = true then 1 else 0) +
        s.trie.running.length = 0
    · simp [h0]
    · simp only [h0, if_false]
      by_cases hd : k % ((if Trie_c.driverEnabled s.trie = true then 1 else 0) +
          s.trie.running.length) < (if Trie_c.driverEnabled s.trie = true then 1 else 0)
      · right
        simp [Trie_c.step, h0, hd]
      · simp only [hd, if_false]
        cases hw : s.trie.running.get? (k % ((if Trie_c.driverEnabled s.trie = true then 1
            else 0) + s.trie.running.length) -
            (if Trie_c.driverEnabled s.trie = true then 1 else 0)) with
        | none => left; rfl
        | some w =>
          cases hl : s.detaching.lookup w.workerId with
          | some id =>
            left
            simp only [workerAct, hl]
            split <;> rfl
          | none =>
            right
            simp only [workerAct, hl]
            have hstep : Trie_c.step s.trie k = Trie_c.workerAct s.trie
                (k % ((if Trie_c.driverEnabled s.trie = true then 1 else 0) +
                  s.trie.running.length) -
                  (if Trie_c.driverEnabled s.trie = true then 1 else 0)) w := by
              simp only [Trie_c.step, h0, hd, if_false, Trie_c.workerStep, hw]
            rw [hstep]
            split <;> rfl

end Handles

end AutoComplete
